import Mathlib

set_option linter.unusedSectionVars false

/-!
# Direct-stiffness truss solver (`truss.c`): embedding and verified properties

The solver pipeline of `truss.c`
(`assemble_global_stiffness`, `apply_boundary_conditions`, `compute_reactions`,
`compute_member_forces`) is embedded as pure functions.

* A C heap array is an `Arr`: the allocated size together with the cells as a
  function of the index; a write replaces one cell.  Reads and writes outside
  the allocated size are undefined behaviour in C and are not used by any
  statement below.
* C `for` loops are `forLoop` / `forDown` over the same index ranges, with the
  loop body as a state transformer.
* A `double` is read in exact arithmetic over an ordered field `α`; the loaded
  coordinates, loads and member properties are finite.  The only source of
  non-finite values in the solver is division; `Dbl.undef` stands for the
  outcome of a division by zero (IEEE NaN or ±Inf) and absorbs every later
  operation, so a statement `x = Dbl.fin v` says that `x` was computed without
  any division by zero and has the exact value `v`.  Rounding and overflow are
  not modelled.
* `sqrt` of the C library is a parameter of the embedding; the concrete runs
  use `Rat.sqrt`, which is exact on the squares that occur.
* The globals of `truss.c` are passed and returned explicitly.
* For the effect of `apply_boundary_conditions` on memory the function is embedded a
  second time on a heap of numbered blocks (`Heap`, `apply_boundary_conditions_h`), in
  which `K_global`, `F_global`, `K_reduced`, `F_reduced`, `D_reduced` and
  `displacements` are pointers; its reads, writes, allocations and frees follow the
  statements of the source one by one.
* The loader (`trim_whitespace`, `parse_csv_line`, `read_input`) works on lists of
  characters, one list per line that `fgets` returns.  The library function `atof`, the
  conversion `(int)` and the content of the block that `malloc` returns are parameters;
  `exit(EXIT_FAILURE)` is the result `none`.
-/

namespace Truss

/-! ## Doubles in exact arithmetic -/

/-- A C double in exact arithmetic: a finite value, or `undef` once a division by
zero has been involved in computing it. -/
inductive Dbl (α : Type) where
  | undef : Dbl α
  | fin : α → Dbl α
  deriving DecidableEq

namespace Dbl

variable {α : Type} [LinearOrderedField α]

/-- Addition of doubles. -/
def add : Dbl α → Dbl α → Dbl α
  | fin a, fin b => fin (a + b)
  | _, _ => undef

/-- Subtraction of doubles. -/
def sub : Dbl α → Dbl α → Dbl α
  | fin a, fin b => fin (a - b)
  | _, _ => undef

/-- Multiplication of doubles. -/
def mul : Dbl α → Dbl α → Dbl α
  | fin a, fin b => fin (a * b)
  | _, _ => undef

/-- Division of doubles; a zero divisor gives no finite value. -/
def div : Dbl α → Dbl α → Dbl α
  | fin a, fin b => if b = 0 then undef else fin (a / b)
  | _, _ => undef

/-- Unary minus. -/
def neg : Dbl α → Dbl α
  | fin a => fin (-a)
  | undef => undef

/-- The C library `fabs`. -/
def fabs : Dbl α → Dbl α
  | fin a => fin |a|
  | undef => undef

/-- The C comparison `a > b`; it is false when an operand is NaN. -/
def gt : Dbl α → Dbl α → Bool
  | fin a, fin b => decide (b < a)
  | _, _ => false

instance : Zero (Dbl α) := ⟨fin 0⟩
instance : Add (Dbl α) := ⟨add⟩
instance : Sub (Dbl α) := ⟨sub⟩
instance : Mul (Dbl α) := ⟨mul⟩
instance : Div (Dbl α) := ⟨div⟩
instance : Neg (Dbl α) := ⟨neg⟩

/-- Sums of doubles: addition is associative and commutative in exact arithmetic, with
`undef` absorbing. -/
instance : AddCommMonoid (Dbl α) where
  add := (· + ·)
  zero := 0
  add_assoc := by
    intro a b c
    cases a <;> cases b <;> cases c <;> first | rfl | exact congrArg fin (add_assoc _ _ _)
  zero_add := by
    intro a
    cases a
    · rfl
    · exact congrArg fin (zero_add _)
  add_zero := by
    intro a
    cases a
    · rfl
    · exact congrArg fin (add_zero _)
  add_comm := by
    intro a b
    cases a <;> cases b <;> first | rfl | exact congrArg fin (add_comm _ _)
  nsmul := nsmulRec

end Dbl

/-! ## Loops and arrays -/

/-- The C loop `for (i = lo; i < hi; i++) body`, as a state transformer. -/
def forLoop {σ : Type} (lo hi : Nat) (body : Nat → σ → σ) (s : σ) : σ :=
  (List.range' lo (hi - lo)).foldl (fun acc i => body i acc) s

/-- The C loop `for (i = n - 1; i >= 0; i--) body`, as a state transformer. -/
def forDown {σ : Type} : Nat → (Nat → σ → σ) → σ → σ
  | 0, _, s => s
  | n + 1, body, s => forDown n body (body n s)

/-- A heap array: allocated size and cells. -/
structure Arr (β : Type) where
  size : Nat
  get : Nat → β

namespace Arr

variable {β : Type}

/-- The block `calloc(n, ...)`, every cell holding `z`. -/
def calloc (n : Nat) (z : β) : Arr β := ⟨n, fun _ => z⟩

/-- The write `a[i] = v`. -/
def set (a : Arr β) (i : Nat) (v : β) : Arr β :=
  ⟨a.size, fun k => if k = i then v else a.get k⟩

/-- The read `K[i][j]` from an array of rows. -/
def get2 (K : Arr (Arr β)) (i j : Nat) : β := (K.get i).get j

/-- The write `K[i][j] = v` into an array of rows. -/
def set2 (K : Arr (Arr β)) (i j : Nat) (v : β) : Arr (Arr β) :=
  K.set i ((K.get i).set j v)

/-- The first `size` cells as a list. -/
def toList (a : Arr β) : List β := (List.range a.size).map a.get

end Arr

/-- A matrix: an array of row arrays, as `double **`. -/
abbrev Mat (α : Type) := Arr (Arr (Dbl α))

/-- A vector of doubles, as `double *`. -/
abbrev Vec (α : Type) := Arr (Dbl α)

/-! ## Data model -/

/-- The record `Node` of `truss.c`. -/
structure Node (α : Type) where
  id : Int
  x : α
  y : α
  z : α
  constraints : Nat → Int
  loads : Nat → α

/-- The record `Member` of `truss.c`; `node1` and `node2` are indices into the node
array (the loader exits when an identifier is not found, so they are never
negative in a loaded model). -/
structure Member (α : Type) where
  id : Int
  node1 : Nat
  node2 : Nat
  E : α
  A : α

/-- The record `MemberResult` of `truss.c`. -/
structure MemberResult (α : Type) where
  force : Dbl α
  stress : Dbl α
  length : Dbl α
  status : String

variable {α : Type} [LinearOrderedField α]

instance : Inhabited (Node α) := ⟨⟨0, 0, 0, 0, fun _ => 0, fun _ => 0⟩⟩

/-- A three-element C array. -/
def arr3 {β : Type} (a b c : β) : Nat → β := fun i =>
  if i = 0 then a else if i = 1 then b else c

/-- The global `total_dofs = 3 * n_nodes`. -/
def total_dofs (nodes : List (Node α)) : Nat := 3 * nodes.length

/-! ## `assemble_global_stiffness` -/

/-- The load vector loop of `assemble_global_stiffness`. -/
def F_global (nodes : List (Node α)) : Vec α :=
  forLoop 0 nodes.length (fun i F =>
    let F1 := F.set (3 * i) (Dbl.fin ((nodes.getD i default).loads 0))
    let F2 := F1.set (3 * i + 1) (Dbl.fin ((nodes.getD i default).loads 1))
    F2.set (3 * i + 2) (Dbl.fin ((nodes.getD i default).loads 2)))
    (Arr.calloc (total_dofs nodes) 0)

/-- The member length `L = sqrt(dx*dx + dy*dy + dz*dz)`. -/
def member_length (sqrt : α → α) (nodes : List (Node α)) (m : Member α) : α :=
  let ni := nodes.getD m.node1 default
  let nj := nodes.getD m.node2 default
  let dx := nj.x - ni.x
  let dy := nj.y - ni.y
  let dz := nj.z - ni.z
  sqrt (dx * dx + dy * dy + dz * dz)

/-- The direction cosines `cx = dx/L`, `cy = dy/L`, `cz = dz/L`, indexed by axis. -/
def direction (sqrt : α → α) (nodes : List (Node α)) (m : Member α) : Nat → Dbl α :=
  let ni := nodes.getD m.node1 default
  let nj := nodes.getD m.node2 default
  let L := Dbl.fin (member_length sqrt nodes m)
  arr3 (Dbl.fin (nj.x - ni.x) / L) (Dbl.fin (nj.y - ni.y) / L) (Dbl.fin (nj.z - ni.z) / L)

/-- The axial stiffness `k = E * A / L`. -/
def member_k (sqrt : α → α) (nodes : List (Node α)) (m : Member α) : Dbl α :=
  Dbl.fin (m.E * m.A) / Dbl.fin (member_length sqrt nodes m)

/-- The initialiser of the element matrix `ke[6][6]`. -/
def ke_init (cx cy cz : Dbl α) : List (List (Dbl α)) :=
  [[cx*cx, cx*cy, cx*cz, (-cx)*cx, (-cx)*cy, (-cx)*cz],
   [cy*cx, cy*cy, cy*cz, (-cy)*cx, (-cy)*cy, (-cy)*cz],
   [cz*cx, cz*cy, cz*cz, (-cz)*cx, (-cz)*cy, (-cz)*cz],
   [(-cx)*cx, (-cx)*cy, (-cx)*cz, cx*cx, cx*cy, cx*cz],
   [(-cy)*cx, (-cy)*cy, (-cy)*cz, cy*cx, cy*cy, cy*cz],
   [(-cz)*cx, (-cz)*cy, (-cz)*cz, cz*cx, cz*cy, cz*cz]]

/-- The element matrix after the loop `ke[p][q] *= k`. -/
def ke (cx cy cz k : Dbl α) (p q : Nat) : Dbl α :=
  (((ke_init cx cy cz).getD p []).getD q 0) * k

/-- The array `dofs[6] = {3i, 3i+1, 3i+2, 3j, 3j+1, 3j+2}`. -/
def dofs (i j : Nat) (p : Nat) : Nat :=
  [3*i, 3*i+1, 3*i+2, 3*j, 3*j+1, 3*j+2].getD p 0

/-- The double loop `K_global[dofs[p]][dofs[q]] += ke[p][q]`. -/
def add_element (e : Nat → Nat → Dbl α) (d : Nat → Nat) (K : Mat α) : Mat α :=
  forLoop 0 6 (fun p K1 =>
    forLoop 0 6 (fun q K2 => K2.set2 (d p) (d q) (K2.get2 (d p) (d q) + e p q)) K1) K

/-- One iteration of the member loop of `assemble_global_stiffness`. -/
def assemble_member (sqrt : α → α) (nodes : List (Node α)) (K : Mat α)
    (m : Member α) : Mat α :=
  let c := direction sqrt nodes m
  add_element (ke (c 0) (c 1) (c 2) (member_k sqrt nodes m)) (dofs m.node1 m.node2) K

/-- The stiffness matrix built by `assemble_global_stiffness`; the `calloc`ed rows
start as zeros. -/
def K_global (sqrt : α → α) (nodes : List (Node α)) (members : List (Member α)) : Mat α :=
  members.foldl (assemble_member sqrt nodes)
    (Arr.calloc (total_dofs nodes) (Arr.calloc (total_dofs nodes) 0))

/-- The pair built by `assemble_global_stiffness`: the globals `K_global`, `F_global`. -/
def assemble_global_stiffness (sqrt : α → α) (nodes : List (Node α))
    (members : List (Member α)) : Mat α × Vec α :=
  (K_global sqrt nodes members, F_global nodes)

/-! ## `apply_boundary_conditions` -/

/-- The array `is_fixed` after the marking loops (`calloc` gives zeros). -/
def is_fixed (nodes : List (Node α)) : Arr Int :=
  forLoop 0 nodes.length (fun i f =>
    forLoop 0 3 (fun j f1 =>
      if (nodes.getD i default).constraints j ≠ 0 then f1.set (3 * i + j) 1 else f1) f)
    (Arr.calloc (total_dofs nodes) 0)

/-- The counter `n_free` after the counting loop. -/
def n_free (nodes : List (Node α)) : Nat :=
  forLoop 0 (total_dofs nodes) (fun i c => if (is_fixed nodes).get i = 0 then c + 1 else c) 0

/-- The loop that fills `dof_map`, with the running `count`; the `malloc`ed block is
written at every index below `total_dofs`. -/
def dof_map_loop (nodes : List (Node α)) : Arr Int × Nat :=
  forLoop 0 (total_dofs nodes) (fun i s =>
    if (is_fixed nodes).get i = 0 then (s.1.set i (s.2 : Int), s.2 + 1)
    else (s.1.set i (-1), s.2))
    (Arr.calloc (total_dofs nodes) 0, 0)

/-- The array `dof_map`. -/
def dof_map (nodes : List (Node α)) : Arr Int := (dof_map_loop nodes).1

/-- The loops that fill `K_reduced` and `F_reduced` (both start zeroed by `calloc`). -/
def fill_reduced (nodes : List (Node α)) (K : Mat α) (F : Vec α) : Mat α × Vec α :=
  forLoop 0 (total_dofs nodes) (fun i s =>
    if (is_fixed nodes).get i = 0 then
      let i_red := ((dof_map nodes).get i).toNat
      let Fr := s.2.set i_red (F.get i)
      let Kr := forLoop 0 (total_dofs nodes) (fun j Kr =>
        if (is_fixed nodes).get j = 0 then
          Kr.set2 i_red ((dof_map nodes).get j).toNat (K.get2 i j)
        else Kr) s.1
      (Kr, Fr)
    else s)
    (Arr.calloc (n_free nodes) (Arr.calloc (n_free nodes) 0), Arr.calloc (n_free nodes) 0)

/-- The pivot search: `max_row` after the loop over rows `piv+1 .. n-1`. -/
def find_pivot (K : Mat α) (n piv : Nat) : Nat :=
  forLoop (piv + 1) n (fun i max_row =>
    if Dbl.gt (Dbl.fabs (K.get2 i piv)) (Dbl.fabs (K.get2 max_row piv)) then i
    else max_row) piv

/-- The row exchange of `K_reduced` (row pointers) and `F_reduced`. -/
def swap_rows (s : Mat α × Vec α) (piv max_row : Nat) : Mat α × Vec α :=
  if max_row ≠ piv then
    ((s.1.set piv (s.1.get max_row)).set max_row (s.1.get piv),
     (s.2.set piv (s.2.get max_row)).set max_row (s.2.get piv))
  else s

/-- The elimination loop below pivot row `piv`. -/
def eliminate (n piv : Nat) (s : Mat α × Vec α) : Mat α × Vec α :=
  forLoop (piv + 1) n (fun i s1 =>
    let factor := s1.1.get2 i piv / s1.1.get2 piv piv
    let K1 := forLoop piv n (fun j K => K.set2 i j (K.get2 i j - factor * K.get2 piv j)) s1.1
    (K1, s1.2.set i (s1.2.get i - factor * s1.2.get piv))) s

/-- One iteration of the pivot loop: search, exchange, eliminate. -/
def pivot_step (n piv : Nat) (s : Mat α × Vec α) : Mat α × Vec α :=
  eliminate n piv (swap_rows s piv (find_pivot s.1 n piv))

/-- Forward elimination with partial pivoting. -/
def forward_elimination (n : Nat) (s : Mat α × Vec α) : Mat α × Vec α :=
  forLoop 0 n (pivot_step n) s

/-- Back substitution; `D_reduced` starts zeroed by `calloc`. -/
def back_substitution (n : Nat) (K : Mat α) (F : Vec α) : Vec α :=
  forDown n (fun i D =>
    let D1 := D.set i (F.get i)
    let D2 := forLoop (i + 1) n (fun j D3 => D3.set i (D3.get i - K.get2 i j * D3.get j)) D1
    D2.set i (D2.get i / K.get2 i i))
    (Arr.calloc n 0)

/-- The reduced system solved in place: `D_reduced`. -/
def solve_reduced (n : Nat) (K : Mat α) (F : Vec α) : Vec α :=
  let s := forward_elimination n (K, F)
  back_substitution n s.1 s.2

/-- The expansion loop: `displacements` is `calloc`ed with `total_dofs` zeros and the
free entries are copied from `D_reduced`. -/
def expand (nodes : List (Node α)) (D_reduced : Vec α) : Vec α :=
  forLoop 0 (total_dofs nodes) (fun i d =>
    if (is_fixed nodes).get i = 0 then d.set i (D_reduced.get ((dof_map nodes).get i).toNat)
    else d)
    (Arr.calloc (total_dofs nodes) 0)

/-- The vector `D_reduced` that `apply_boundary_conditions` computes. -/
def D_reduced (nodes : List (Node α)) (K : Mat α) (F : Vec α) : Vec α :=
  let s := fill_reduced nodes K F
  solve_reduced (n_free nodes) s.1 s.2

/-- The global `displacements` left by `apply_boundary_conditions`. -/
def apply_boundary_conditions (nodes : List (Node α)) (K : Mat α) (F : Vec α) : Vec α :=
  expand nodes (D_reduced nodes K F)

/-! ## `compute_reactions` and `compute_member_forces` -/

/-- The global `reactions` left by `compute_reactions`. -/
def compute_reactions (nodes : List (Node α)) (K : Mat α) (F : Vec α)
    (displacements : Vec α) : Vec α :=
  let r1 := forLoop 0 (total_dofs nodes) (fun i r =>
    forLoop 0 (total_dofs nodes) (fun j r2 =>
      r2.set i (r2.get i + K.get2 i j * displacements.get j)) r)
    (Arr.calloc (total_dofs nodes) 0)
  forLoop 0 (total_dofs nodes) (fun i r => r.set i (r.get i - F.get i)) r1

/-- The body of the member loop of `compute_member_forces`. -/
def member_result (sqrt : α → α) (nodes : List (Node α)) (displacements : Vec α)
    (m : Member α) : MemberResult α :=
  let i := m.node1
  let j := m.node2
  let L := member_length sqrt nodes m
  let c := direction sqrt nodes m
  let delta := c 0 * (displacements.get (3 * j) - displacements.get (3 * i)) +
               c 1 * (displacements.get (3 * j + 1) - displacements.get (3 * i + 1)) +
               c 2 * (displacements.get (3 * j + 2) - displacements.get (3 * i + 2))
  let force := (Dbl.fin (m.E * m.A) / Dbl.fin L) * delta
  let stress := force / Dbl.fin m.A
  ⟨force, stress, Dbl.fin L, if Dbl.gt force 0 then "Tension" else "Compression"⟩

/-- The global `member_results` left by `compute_member_forces`: one record per
member in member order, none when there is no member. -/
def compute_member_forces (sqrt : α → α) (nodes : List (Node α))
    (members : List (Member α)) (displacements : Vec α) : List (MemberResult α) :=
  if members.length = 0 then [] else members.map (member_result sqrt nodes displacements)

/-- The solver pipeline of `main` after loading: displacements, reactions and member
results. -/
def solve (sqrt : α → α) (nodes : List (Node α)) (members : List (Member α)) :
    Vec α × Vec α × List (MemberResult α) :=
  let kf := assemble_global_stiffness sqrt nodes members
  let d := apply_boundary_conditions nodes kf.1 kf.2
  (d, compute_reactions nodes kf.1 kf.2 d, compute_member_forces sqrt nodes members d)

/-! ## Vocabulary of the statements -/

/-- The matrix `K` holds the finite values `A` on its leading `n × n` block. -/
def MatIs (n : Nat) (K : Mat α) (A : Nat → Nat → α) : Prop :=
  ∀ i j, i < n → j < n → K.get2 i j = Dbl.fin (A i j)

/-- The vector `F` holds the finite values `b` on its first `n` cells. -/
def VecIs (n : Nat) (F : Vec α) (b : Nat → α) : Prop :=
  ∀ i, i < n → F.get i = Dbl.fin (b i)

/-- The vector `x` solves the `n × n` linear system `A x = b`. -/
def Solves (n : Nat) (A : Nat → Nat → α) (b x : Nat → α) : Prop :=
  ∀ i, i < n → ∑ j in Finset.range n, A i j * x j = b i

/-- The `n × n` matrix `A` is non-singular: `A x = 0` only for `x = 0`. -/
def Nonsingular (n : Nat) (A : Nat → Nat → α) : Prop :=
  ∀ x : Nat → α, Solves n A (fun _ => 0) x → ∀ j, j < n → x j = 0

/-- The index exchange performed by a row swap of rows `p` and `r`. -/
def swapIdx (p r a : Nat) : Nat := if a = r then p else if a = p then r else a

/-- The matrix of the elimination step at pivot `p`, in exact arithmetic with a non-zero
pivot: rows below `p` lose `A i p / A p p` times row `p` on the columns `p .. n-1`. -/
def elimA (n p : Nat) (A : Nat → Nat → α) : Nat → Nat → α := fun i j =>
  if p < i ∧ i < n ∧ p ≤ j ∧ j < n then A i j - A i p / A p p * A p j else A i j

/-- The right-hand side of the elimination step at pivot `p`. -/
def elimB (n p : Nat) (A : Nat → Nat → α) (b : Nat → α) : Nat → α := fun i =>
  if p < i ∧ i < n then b i - A i p / A p p * b p else b i

/-- Columns `0 .. p-1` of `A` are zero below the diagonal. -/
def LowerZero (n p : Nat) (A : Nat → Nat → α) : Prop :=
  ∀ i j, j < p → j < i → i < n → A i j = 0

/-- The signed direction cosines `[cx, cy, cz, -cx, -cy, -cz]` of a member, in exact
arithmetic. -/
def cos6 (sqrt : α → α) (nodes : List (Node α)) (m : Member α) (p : Nat) : α :=
  let ni := nodes.getD m.node1 default
  let nj := nodes.getD m.node2 default
  let L := member_length sqrt nodes m
  [(nj.x - ni.x) / L, (nj.y - ni.y) / L, (nj.z - ni.z) / L,
   -((nj.x - ni.x) / L), -((nj.y - ni.y) / L), -((nj.z - ni.z) / L)].getD p 0

/-- The stiffness matrix as the specification states it: entry `(P, Q)` is the sum over
the members and over the local index pairs `(p, q)` with `dofs[p] = P`, `dofs[q] = Q` of
`(E A / L) * c[p] * c[q]`. -/
def K_exact (sqrt : α → α) (nodes : List (Node α)) (members : List (Member α))
    (P Q : Nat) : α :=
  (members.map (fun m =>
    ∑ p in Finset.range 6, ∑ q in Finset.range 6,
      if dofs m.node1 m.node2 p = P ∧ dofs m.node1 m.node2 q = Q then
        m.E * m.A / member_length sqrt nodes m * cos6 sqrt nodes m p * cos6 sqrt nodes m q
      else 0)).sum

/-- The contribution of one member to entry `(P, Q)`, as the doubles the code adds. -/
def elem_term (sqrt : α → α) (nodes : List (Node α)) (m : Member α) (P Q : Nat) : Dbl α :=
  ∑ p in Finset.range 6, ∑ q in Finset.range 6,
    if dofs m.node1 m.node2 p = P ∧ dofs m.node1 m.node2 q = Q then
      ke (direction sqrt nodes m 0) (direction sqrt nodes m 1) (direction sqrt nodes m 2)
        (member_k sqrt nodes m) p q
    else 0

/-- A loaded model the solver can run on: member node indices are valid and every member
has non-zero length. -/
def ValidModel (sqrt : α → α) (nodes : List (Node α)) (members : List (Member α)) : Prop :=
  ∀ m ∈ members, m.node1 < nodes.length ∧ m.node2 < nodes.length ∧
    member_length sqrt nodes m ≠ 0

/-- The reduced system of the model is a non-singular matrix of finite values. -/
def ReducedNonsingular (nodes : List (Node α)) (K : Mat α) (F : Vec α) : Prop :=
  ∃ Ar : Nat → Nat → α, MatIs (n_free nodes) (fill_reduced nodes K F).1 Ar ∧
    Nonsingular (n_free nodes) Ar

/-- The pivot that partial pivoting places at `(p, p)`: the diagonal entry after the
first `p` pivot steps and the row exchange of step `p`. -/
def chosen_pivot (n p : Nat) (s : Mat α × Vec α) : Dbl α :=
  let t := forLoop 0 p (pivot_step n) s
  (swap_rows t p (find_pivot t.1 n p)).1.get2 p p

/-- Rows below `p` hold no finite value: the right-hand side cells and the matrix cells
from column `p` on. -/
def Poisoned (n p : Nat) (t : Mat α × Vec α) : Prop :=
  ∀ i, p < i → i < n →
    t.2.get i = Dbl.undef ∧ ∀ j, p ≤ j → j < n → t.1.get2 i j = Dbl.undef

/-- The squared distance `dx*dx + dy*dy + dz*dz` between the end nodes of a member. -/
def sq_dist (nodes : List (Node α)) (m : Member α) : α :=
  let ni := nodes.getD m.node1 default
  let nj := nodes.getD m.node2 default
  (nj.x - ni.x) * (nj.x - ni.x) + (nj.y - ni.y) * (nj.y - ni.y) +
    (nj.z - ni.z) * (nj.z - ni.z)

/-- The library `sqrt` returns the square root at `x`. -/
def SqrtExactAt (sqrt : α → α) (x : α) : Prop := 0 ≤ sqrt x ∧ sqrt x * sqrt x = x

/-- The end nodes of the member are at distinct positions. -/
def DistinctEnds (nodes : List (Node α)) (m : Member α) : Prop :=
  (nodes.getD m.node1 default).x ≠ (nodes.getD m.node2 default).x ∨
  (nodes.getD m.node1 default).y ≠ (nodes.getD m.node2 default).y ∨
  (nodes.getD m.node1 default).z ≠ (nodes.getD m.node2 default).z

/-- The end nodes of the member have identical coordinates. -/
def CoincidentEnds (nodes : List (Node α)) (m : Member α) : Prop :=
  (nodes.getD m.node1 default).x = (nodes.getD m.node2 default).x ∧
  (nodes.getD m.node1 default).y = (nodes.getD m.node2 default).y ∧
  (nodes.getD m.node1 default).z = (nodes.getD m.node2 default).z

/-- The axial force as the specification states it:
`(E A / L) * (cx (Dj.x - Di.x) + cy (Dj.y - Di.y) + cz (Dj.z - Di.z))`. -/
def axial_force (sqrt : α → α) (nodes : List (Node α)) (m : Member α) (d : Nat → α) : α :=
  m.E * m.A / member_length sqrt nodes m *
    (cos6 sqrt nodes m 0 * (d (3 * m.node2) - d (3 * m.node1)) +
     cos6 sqrt nodes m 1 * (d (3 * m.node2 + 1) - d (3 * m.node1 + 1)) +
     cos6 sqrt nodes m 2 * (d (3 * m.node2 + 2) - d (3 * m.node1 + 2)))

/-- The coordinate of a node along axis `a` (0, 1, 2 for x, y, z). -/
def coord (nd : Node α) (a : Nat) : α := arr3 nd.x nd.y nd.z a

/-- The number of free DOFs among the DOFs `0 .. k-1`. -/
def freeBelow (nodes : List (Node α)) (k : Nat) : Nat :=
  ((Finset.range k).filter (fun d => (is_fixed nodes).get d = 0)).card

/-! ## Concrete inputs used to exercise the statements -/

/-- A non-singular `2 × 2` system whose first pivot needs a row exchange. -/
def exA : Nat → Nat → ℚ := fun i j =>
  if i = 0 then (if j = 0 then 1 else 2) else (if j = 0 then 3 else 4)

/-- The right-hand side of the example system. -/
def exb : Nat → ℚ := fun i => if i = 0 then 5 else 6

/-- The example system as `K_reduced`. -/
def exK : Mat ℚ := ⟨2, fun i => ⟨2, fun j => Dbl.fin (exA i j)⟩⟩

/-- The example right-hand side as `F_reduced`. -/
def exF : Vec ℚ := ⟨2, fun i => Dbl.fin (exb i)⟩

/-- Node 1 of the example truss: at the origin, all three axes constrained, no load. -/
def node_fixed : Node ℚ := ⟨1, 0, 0, 0, arr3 1 1 1, arr3 0 0 0⟩

/-- Node 2 of the example truss as the scenario of the specification gives it: at
`(10,0,0)`, no axis constrained, loads `(100,0,0)`. -/
def node_loaded : Node ℚ := ⟨2, 10, 0, 0, arr3 0 0 0, arr3 100 0 0⟩

/-- Node 2 restrained across the member axis: at `(10,0,0)`, constraint flags `(0,1,1)`,
loads `(100,0,0)`. -/
def node_roller : Node ℚ := ⟨2, 10, 0, 0, arr3 0 1 1, arr3 100 0 0⟩

/-- Node 2 restrained across the member axis and unloaded. -/
def node_idle : Node ℚ := ⟨2, 10, 0, 0, arr3 0 1 1, arr3 0 0 0⟩

/-- An unsupported, unloaded node at the origin. -/
def node_float1 : Node ℚ := ⟨1, 0, 0, 0, arr3 0 0 0, arr3 0 0 0⟩

/-- An unsupported, unloaded node at `(10,0,0)`. -/
def node_float2 : Node ℚ := ⟨2, 10, 0, 0, arr3 0 0 0, arr3 0 0 0⟩

/-- The member of the example truss: `E = 29000`, `A = 1`, from node index 0 to 1. -/
def bar : Member ℚ := ⟨1, 0, 1, 29000, 1⟩

/-- The displacements of the example truss `[node_fixed, node_roller]`, `[bar]`. -/
def exD : Nat → ℚ := fun i => if i = 3 then 1 / 29 else 0

/-- A small stiffness-like matrix used to exercise `compute_reactions`. -/
def exK6 : Mat ℚ := ⟨6, fun i => ⟨6, fun j => Dbl.fin ((i : ℚ) + 2 * (j : ℚ))⟩⟩

/-- A load vector used to exercise `compute_reactions`. -/
def exF6 : Vec ℚ := ⟨6, fun i => Dbl.fin ((i : ℚ) - 1)⟩

/-- A displacement vector used to exercise `compute_reactions`. -/
def exD6 : Vec ℚ := ⟨6, fun i => Dbl.fin (1 / ((i : ℚ) + 1))⟩

/-- The example displacements as a vector of doubles. -/
def exDv : Vec ℚ := ⟨6, fun i => Dbl.fin (exD i)⟩

/-- A second fully fixed node at the origin, coincident with `node_fixed`. -/
def node_twin : Node ℚ := ⟨2, 0, 0, 0, arr3 1 1 1, arr3 0 0 0⟩

/-- Node 2 fully fixed at `(10,0,0)` and carrying the load `(100,0,0)`. -/
def node_clamped : Node ℚ := ⟨2, 10, 0, 0, arr3 1 1 1, arr3 100 0 0⟩

/-! ## The loader: `trim_whitespace`, `parse_csv_line`, `read_input` -/

/-- The test `isspace` of the C locale: space, `\t`, `\n`, `\v`, `\f`, `\r`. -/
def isspace (c : Char) : Bool :=
  c.toNat = 32 || (9 ≤ c.toNat && c.toNat ≤ 13)

/-- The function `trim_whitespace` on a C string, given as the list of its characters
before the terminating NUL: the leading white space is passed over, an empty rest is
returned as it is, and otherwise `end` moves back from the last character over white
space and the string is cut after it. -/
def trim_whitespace (str : List Char) : List Char :=
  let str := str.dropWhile isspace
  if str = [] then str else (str.reverse.dropWhile isspace).reverse

/-- The scan behind `strtok(line, ",")` and the following `strtok(NULL, ",")` calls:
`cur` holds, reversed, the characters of the token being read.  A comma ends the token
when there is one and is passed over when there is none, so no empty token is ever
returned. -/
def strtok_scan : List Char → List Char → List (List Char)
  | [], cur => if cur = [] then [] else [cur.reverse]
  | c :: cs, cur =>
    if c = ',' then
      if cur = [] then strtok_scan cs [] else cur.reverse :: strtok_scan cs []
    else strtok_scan cs (c :: cur)

/-- The tokens that the successive `strtok` calls on `line` return, in order. -/
def strtok_all (line : List Char) : List (List Char) := strtok_scan line []

/-- The `while (token != NULL && count < max_values)` loop of `parse_csv_line` over the
tokens still to come; `values` holds `values[0 .. count-1]`. -/
def parse_loop {β : Type} (atof : List Char → β) (max_values : Nat) :
    List (List Char) → List β → List β
  | [], values => values
  | token :: rest, values =>
    if values.length < max_values then
      let token := trim_whitespace token
      if token.length > 0 then parse_loop atof max_values rest (values ++ [atof token])
      else parse_loop atof max_values rest values
    else values

/-- The function `parse_csv_line`: the list returned is `values[0 .. count-1]`, its
length the returned `count`.  The library function `atof` is a parameter. -/
def parse_csv_line {β : Type} (atof : List Char → β) (line : List Char) (max_values : Nat) :
    List β :=
  parse_loop atof max_values (strtok_all line) []

/-- The test `strlen(cleaned) == 0 || cleaned[0] == '#'` that makes both passes of
`read_input` pass over a line. -/
def is_skipped (line : List Char) : Bool :=
  let cleaned := trim_whitespace line
  cleaned.length = 0 || cleaned.head? = some '#'

/-- The body of the first pass of `read_input` on the counters `(n_nodes, n_members)`. -/
def count_record {β : Type} (atof : List Char → β) (c : Nat × Nat) (line : List Char) :
    Nat × Nat :=
  if is_skipped line then c
  else
    let num_values := (parse_csv_line atof line 10).length
    if num_values = 10 then (c.1 + 1, c.2)
    else if num_values = 5 then (c.1, c.2 + 1)
    else c

/-- The first pass of `read_input`: `(n_nodes, n_members)` after all lines. -/
def first_pass {β : Type} (atof : List Char → β) (lines : List (List Char)) : Nat × Nat :=
  lines.foldl (count_record atof) (0, 0)

/-- The node that the second pass stores for a line of ten values; `toInt` is the
conversion `(int)` of a double. -/
def node_of_values (toInt : α → Int) (values : List α) : Node α :=
  ⟨toInt (values.getD 0 0), values.getD 1 0, values.getD 2 0, values.getD 3 0,
    arr3 (toInt (values.getD 4 0)) (toInt (values.getD 5 0)) (toInt (values.getD 6 0)),
    arr3 (values.getD 7 0) (values.getD 8 0) (values.getD 9 0)⟩

/-- The field `nodes[j].id` as the second pass reads it when `nodes[0 .. node_count-1]`
have been stored: a slot not yet stored still has the content `heap j` that `malloc`
left in it. -/
def slot_id (heap : Nat → Int) (nodes : List (Node α)) (j : Nat) : Int :=
  match nodes.get? j with
  | some n => n.id
  | none => heap j

/-- The lookup loop `for (j = 0; j < n_nodes; j++)` of the second pass, started from
`m->node1 = -1; m->node2 = -1`. -/
def find_nodes (heap : Nat → Int) (n_nodes : Nat) (nodes : List (Node α))
    (node1_id node2_id : Int) : Int × Int :=
  forLoop 0 n_nodes (fun j r =>
    (if slot_id heap nodes j = node1_id then (j : Int) else r.1,
     if slot_id heap nodes j = node2_id then (j : Int) else r.2))
    (-1, -1)

/-- The state of the second pass of `read_input`: the nodes and members stored so far
(`node_count` and `member_count` are their lengths), `line_num`, and the warnings
written so far as pairs `(line_num, num_values)`. -/
structure ReadState (α : Type) where
  nodes : List (Node α)
  members : List (Member α)
  line_num : Nat
  warnings : List (Nat × Nat)

/-- The body of the second pass of `read_input`; `none` is `exit(EXIT_FAILURE)`. -/
def read_record (atof : List Char → α) (toInt : α → Int) (heap : Nat → Int)
    (n_nodes : Nat) (s : ReadState α) (line : List Char) : Option (ReadState α) :=
  if is_skipped line then some s
  else
    let values := parse_csv_line atof line 10
    let num_values := values.length
    if num_values = 10 then
      some { s with nodes := s.nodes ++ [node_of_values toInt values],
                    line_num := s.line_num + 1 }
    else if num_values = 5 then
      let node1_id := toInt (values.getD 1 0)
      let node2_id := toInt (values.getD 2 0)
      let r := find_nodes heap n_nodes s.nodes node1_id node2_id
      if r.1 = -1 ∨ r.2 = -1 then none
      else
        some { s with members := s.members ++
                        [⟨toInt (values.getD 0 0), r.1.toNat, r.2.toNat,
                          values.getD 3 0, values.getD 4 0⟩],
                      line_num := s.line_num + 1 }
    else
      some { s with warnings := s.warnings ++ [(s.line_num, num_values)],
                    line_num := s.line_num + 1 }

/-- The second pass of `read_input` over the lines still to come. -/
def second_pass (atof : List Char → α) (toInt : α → Int) (heap : Nat → Int)
    (n_nodes : Nat) : List (List Char) → ReadState α → Option (ReadState α)
  | [], s => some s
  | line :: rest, s =>
    match read_record atof toInt heap n_nodes s line with
    | none => none
    | some s1 => second_pass atof toInt heap n_nodes rest s1

/-- What `read_input` leaves behind when it returns. -/
structure Loaded (α : Type) where
  n_nodes : Nat
  n_members : Nat
  total_dofs : Nat
  nodes : List (Node α)
  members : List (Member α)
  warnings : List (Nat × Nat)

/-- The function `read_input` on the lines that the successive `fgets` calls return
(each with its newline, if any).  `atof` and the conversion `(int)` are parameters, and
`heap j` is the content of `nodes[j].id` in the block that `malloc` returns.  The result
`none` is `exit(EXIT_FAILURE)`. -/
def read_input (atof : List Char → α) (toInt : α → Int) (heap : Nat → Int)
    (lines : List (List Char)) : Option (Loaded α) :=
  let c := first_pass atof lines
  match second_pass atof toInt heap c.1 lines ⟨[], [], 0, []⟩ with
  | none => none
  | some s => some ⟨c.1, c.2, 3 * c.1, s.nodes, s.members, s.warnings⟩

/-- The comma-separated fields of a line, empty ones included. -/
def csv_fields : List Char → List (List Char)
  | [] => [[]]
  | c :: cs =>
    if c = ',' then [] :: csv_fields cs
    else
      match csv_fields cs with
      | [] => [[c]]
      | f :: fs => (c :: f) :: fs

/-- The fields of a line that hold something besides white space, each trimmed. -/
def nonblank_fields (line : List Char) : List (List Char) :=
  ((csv_fields line).map trim_whitespace).filter (fun f => f ≠ [])

/-- The value of a decimal digit, if the character is one. -/
def digit_value (c : Char) : Option Nat :=
  if 48 ≤ c.toNat ∧ c.toNat ≤ 57 then some (c.toNat - 48) else none

/-- The digits at the head of a string: their value, their number, and the rest. -/
def read_digits : List Char → Nat → Nat → Nat × Nat × List Char
  | [], v, k => (v, k, [])
  | c :: cs, v, k =>
    match digit_value c with
    | some d => read_digits cs (10 * v + d) (k + 1)
    | none => (v, k, c :: cs)

/-- An instance of `atof` on the rationals for decimal numerals: optional sign, digits,
optional fraction; what follows is ignored, and a string with no digits gives 0. -/
def atof_decimal (s : List Char) : ℚ :=
  let s := s.dropWhile isspace
  let neg := s.head? = some '-'
  let s := if s.head? = some '-' ∨ s.head? = some '+' then s.tail else s
  let a := read_digits s 0 0
  let b := if a.2.2.head? = some '.' then read_digits a.2.2.tail 0 0 else (0, 0, [])
  let v : ℚ := (a.1 : ℚ) + (b.1 : ℚ) / (10 : ℚ) ^ b.2.1
  if neg then -v else v

/-- The conversion `(int)` on the rationals: truncation toward zero. -/
def trunc_int (q : ℚ) : Int := Int.tdiv q.num (q.den : Int)

/-- A member record followed by a node record with another identifier. -/
def lines_member_first : List (List Char) :=
  ["0,0,0,29000,1\n".toList, "7,0,0,0,1,1,1,0,0,0\n".toList]

/-- Three node records, the first two with the same identifier 1, and a member record
from identifier 1 to identifier 2. -/
def lines_duplicate_id : List (List Char) :=
  ["1,0,0,0,1,1,1,0,0,0\n".toList, "1,5,0,0,1,1,1,0,0,0\n".toList,
   "2,10,0,0,0,1,1,100,0,0\n".toList, "1,1,2,29000,1\n".toList]

/-- A line with eleven comma-separated fields. -/
def line_eleven : List Char := "1,0,0,0,1,1,1,0,0,0,99\n".toList

/-- A line with three comma-separated fields. -/
def line_three : List Char := "1,2,3\n".toList

/-- The node `j` is the last node of the list whose identifier is `x`. -/
def IsLastWithId (nodes : List (Node α)) (x : Int) (j : Nat) : Prop :=
  j < nodes.length ∧ (nodes.getD j default).id = x ∧
    ∀ k, j < k → k < nodes.length → (nodes.getD k default).id ≠ x

/-- The nodes that the first three lines of `lines_duplicate_id` store. -/
def nodes_duplicate_id : List (Node ℚ) :=
  [⟨1, 0, 0, 0, arr3 1 1 1, arr3 0 0 0⟩, ⟨1, 5, 0, 0, arr3 1 1 1, arr3 0 0 0⟩,
   ⟨2, 10, 0, 0, arr3 0 1 1, arr3 100 0 0⟩]

/-- The member record of `lines_duplicate_id`. -/
def line_member_duplicate : List Char := "1,1,2,29000,1\n".toList

/-- The state of the second pass after the three node records of `lines_duplicate_id`. -/
def state_duplicate_id : ReadState ℚ := ⟨nodes_duplicate_id, [], 3, []⟩

/-- The state in which the second pass of `read_input` starts. -/
def state_initial : ReadState ℚ := ⟨[], [], 0, []⟩

/-- The entry `i` of the product `K * D`, the sum over the `total_dofs` columns. -/
def stiffness_times (nodes : List (Node α)) (K : Mat α) (D : Vec α) (i : Nat) : Dbl α :=
  ∑ j in Finset.range (total_dofs nodes), K.get2 i j * D.get j

/-- The resultant of the member forces at node `n` along axis `a`, as the specification
states it: the sum over the members with `node2 = n` of `force * c[a]` minus the sum
over the members with `node1 = n` of `force * c[a]`, where the forces are those that
`compute_member_forces` records for `D` and `c` are the direction cosines of the
member. -/
def member_resultant (sqrt : α → α) (nodes : List (Node α)) (members : List (Member α))
    (D : Vec α) (n a : Nat) : Dbl α :=
  let recs := members.zip (compute_member_forces sqrt nodes members D)
  ((recs.filter (fun mr => mr.1.node2 = n)).map
      (fun mr => mr.2.force * direction sqrt nodes mr.1 a)).sum -
    ((recs.filter (fun mr => mr.1.node1 = n)).map
      (fun mr => mr.2.force * direction sqrt nodes mr.1 a)).sum

/-- Two node lists describe models that differ only in the node loads: the same number
of nodes, and node by node the same identifier, coordinates and constraint flags. -/
def SameButLoads (nodes1 nodes2 : List (Node α)) : Prop :=
  nodes1.length = nodes2.length ∧
  ∀ i, i < nodes1.length →
    (nodes2.getD i default).id = (nodes1.getD i default).id ∧
    (nodes2.getD i default).x = (nodes1.getD i default).x ∧
    (nodes2.getD i default).y = (nodes1.getD i default).y ∧
    (nodes2.getD i default).z = (nodes1.getD i default).z ∧
    ∀ j, j < 3 → (nodes2.getD i default).constraints j = (nodes1.getD i default).constraints j

/-- Node 2 restrained across the member axis, with loads `(200,0,0)`. -/
def node_roller_scaled : Node ℚ := ⟨2, 10, 0, 0, arr3 0 1 1, arr3 200 0 0⟩

/-! ## The heap of `apply_boundary_conditions`

The blocks that `malloc` and `calloc` return are numbered in the order of their
allocation; a pointer is the number of its block.  A block holds doubles or row
pointers, as it was allocated.  A freed block is no longer live, and its number is not
handed out again.  The arrays of `int` (`is_fixed`, `dof_map`) hold no pointer and no
double and are kept as the values computed above. -/

/-- The heap: the number of blocks allocated so far, which blocks are live, and the
content of every block of doubles and of every block of row pointers. -/
structure Heap (α : Type) where
  next : Nat
  live : Nat → Bool
  dbl : Nat → Arr (Dbl α)
  ptr : Nat → Arr Nat

namespace Heap

/-- The call `calloc(n, sizeof(double))`: the new heap and the pointer returned. -/
def calloc_dbl (h : Heap α) (n : Nat) : Heap α × Nat :=
  ({ h with
      next := h.next + 1,
      live := fun a => if a = h.next then true else h.live a,
      dbl := fun a => if a = h.next then Arr.calloc n 0 else h.dbl a },
   h.next)

/-- The call `malloc(n * sizeof(double *))`: the cells of the new block hold whatever
was there. -/
def malloc_ptr (h : Heap α) (n : Nat) : Heap α × Nat :=
  ({ h with
      next := h.next + 1,
      live := fun a => if a = h.next then true else h.live a,
      ptr := fun a => if a = h.next then ⟨n, (h.ptr h.next).get⟩ else h.ptr a },
   h.next)

/-- The call `free(p)`. -/
def free (h : Heap α) (p : Nat) : Heap α :=
  { h with live := fun a => if a = p then false else h.live a }

/-- The read `p[i]` of a double. -/
def read (h : Heap α) (p i : Nat) : Dbl α := (h.dbl p).get i

/-- The write `p[i] = v` of a double. -/
def write (h : Heap α) (p i : Nat) (v : Dbl α) : Heap α :=
  { h with dbl := fun a => if a = p then (h.dbl a).set i v else h.dbl a }

/-- The read `p[i]` of a row pointer. -/
def read_ptr (h : Heap α) (p i : Nat) : Nat := (h.ptr p).get i

/-- The write `p[i] = q` of a row pointer. -/
def write_ptr (h : Heap α) (p i q : Nat) : Heap α :=
  { h with ptr := fun a => if a = p then (h.ptr a).set i q else h.ptr a }

/-- The read `p[i][j]`. -/
def read2 (h : Heap α) (p i j : Nat) : Dbl α := h.read (h.read_ptr p i) j

/-- The write `p[i][j] = v`. -/
def write2 (h : Heap α) (p i j : Nat) (v : Dbl α) : Heap α :=
  h.write (h.read_ptr p i) j v

/-- The `n × n` matrix reached through the row pointers `p[0 .. n-1]`. -/
def matrix (h : Heap α) (p n : Nat) : Mat α :=
  ⟨n, fun i => if i < n then h.dbl (h.read_ptr p i) else Arr.calloc n 0⟩

end Heap

/-- The loop `K_reduced[i] = calloc(n_free, sizeof(double))`. -/
def alloc_rows (n Kr : Nat) (h : Heap α) : Heap α :=
  forLoop 0 n (fun i h1 =>
    let c := h1.calloc_dbl n
    c.1.write_ptr Kr i c.2) h

/-- The allocation of the reduced system: `K_reduced = malloc(...)`, the loop over its
rows, and `F_reduced = calloc(n_free, ...)`.  The result is the heap with the pointers
`K_reduced` and `F_reduced`. -/
def alloc_reduced (n : Nat) (h : Heap α) : Heap α × Nat × Nat :=
  let a := h.malloc_ptr n
  let h1 := alloc_rows n a.2 a.1
  let f := h1.calloc_dbl n
  (f.1, a.2, f.2)

/-- The loops that fill `K_reduced` and `F_reduced` from `K_global` and `F_global`. -/
def fill_reduced_h (nodes : List (Node α)) (Kg Fg Kr Fr : Nat) (h : Heap α) : Heap α :=
  forLoop 0 (total_dofs nodes) (fun i h1 =>
    if (is_fixed nodes).get i = 0 then
      let i_red := ((dof_map nodes).get i).toNat
      let h2 := h1.write Fr i_red (h1.read Fg i)
      forLoop 0 (total_dofs nodes) (fun j h3 =>
        if (is_fixed nodes).get j = 0 then
          h3.write2 Kr i_red ((dof_map nodes).get j).toNat (h3.read2 Kg i j)
        else h3) h2
    else h1) h

/-- The pivot search on the heap. -/
def find_pivot_h (h : Heap α) (Kr n piv : Nat) : Nat :=
  forLoop (piv + 1) n (fun i max_row =>
    if Dbl.gt (Dbl.fabs (h.read2 Kr i piv)) (Dbl.fabs (h.read2 Kr max_row piv)) then i
    else max_row) piv

/-- The row exchange on the heap: the row pointers `K_reduced[piv]` and
`K_reduced[max_row]` and the cells `F_reduced[piv]` and `F_reduced[max_row]`. -/
def swap_rows_h (Kr Fr piv max_row : Nat) (h : Heap α) : Heap α :=
  if max_row ≠ piv then
    let tmp_row := h.read_ptr Kr piv
    let h1 := h.write_ptr Kr piv (h.read_ptr Kr max_row)
    let h2 := h1.write_ptr Kr max_row tmp_row
    let tmp_val := h2.read Fr piv
    let h3 := h2.write Fr piv (h2.read Fr max_row)
    h3.write Fr max_row tmp_val
  else h

/-- The elimination loop below pivot row `piv` on the heap. -/
def eliminate_h (Kr Fr n piv : Nat) (h : Heap α) : Heap α :=
  forLoop (piv + 1) n (fun i h1 =>
    let factor := h1.read2 Kr i piv / h1.read2 Kr piv piv
    let h2 := forLoop piv n (fun j h3 =>
      h3.write2 Kr i j (h3.read2 Kr i j - factor * h3.read2 Kr piv j)) h1
    h2.write Fr i (h2.read Fr i - factor * h2.read Fr piv)) h

/-- One iteration of the pivot loop on the heap. -/
def pivot_step_h (Kr Fr n piv : Nat) (h : Heap α) : Heap α :=
  eliminate_h Kr Fr n piv (swap_rows_h Kr Fr piv (find_pivot_h h Kr n piv) h)

/-- Forward elimination with partial pivoting on the heap. -/
def forward_elimination_h (Kr Fr n : Nat) (h : Heap α) : Heap α :=
  forLoop 0 n (pivot_step_h Kr Fr n) h

/-- Back substitution on the heap, into the block `D_reduced`. -/
def back_substitution_h (Kr Fr Dr n : Nat) (h : Heap α) : Heap α :=
  forDown n (fun i h1 =>
    let h2 := h1.write Dr i (h1.read Fr i)
    let h3 := forLoop (i + 1) n (fun j h4 =>
      h4.write Dr i (h4.read Dr i - h4.read2 Kr i j * h4.read Dr j)) h2
    h3.write Dr i (h3.read Dr i / h3.read2 Kr i i)) h

/-- The expansion loop on the heap, into the block `displacements`. -/
def expand_h (nodes : List (Node α)) (Dr disp : Nat) (h : Heap α) : Heap α :=
  forLoop 0 (total_dofs nodes) (fun i h1 =>
    if (is_fixed nodes).get i = 0 then
      h1.write disp i (h1.read Dr ((dof_map nodes).get i).toNat)
    else h1) h

/-- The cleanup of `apply_boundary_conditions`: the rows of `K_reduced`, then
`K_reduced`, `F_reduced` and `D_reduced` are freed. -/
def free_reduced (Kr Fr Dr n : Nat) (h : Heap α) : Heap α :=
  let h1 := forLoop 0 n (fun i h2 => h2.free (h2.read_ptr Kr i)) h
  ((h1.free Kr).free Fr).free Dr

/-- The function `apply_boundary_conditions` on the heap, with the globals `K_global`
and `F_global` given as pointers: the heap it leaves and the pointer it assigns to the
global `displacements`. -/
def apply_boundary_conditions_h (nodes : List (Node α)) (Kg Fg : Nat) (h : Heap α) :
    Heap α × Nat :=
  let n := n_free nodes
  let a := alloc_reduced n h
  let h1 := fill_reduced_h nodes Kg Fg a.2.1 a.2.2 a.1
  let d := h1.calloc_dbl n
  let h2 := forward_elimination_h a.2.1 a.2.2 n d.1
  let h3 := back_substitution_h a.2.1 a.2.2 d.2 n h2
  let e := h3.calloc_dbl (total_dofs nodes)
  let h4 := expand_h nodes d.2 e.2 e.1
  (free_reduced a.2.1 a.2.2 d.2 n h4, e.2)

/-- The block `reactions` that `compute_reactions` fills, reading `K_global[i][j]`,
`F_global[i]` and `displacements[j]` from the heap. -/
def compute_reactions_h (nodes : List (Node α)) (Kg Fg disp : Nat) (h : Heap α) : Vec α :=
  compute_reactions nodes (h.matrix Kg (total_dofs nodes)) (h.dbl Fg) (h.dbl disp)

/-- The heap `h` represents, on top of the earlier heap `h0`, a reduced system of size
`n` with the matrix `K` and the right-hand side `F`: the blocks of `h0` are untouched,
`K_reduced` is the block `h0.next`, its row pointers are distinct blocks among
`h0.next + 1 .. h0.next + n`, `F_reduced` is the block `h0.next + n + 1`, and the later
blocks of doubles hold `G`. -/
def Rep (h0 : Heap α) (n : Nat) (h : Heap α) (K : Mat α) (F : Vec α)
    (G : Nat → Vec α) : Prop :=
  h0.next + n + 2 ≤ h.next ∧
  (∀ a, a < h0.next → h.dbl a = h0.dbl a ∧ h.ptr a = h0.ptr a ∧ h.live a = h0.live a) ∧
  (∀ i, i < n → h0.next < h.read_ptr h0.next i ∧ h.read_ptr h0.next i ≤ h0.next + n) ∧
  (∀ i k, i < n → k < n → h.read_ptr h0.next i = h.read_ptr h0.next k → i = k) ∧
  h.matrix h0.next n = K ∧ h.dbl (h0.next + n + 1) = F ∧
  ∀ p, h0.next + n + 2 ≤ p → h.dbl p = G p

/-- The content `G` of the later blocks with block `p` replaced by `x`. -/
def with_block (G : Nat → Vec α) (p : Nat) (x : Vec α) : Nat → Vec α :=
  fun q => if q = p then x else G q

/-- A heap that holds the stiffness matrix and the load vector of the example truss
the way `assemble_global_stiffness` lays them out: block 0 is `K_global`, blocks 1 to 6
are its rows, block 7 is `F_global`. -/
def example_heap : Heap ℚ :=
  ⟨8, fun a => decide (a < 8),
    fun a => if a = 7 then F_global [node_fixed, node_roller]
      else (K_global Rat.sqrt [node_fixed, node_roller] [bar]).get (a - 1),
    fun a => if a = 0 then ⟨6, fun i => i + 1⟩ else Arr.calloc 0 0⟩

/-- The heap `h1` has the same blocks allocated and live as `h`. -/
def SameAlloc (h h1 : Heap α) : Prop := h1.next = h.next ∧ h1.live = h.live

/-! ## Basic facts: doubles, loops, arrays -/

namespace Dbl

@[simp] theorem zero_eq : (0 : Dbl α) = fin 0 := rfl

@[simp] theorem fin_add (a b : α) : fin a + fin b = fin (a + b) := rfl

@[simp] theorem fin_sub (a b : α) : fin a - fin b = fin (a - b) := rfl

@[simp] theorem fin_mul (a b : α) : fin a * fin b = fin (a * b) := rfl

@[simp] theorem neg_fin (a : α) : -fin a = fin (-a) := rfl

theorem fin_div (a b : α) : fin a / fin b = if b = 0 then undef else fin (a / b) := rfl

@[simp] theorem fin_div_of_ne (a : α) {b : α} (h : b ≠ 0) : fin a / fin b = fin (a / b) := by
  rw [fin_div, if_neg h]

@[simp] theorem fin_div_zero (a : α) : fin a / fin (0 : α) = undef := by
  rw [fin_div, if_pos rfl]

@[simp] theorem undef_add (x : Dbl α) : undef + x = undef := rfl

@[simp] theorem add_undef (x : Dbl α) : x + undef = undef := by cases x <;> rfl

@[simp] theorem undef_sub (x : Dbl α) : undef - x = undef := rfl

@[simp] theorem sub_undef (x : Dbl α) : x - undef = undef := by cases x <;> rfl

@[simp] theorem undef_mul (x : Dbl α) : undef * x = undef := rfl

@[simp] theorem mul_undef (x : Dbl α) : x * undef = undef := by cases x <;> rfl

@[simp] theorem undef_div (x : Dbl α) : undef / x = undef := rfl

@[simp] theorem div_undef (x : Dbl α) : x / undef = undef := by cases x <;> rfl

@[simp] theorem neg_undef : -(undef : Dbl α) = undef := rfl

@[simp] theorem fabs_fin (a : α) : fabs (fin a) = fin |a| := rfl

@[simp] theorem gt_fin (a b : α) : gt (fin a) (fin b) = decide (b < a) := rfl

end Dbl

theorem forLoop_of_le {σ : Type} {lo hi : Nat} (h : hi ≤ lo) (body : Nat → σ → σ) (s : σ) :
    forLoop lo hi body s = s := by
  simp [forLoop, Nat.sub_eq_zero_of_le h]

theorem forLoop_succ {σ : Type} {lo hi : Nat} (h : lo ≤ hi) (body : Nat → σ → σ) (s : σ) :
    forLoop lo (hi + 1) body s = body hi (forLoop lo hi body s) := by
  unfold forLoop
  have e : hi + 1 - lo = (hi - lo) + 1 := by omega
  rw [e, List.range'_concat, List.foldl_append]
  simp only [List.foldl_cons, List.foldl_nil, mul_one]
  congr 1
  omega

/-- Loop invariant rule for `forLoop`. -/
theorem forLoop_inv {σ : Type} (P : Nat → σ → Prop) {lo hi : Nat} (hle : lo ≤ hi)
    (body : Nat → σ → σ) (s : σ) (h0 : P lo s)
    (hstep : ∀ i t, lo ≤ i → i < hi → P i t → P (i + 1) (body i t)) :
    P hi (forLoop lo hi body s) := by
  induction hi with
  | zero =>
    have : lo = 0 := by omega
    subst this
    rw [forLoop_of_le (le_refl 0)]
    exact h0
  | succ k ih =>
    by_cases hk : lo ≤ k
    · rw [forLoop_succ hk]
      exact hstep k _ hk (Nat.lt_succ_self k)
        (ih hk (fun i t h1 h2 h3 => hstep i t h1 (Nat.lt_succ_of_lt h2) h3))
    · have : lo = k + 1 := by omega
      subst this
      rw [forLoop_of_le (le_refl _)]
      exact h0

/-- Loop invariant rule for `forDown`. -/
theorem forDown_inv {σ : Type} (P : Nat → σ → Prop) (n : Nat) (body : Nat → σ → σ) (s : σ)
    (h0 : P n s) (hstep : ∀ i t, i < n → P (i + 1) t → P i (body i t)) :
    P 0 (forDown n body s) := by
  induction n generalizing s with
  | zero => exact h0
  | succ k ih =>
    show P 0 (forDown k body (body k s))
    exact ih (body k s) (hstep k s (Nat.lt_succ_self k) h0)
      (fun i t h1 h2 => hstep i t (Nat.lt_succ_of_lt h1) h2)

namespace Arr

variable {β : Type}

@[simp] theorem get_calloc (n : Nat) (z : β) (k : Nat) : (calloc n z).get k = z := rfl

@[simp] theorem size_calloc (n : Nat) (z : β) : (calloc n z).size = n := rfl

@[simp] theorem size_set (a : Arr β) (i : Nat) (v : β) : (a.set i v).size = a.size := rfl

theorem get_set (a : Arr β) (i : Nat) (v : β) (k : Nat) :
    (a.set i v).get k = if k = i then v else a.get k := rfl

@[simp] theorem get_set_self (a : Arr β) (i : Nat) (v : β) : (a.set i v).get i = v := by
  simp [get_set]

@[simp] theorem get_set_ne (a : Arr β) {i k : Nat} (v : β) (h : k ≠ i) :
    (a.set i v).get k = a.get k := by
  simp [get_set, h]

theorem get2_set2 (K : Arr (Arr β)) (i j : Nat) (v : β) (a b : Nat) :
    (K.set2 i j v).get2 a b = if a = i ∧ b = j then v else K.get2 a b := by
  unfold set2 get2
  by_cases ha : a = i
  · subst ha
    by_cases hb : b = j
    · simp [hb]
    · simp [hb]
  · simp [ha]

@[simp] theorem size_set2 (K : Arr (Arr β)) (i j : Nat) (v : β) :
    (K.set2 i j v).size = K.size := rfl

end Arr

/-! ## Forward elimination: what one pivot step does -/

/-- The inner loop of the elimination rewrites row `i` on the columns `p .. n-1`. -/
theorem elim_row_get2 (K : Mat α) (i p n : Nat) (factor : Dbl α) (hip : i ≠ p) (a b : Nat) :
    (forLoop p n (fun j K1 => K1.set2 i j (K1.get2 i j - factor * K1.get2 p j)) K).get2 a b =
      if a = i ∧ p ≤ b ∧ b < n then K.get2 a b - factor * K.get2 p b else K.get2 a b := by
  by_cases hpn : p ≤ n
  · revert a b
    refine forLoop_inv
      (fun j (K1 : Mat α) => ∀ a b, K1.get2 a b =
        if a = i ∧ p ≤ b ∧ b < j then K.get2 a b - factor * K.get2 p b else K.get2 a b)
      hpn _ K ?_ ?_
    · intro a b
      have : ¬ (a = i ∧ p ≤ b ∧ b < p) := by omega
      rw [if_neg this]
    · intro j t hj1 _ ih a b
      rw [Arr.get2_set2, ih i j, ih p j, ih a b]
      have h1 : ¬ (i = i ∧ p ≤ j ∧ j < j) := by omega
      have h2 : ¬ (p = i ∧ p ≤ j ∧ j < j) := by omega
      rw [if_neg h1, if_neg h2]
      by_cases hab : a = i ∧ b = j
      · obtain ⟨ha, hb⟩ := hab
        subst ha hb
        have h3 : a = a ∧ p ≤ b ∧ b < b + 1 := by omega
        rw [if_pos ⟨rfl, rfl⟩, if_pos h3]
      · rw [if_neg hab]
        by_cases hc : a = i ∧ p ≤ b ∧ b < j
        · have h3 : a = i ∧ p ≤ b ∧ b < j + 1 := by omega
          rw [if_pos hc, if_pos h3]
        · have h3 : ¬ (a = i ∧ p ≤ b ∧ b < j + 1) := by omega
          rw [if_neg hc, if_neg h3]
  · rw [forLoop_of_le (by omega)]
    have : ¬ (a = i ∧ p ≤ b ∧ b < n) := by omega
    rw [if_neg this]

/-- The elimination loop below pivot row `p`, entry by entry. -/
theorem eliminate_spec (n p : Nat) (s : Mat α × Vec α) :
    (∀ a b, (eliminate n p s).1.get2 a b =
      if p < a ∧ a < n ∧ p ≤ b ∧ b < n then
        s.1.get2 a b - (s.1.get2 a p / s.1.get2 p p) * s.1.get2 p b
      else s.1.get2 a b) ∧
    (∀ a, (eliminate n p s).2.get a =
      if p < a ∧ a < n then s.2.get a - (s.1.get2 a p / s.1.get2 p p) * s.2.get p
      else s.2.get a) := by
  by_cases hpn : p + 1 ≤ n
  · unfold eliminate
    refine forLoop_inv
      (fun i (t : Mat α × Vec α) =>
        (∀ a b, t.1.get2 a b =
          if p < a ∧ a < i ∧ p ≤ b ∧ b < n then
            s.1.get2 a b - (s.1.get2 a p / s.1.get2 p p) * s.1.get2 p b
          else s.1.get2 a b) ∧
        (∀ a, t.2.get a =
          if p < a ∧ a < i then s.2.get a - (s.1.get2 a p / s.1.get2 p p) * s.2.get p
          else s.2.get a))
      hpn _ s ?_ ?_
    · constructor
      · intro a b
        have : ¬ (p < a ∧ a < p + 1 ∧ p ≤ b ∧ b < n) := by omega
        rw [if_neg this]
      · intro a
        have : ¬ (p < a ∧ a < p + 1) := by omega
        rw [if_neg this]
    · intro i t hi1 hi2 ih
      obtain ⟨ihK, ihF⟩ := ih
      have hip : i ≠ p := by omega
      have e1 : ∀ b, t.1.get2 i b = s.1.get2 i b := by
        intro b
        rw [ihK]
        have : ¬ (p < i ∧ i < i ∧ p ≤ b ∧ b < n) := by omega
        rw [if_neg this]
      have e2 : ∀ b, t.1.get2 p b = s.1.get2 p b := by
        intro b
        rw [ihK]
        have : ¬ (p < p ∧ p < i ∧ p ≤ b ∧ b < n) := by omega
        rw [if_neg this]
      have e3 : t.2.get i = s.2.get i := by
        rw [ihF]
        have : ¬ (p < i ∧ i < i) := by omega
        rw [if_neg this]
      have e4 : t.2.get p = s.2.get p := by
        rw [ihF]
        have : ¬ (p < p ∧ p < i) := by omega
        rw [if_neg this]
      constructor
      · intro a b
        show (forLoop p n _ t.1).get2 a b = _
        rw [elim_row_get2 t.1 i p n _ hip a b]
        by_cases hc : a = i ∧ p ≤ b ∧ b < n
        · obtain ⟨ha, hb1, hb2⟩ := hc
          subst ha
          have h3 : p < a ∧ a < a + 1 ∧ p ≤ b ∧ b < n := by omega
          rw [if_pos ⟨rfl, hb1, hb2⟩, if_pos h3, e1, e1, e2, e2]
        · rw [if_neg hc, ihK]
          by_cases hd : p < a ∧ a < i ∧ p ≤ b ∧ b < n
          · have h3 : p < a ∧ a < i + 1 ∧ p ≤ b ∧ b < n := by omega
            rw [if_pos hd, if_pos h3]
          · have h3 : ¬ (p < a ∧ a < i + 1 ∧ p ≤ b ∧ b < n) := by omega
            rw [if_neg hd, if_neg h3]
      · intro a
        show (t.2.set i _).get a = _
        rw [Arr.get_set]
        by_cases ha : a = i
        · subst ha
          have h3 : p < a ∧ a < a + 1 := by omega
          rw [if_pos rfl, if_pos h3, e1, e2, e3, e4]
        · rw [if_neg ha, ihF]
          by_cases hd : p < a ∧ a < i
          · have h3 : p < a ∧ a < i + 1 := by omega
            rw [if_pos hd, if_pos h3]
          · have h3 : ¬ (p < a ∧ a < i + 1) := by omega
            rw [if_neg hd, if_neg h3]
  · unfold eliminate
    rw [forLoop_of_le (by omega)]
    constructor
    · intro a b
      have : ¬ (p < a ∧ a < n ∧ p ≤ b ∧ b < n) := by omega
      rw [if_neg this]
    · intro a
      have : ¬ (p < a ∧ a < n) := by omega
      rw [if_neg this]

/-- The row exchange, entry by entry. -/
theorem swap_rows_spec (s : Mat α × Vec α) (p r : Nat) :
    (∀ a b, (swap_rows s p r).1.get2 a b =
      s.1.get2 (if a = r then p else if a = p then r else a) b) ∧
    (∀ a, (swap_rows s p r).2.get a =
      s.2.get (if a = r then p else if a = p then r else a)) := by
  unfold swap_rows
  by_cases h : r = p
  · subst h
    rw [if_neg (fun hn => hn rfl)]
    constructor
    · intro a b
      by_cases h1 : a = r
      · simp [h1]
      · simp [h1]
    · intro a
      by_cases h1 : a = r
      · simp [h1]
      · simp [h1]
  · rw [if_pos h]
    have h' : ¬ p = r := fun e => h e.symm
    constructor
    · intro a b
      simp only [Arr.get2, Arr.get_set]
      by_cases h1 : a = r
      · simp [h1]
      · by_cases h2 : a = p
        · simp [h2, h']
        · simp [h1, h2]
    · intro a
      simp only [Arr.get_set]
      by_cases h1 : a = r
      · simp [h1]
      · by_cases h2 : a = p
        · simp [h2, h']
        · simp [h1, h2]

/-- The pivot search returns the first row of largest magnitude in column `p` among the
rows `p .. n-1`. -/
theorem find_pivot_spec (K : Mat α) (col : Nat → α) (n p : Nat) (hp : p < n)
    (hK : ∀ i, p ≤ i → i < n → K.get2 i p = Dbl.fin (col i)) :
    p ≤ find_pivot K n p ∧ find_pivot K n p < n ∧
    (∀ i, p ≤ i → i < n → |col i| ≤ |col (find_pivot K n p)|) ∧
    (∀ i, p ≤ i → i < find_pivot K n p → |col i| < |col (find_pivot K n p)|) := by
  unfold find_pivot
  refine forLoop_inv
    (fun i (r : Nat) => p ≤ r ∧ r < i ∧ (∀ k, p ≤ k → k < i → |col k| ≤ |col r|) ∧
      (∀ k, p ≤ k → k < r → |col k| < |col r|))
    (by omega : p + 1 ≤ n) _ p ?_ ?_
  · refine ⟨le_refl p, Nat.lt_succ_self p, ?_, ?_⟩
    · intro k h1 h2
      have : k = p := by omega
      rw [this]
    · intro k h1 h2
      omega
  · intro i r hi1 hi2 ih
    obtain ⟨h1, h2, h3, h4⟩ := ih
    have ei : K.get2 i p = Dbl.fin (col i) := hK i (by omega) hi2
    have er : K.get2 r p = Dbl.fin (col r) := hK r h1 (by omega)
    simp only [ei, er, Dbl.fabs_fin, Dbl.gt_fin, decide_eq_true_eq]
    by_cases hc : |col r| < |col i|
    · rw [if_pos hc]
      refine ⟨by omega, Nat.lt_succ_self i, ?_, ?_⟩
      · intro k hk1 hk2
        by_cases hki : k = i
        · rw [hki]
        · exact le_of_lt (lt_of_le_of_lt (h3 k hk1 (by omega)) hc)
      · intro k hk1 hk2
        exact lt_of_le_of_lt (h3 k hk1 hk2) hc
    · rw [if_neg hc]
      refine ⟨h1, by omega, ?_, h4⟩
      intro k hk1 hk2
      by_cases hki : k = i
      · rw [hki]
        exact not_lt.mp hc
      · exact h3 k hk1 (by omega)

theorem swapIdx_lt {n p r a : Nat} (hp : p < n) (hr : r < n) (ha : a < n) :
    swapIdx p r a < n := by
  unfold swapIdx
  split_ifs <;> assumption

theorem swapIdx_swapIdx (p r a : Nat) : swapIdx p r (swapIdx p r a) = a := by
  unfold swapIdx
  split_ifs <;> omega

/-- A row exchange keeps finite values finite. -/
theorem swap_rows_is {n p r : Nat} (hp : p < n) (hr : r < n) (s : Mat α × Vec α)
    (A : Nat → Nat → α) (b : Nat → α) (hK : MatIs n s.1 A) (hF : VecIs n s.2 b) :
    MatIs n (swap_rows s p r).1 (fun i j => A (swapIdx p r i) j) ∧
    VecIs n (swap_rows s p r).2 (fun i => b (swapIdx p r i)) := by
  obtain ⟨e1, e2⟩ := swap_rows_spec s p r
  constructor
  · intro i j hi hj
    rw [e1]
    exact hK _ _ (swapIdx_lt hp hr hi) hj
  · intro i hi
    rw [e2]
    exact hF _ (swapIdx_lt hp hr hi)

/-- With a non-zero pivot the elimination step computes finite values, those of `elimA`
and `elimB`. -/
theorem eliminate_is {n p : Nat} (hp : p < n) (s : Mat α × Vec α)
    (A : Nat → Nat → α) (b : Nat → α) (hK : MatIs n s.1 A) (hF : VecIs n s.2 b)
    (hpiv : A p p ≠ 0) :
    MatIs n (eliminate n p s).1 (elimA n p A) ∧ VecIs n (eliminate n p s).2 (elimB n p A b) := by
  obtain ⟨e1, e2⟩ := eliminate_spec n p s
  constructor
  · intro i j hi hj
    rw [e1]
    unfold elimA
    by_cases hc : p < i ∧ i < n ∧ p ≤ j ∧ j < n
    · rw [if_pos hc, if_pos hc, hK i j hi hj, hK i p hi hp, hK p p hp hp, hK p j hp hj,
        Dbl.fin_div_of_ne _ hpiv, Dbl.fin_mul, Dbl.fin_sub]
    · rw [if_neg hc, if_neg hc, hK i j hi hj]
  · intro i hi
    rw [e2]
    unfold elimB
    by_cases hc : p < i ∧ i < n
    · rw [if_pos hc, if_pos hc, hF i hi, hK i p hi hp, hK p p hp hp, hF p hp,
        Dbl.fin_div_of_ne _ hpiv, Dbl.fin_mul, Dbl.fin_sub]
    · rw [if_neg hc, if_neg hc, hF i hi]

/-! ## Forward elimination: linear algebra of one pivot step -/

/-- A solution of the system with two rows exchanged solves the original system. -/
theorem swap_solves {n p r : Nat} (hp : p < n) (hr : r < n) (A : Nat → Nat → α)
    (b x : Nat → α)
    (h : Solves n (fun i j => A (swapIdx p r i) j) (fun i => b (swapIdx p r i)) x) :
    Solves n A b x := by
  intro i hi
  have := h (swapIdx p r i) (swapIdx_lt hp hr hi)
  simpa only [swapIdx_swapIdx] using this

/-- On rows below the pivot, `elimA` is the full row operation when the columns left of
the pivot are already zero in the pivot row and below. -/
theorem elimA_row {n p : Nat} (A : Nat → Nat → α)
    (hzp : ∀ j, j < p → A p j = 0) {i j : Nat} (hi1 : p < i) (hi2 : i < n) (hj : j < n) :
    elimA n p A i j = A i j - A i p / A p p * A p j := by
  unfold elimA
  by_cases hc : p ≤ j
  · rw [if_pos ⟨hi1, hi2, hc, hj⟩]
  · have : ¬ (p < i ∧ i < n ∧ p ≤ j ∧ j < n) := by omega
    rw [if_neg this, hzp j (by omega), mul_zero, sub_zero]

/-- A solution of the system after an elimination step solves the system before it. -/
theorem elim_solves {n p : Nat} (hp : p < n) (A : Nat → Nat → α) (b x : Nat → α)
    (hzp : ∀ j, j < p → A p j = 0)
    (h : Solves n (elimA n p A) (elimB n p A b) x) : Solves n A b x := by
  have hrow : ∑ j in Finset.range n, A p j * x j = b p := by
    have := h p hp
    have e : ∀ j, elimA n p A p j = A p j := by
      intro j
      unfold elimA
      have : ¬ (p < p ∧ p < n ∧ p ≤ j ∧ j < n) := by omega
      rw [if_neg this]
    have e2 : elimB n p A b p = b p := by
      unfold elimB
      have : ¬ (p < p ∧ p < n) := by omega
      rw [if_neg this]
    simpa only [e, e2] using this
  intro i hi
  by_cases hc : p < i
  · have := h i hi
    have e2 : elimB n p A b i = b i - A i p / A p p * b p := by
      unfold elimB
      rw [if_pos ⟨hc, hi⟩]
    have e3 : ∑ j in Finset.range n, elimA n p A i j * x j =
        ∑ j in Finset.range n, A i j * x j -
          A i p / A p p * ∑ j in Finset.range n, A p j * x j := by
      rw [Finset.mul_sum, ← Finset.sum_sub_distrib]
      apply Finset.sum_congr rfl
      intro j hj
      rw [elimA_row A hzp hc hi (Finset.mem_range.mp hj)]
      ring
    rw [e3, e2, hrow] at this
    linarith
  · have := h i hi
    have e : ∀ j, elimA n p A i j = A i j := by
      intro j
      unfold elimA
      have : ¬ (p < i ∧ i < n ∧ p ≤ j ∧ j < n) := by omega
      rw [if_neg this]
    have e2 : elimB n p A b i = b i := by
      unfold elimB
      have : ¬ (p < i ∧ i < n) := by omega
      rw [if_neg this]
    simpa only [e, e2] using this

/-- A row exchange among the rows `p .. n-1` keeps the zeros left of column `p`. -/
theorem swap_lowerZero {n p r : Nat} (hp : p < n) (hpr : p ≤ r) (hr : r < n)
    (A : Nat → Nat → α) (hz : LowerZero n p A) :
    LowerZero n p (fun i j => A (swapIdx p r i) j) := by
  intro i j hj hji hi
  show A (swapIdx p r i) j = 0
  unfold swapIdx
  split_ifs with h1 h2
  · exact hz p j hj hj hp
  · exact hz r j hj (by omega) hr
  · exact hz i j hj hji hi

/-- An elimination step with a non-zero pivot clears column `p` below the diagonal. -/
theorem elim_lowerZero {n p : Nat} (A : Nat → Nat → α) (hz : LowerZero n p A)
    (hpiv : A p p ≠ 0) : LowerZero n (p + 1) (elimA n p A) := by
  intro i j hj hji hi
  unfold elimA
  by_cases hjp : j = p
  · subst hjp
    rw [if_pos ⟨hji, hi, le_refl j, by omega⟩]
    field_simp
  · have : ¬ (p < i ∧ i < n ∧ p ≤ j ∧ j < n) := by omega
    rw [if_neg this]
    exact hz i j (by omega) hji hi

/-- An upper triangular system with non-zero diagonal has a solution. -/
theorem tri_solve_exists (p : Nat) (A : Nat → Nat → α) (c : Nat → α)
    (hz : ∀ i j, j < i → i < p → A i j = 0) (hd : ∀ i, i < p → A i i ≠ 0) :
    ∃ y : Nat → α, ∀ i, i < p → ∑ j in Finset.range p, A i j * y j = c i := by
  induction p generalizing c with
  | zero => exact ⟨fun _ => 0, fun i hi => absurd hi (Nat.not_lt_zero i)⟩
  | succ p ih =>
    obtain ⟨y, hy⟩ := ih (fun i => c i - A i p * (c p / A p p))
      (fun i j h1 h2 => hz i j h1 (by omega)) (fun i hi => hd i (by omega))
    refine ⟨fun j => if j = p then c p / A p p else y j, ?_⟩
    intro i hi
    beta_reduce
    rw [Finset.sum_range_succ, if_pos rfl]
    have e : ∑ j in Finset.range p, A i j * (if j = p then c p / A p p else y j) =
        ∑ j in Finset.range p, A i j * y j := by
      apply Finset.sum_congr rfl
      intro j hj
      have : j ≠ p := by
        have := Finset.mem_range.mp hj
        omega
      rw [if_neg this]
    rw [e]
    by_cases hip : i = p
    · subst hip
      have z : ∑ j in Finset.range i, A i j * y j = 0 := by
        apply Finset.sum_eq_zero
        intro j hj
        rw [hz i j (Finset.mem_range.mp hj) (Nat.lt_succ_self i), zero_mul]
      rw [z, zero_add]
      field_simp [hd i (Nat.lt_succ_self i)]
    · rw [hy i (by omega)]
      ring

/-- Partial pivoting on a non-singular matrix never selects a zero pivot. -/
theorem pivot_ne_zero {n p : Nat} (hp : p < n) (A : Nat → Nat → α) (hz : LowerZero n p A)
    (hd : ∀ j, j < p → A j j ≠ 0) (hns : Nonsingular n A)
    (hmax : ∀ i, p ≤ i → i < n → |A i p| ≤ |A p p|) : A p p ≠ 0 := by
  intro h0
  have hcol : ∀ i, p ≤ i → i < n → A i p = 0 := by
    intro i h1 h2
    have := hmax i h1 h2
    rw [h0, abs_zero] at this
    exact abs_eq_zero.mp (le_antisymm this (abs_nonneg _))
  obtain ⟨y, hy⟩ := tri_solve_exists p A (fun i => -A i p)
    (fun i j h1 h2 => hz i j (by omega) h1 (by omega)) hd
  have hx : Solves n A (fun _ => 0) (fun j => if j < p then y j else if j = p then 1 else 0) := by
    intro i hi
    beta_reduce
    rw [← Finset.sum_range_add_sum_Ico _ (by omega : p + 1 ≤ n), Finset.sum_range_succ]
    have e1 : ∑ j in Finset.range p, A i j * (if j < p then y j else if j = p then 1 else 0) =
        ∑ j in Finset.range p, A i j * y j := by
      apply Finset.sum_congr rfl
      intro j hj
      rw [if_pos (Finset.mem_range.mp hj)]
    have e2 : ∑ j in Finset.Ico (p + 1) n,
        A i j * (if j < p then y j else if j = p then 1 else 0) = 0 := by
      apply Finset.sum_eq_zero
      intro j hj
      have := (Finset.mem_Ico.mp hj).1
      rw [if_neg (by omega), if_neg (by omega), mul_zero]
    rw [e1, e2, if_neg (lt_irrefl p), if_pos rfl, add_zero, mul_one]
    by_cases hip : i < p
    · rw [hy i hip]
      ring
    · have z : ∑ j in Finset.range p, A i j * y j = 0 := by
        apply Finset.sum_eq_zero
        intro j hj
        have := Finset.mem_range.mp hj
        rw [hz i j this (by omega) hi, zero_mul]
      rw [z, hcol i (by omega) hi, add_zero]
  have := hns _ hx p hp
  rw [if_neg (lt_irrefl p), if_pos rfl] at this
  exact one_ne_zero this

/-- One pivot step on a non-singular system: the values stay finite, one more column is
cleared, the pivot is non-zero, and every solution of the new system solves the old. -/
theorem pivot_step_spec {n p : Nat} (hp : p < n) (s : Mat α × Vec α)
    (A : Nat → Nat → α) (b : Nat → α) (hK : MatIs n s.1 A) (hF : VecIs n s.2 b)
    (hz : LowerZero n p A) (hd : ∀ j, j < p → A j j ≠ 0) (hns : Nonsingular n A) :
    ∃ (A2 : Nat → Nat → α) (b2 : Nat → α),
      MatIs n (pivot_step n p s).1 A2 ∧ VecIs n (pivot_step n p s).2 b2 ∧
      LowerZero n (p + 1) A2 ∧ (∀ j, j < p + 1 → A2 j j ≠ 0) ∧ Nonsingular n A2 ∧
      (∀ x, Solves n A2 b2 x → Solves n A b x) := by
  obtain ⟨hr1, hr2, hr3, _⟩ := find_pivot_spec s.1 (fun i => A i p) n p hp
    (fun i _ h2 => hK i p h2 hp)
  unfold pivot_step
  generalize find_pivot s.1 n p = r at hr1 hr2 hr3 ⊢
  have hsw : ∀ i, p ≤ i → i < n → p ≤ swapIdx p r i ∧ swapIdx p r i < n := by
    intro i h1 h2
    unfold swapIdx
    split_ifs <;> omega
  have hswp : swapIdx p r p = r := by
    unfold swapIdx
    split_ifs <;> omega
  obtain ⟨hK1, hF1⟩ := swap_rows_is hp hr2 s A b hK hF
  have hz1 := swap_lowerZero hp hr1 hr2 A hz
  have hns1 : Nonsingular n (fun i j => A (swapIdx p r i) j) :=
    fun x hx => hns x (swap_solves hp hr2 A (fun _ => 0) x hx)
  have hd1 : ∀ j, j < p → (fun i j => A (swapIdx p r i) j) j j ≠ 0 := by
    intro j hj
    have : swapIdx p r j = j := by
      unfold swapIdx
      split_ifs <;> omega
    show A (swapIdx p r j) j ≠ 0
    rw [this]
    exact hd j hj
  have hpiv : (fun i j => A (swapIdx p r i) j) p p ≠ 0 := by
    apply pivot_ne_zero hp _ hz1 hd1 hns1
    intro i h1 h2
    show |A (swapIdx p r i) p| ≤ |A (swapIdx p r p) p|
    rw [hswp]
    exact hr3 _ (hsw i h1 h2).1 (hsw i h1 h2).2
  obtain ⟨hK2, hF2⟩ := eliminate_is hp (swap_rows s p r) _ _ hK1 hF1 hpiv
  have hzp : ∀ j, j < p → (fun i j => A (swapIdx p r i) j) p j = 0 :=
    fun j hj => hz1 p j hj hj hp
  refine ⟨_, _, hK2, hF2, elim_lowerZero _ hz1 hpiv, ?_, ?_, ?_⟩
  · intro j hj
    have e : elimA n p (fun i j => A (swapIdx p r i) j) j j =
        (fun i j => A (swapIdx p r i) j) j j := by
      unfold elimA
      have : ¬ (p < j ∧ j < n ∧ p ≤ j ∧ j < n) := by omega
      rw [if_neg this]
    rw [e]
    by_cases hjp : j = p
    · rw [hjp]
      exact hpiv
    · exact hd1 j (by omega)
  · intro x hx
    apply hns1 x
    apply elim_solves hp _ (fun _ => 0) x hzp
    intro i hi
    rw [hx i hi]
    unfold elimB
    split_ifs <;> simp
  · intro x hx
    exact swap_solves hp hr2 A b x (elim_solves hp _ _ x hzp hx)

/-- Forward elimination on a non-singular system ends with a finite upper triangular
system with non-zero diagonal whose solutions solve the original system. -/
theorem forward_elimination_spec (n : Nat) (s : Mat α × Vec α)
    (A : Nat → Nat → α) (b : Nat → α) (hK : MatIs n s.1 A) (hF : VecIs n s.2 b)
    (hns : Nonsingular n A) :
    ∃ (U : Nat → Nat → α) (c : Nat → α),
      MatIs n (forward_elimination n s).1 U ∧ VecIs n (forward_elimination n s).2 c ∧
      LowerZero n n U ∧ (∀ j, j < n → U j j ≠ 0) ∧
      (∀ x, Solves n U c x → Solves n A b x) := by
  unfold forward_elimination
  have := forLoop_inv
    (fun p (t : Mat α × Vec α) => ∃ (U : Nat → Nat → α) (c : Nat → α),
      MatIs n t.1 U ∧ VecIs n t.2 c ∧ LowerZero n p U ∧ (∀ j, j < p → U j j ≠ 0) ∧
      Nonsingular n U ∧ (∀ x, Solves n U c x → Solves n A b x))
    (Nat.zero_le n) (pivot_step n) s
    ⟨A, b, hK, hF, fun i j hj _ _ => absurd hj (Nat.not_lt_zero j),
      fun j hj => absurd hj (Nat.not_lt_zero j), hns, fun x hx => hx⟩
    (by
      intro p t _ hp ih
      obtain ⟨U, c, h1, h2, h3, h4, h5, h6⟩ := ih
      obtain ⟨U2, c2, g1, g2, g3, g4, g5, g6⟩ := pivot_step_spec hp t U c h1 h2 h3 h4 h5
      exact ⟨U2, c2, g1, g2, g3, g4, g5, fun x hx => h6 x (g6 x hx)⟩)
  obtain ⟨U, c, h1, h2, h3, h4, _, h6⟩ := this
  exact ⟨U, c, h1, h2, h3, h4, h6⟩

/-! ## Back substitution -/

/-- The inner loop of back substitution subtracts the already solved terms from cell `i`
and leaves the other cells alone. -/
theorem back_inner_spec {n i : Nat} (hi : i < n) (K : Mat α) (A : Nat → Nat → α)
    (hK : MatIs n K A) (D : Vec α) (y : Nat → α) (v : α)
    (hDi : D.get i = Dbl.fin v)
    (hD : ∀ k, i < k → k < n → D.get k = Dbl.fin (y k)) :
    (forLoop (i + 1) n (fun j D3 => D3.set i (D3.get i - K.get2 i j * D3.get j)) D).get i =
        Dbl.fin (v - ∑ j in Finset.Ico (i + 1) n, A i j * y j) ∧
    ∀ k, k ≠ i → (forLoop (i + 1) n (fun j D3 =>
        D3.set i (D3.get i - K.get2 i j * D3.get j)) D).get k = D.get k := by
  refine forLoop_inv
    (fun j (D3 : Vec α) =>
      D3.get i = Dbl.fin (v - ∑ c in Finset.Ico (i + 1) j, A i c * y c) ∧
      ∀ k, k ≠ i → D3.get k = D.get k)
    (by omega : i + 1 ≤ n) _ D ?_ ?_
  · constructor
    · rw [Finset.Ico_self, Finset.sum_empty, sub_zero]
      exact hDi
    · intro k _
      rfl
  · intro j t hj1 hj2 ih
    obtain ⟨ih1, ih2⟩ := ih
    constructor
    · rw [Arr.get_set_self, ih1, hK i j hi hj2, ih2 j (by omega), hD j (by omega) hj2,
        Dbl.fin_mul, Dbl.fin_sub, Finset.sum_Ico_succ_top (by omega)]
      congr 1
      ring
    · intro k hk
      rw [Arr.get_set_ne _ _ hk]
      exact ih2 k hk

/-- Back substitution on a finite system with non-zero diagonal computes finite values
that satisfy the triangular recurrence row by row. -/
theorem back_substitution_spec (n : Nat) (K : Mat α) (F : Vec α) (A : Nat → Nat → α)
    (b : Nat → α) (hK : MatIs n K A) (hF : VecIs n F b) (hd : ∀ i, i < n → A i i ≠ 0) :
    ∃ y : Nat → α, VecIs n (back_substitution n K F) y ∧
      ∀ i, i < n → A i i * y i + ∑ j in Finset.Ico (i + 1) n, A i j * y j = b i := by
  have key : ∃ y : Nat → α, ∀ i, 0 ≤ i → i < n →
      (back_substitution n K F).get i = Dbl.fin (y i) ∧
      A i i * y i + ∑ j in Finset.Ico (i + 1) n, A i j * y j = b i := by
    unfold back_substitution
    refine forDown_inv
      (fun k (D : Vec α) => ∃ y : Nat → α, ∀ i, k ≤ i → i < n →
        D.get i = Dbl.fin (y i) ∧
        A i i * y i + ∑ j in Finset.Ico (i + 1) n, A i j * y j = b i)
      n _ (Arr.calloc n 0) ⟨fun _ => 0, fun i h1 h2 => absurd h2 (by omega)⟩ ?_
    intro i D hi ih
    obtain ⟨y, hy⟩ := ih
    obtain ⟨e1, e2⟩ := back_inner_spec hi K A hK (D.set i (F.get i)) y (b i)
      (by rw [Arr.get_set_self, hF i hi])
      (fun k h1 h2 => by
        rw [Arr.get_set_ne _ _ (by omega)]
        exact (hy k (by omega) h2).1)
    refine ⟨fun k => if k = i then
      (b i - ∑ j in Finset.Ico (i + 1) n, A i j * y j) / A i i else y k, ?_⟩
    intro k hk1 hk2
    beta_reduce
    have hs : ∀ r, i ≤ r → ∑ j in Finset.Ico (r + 1) n, A k j *
        (if j = i then (b i - ∑ j in Finset.Ico (i + 1) n, A i j * y j) / A i i else y j) =
        ∑ j in Finset.Ico (r + 1) n, A k j * y j := by
      intro r hr
      apply Finset.sum_congr rfl
      intro j hj
      have := (Finset.mem_Ico.mp hj).1
      rw [if_neg (by omega)]
    by_cases hki : k = i
    · subst hki
      rw [if_pos rfl, hs k (le_refl k)]
      constructor
      · rw [Arr.get_set_self, e1, hK k k hi hi, Dbl.fin_div_of_ne _ (hd k hi)]
      · field_simp [hd k hi]
    · rw [if_neg hki, hs k (by omega)]
      constructor
      · rw [Arr.get_set_ne _ _ hki, e2 k hki, Arr.get_set_ne _ _ hki]
        exact (hy k (by omega) hk2).1
      · exact (hy k (by omega) hk2).2
  obtain ⟨y, hy⟩ := key
  exact ⟨y, fun i hi => (hy i (Nat.zero_le i) hi).1, fun i hi => (hy i (Nat.zero_le i) hi).2⟩

/-- For an upper triangular matrix the triangular recurrence is the full linear system. -/
theorem upper_solves (n : Nat) (U : Nat → Nat → α) (c y : Nat → α) (hz : LowerZero n n U)
    (h : ∀ i, i < n → U i i * y i + ∑ j in Finset.Ico (i + 1) n, U i j * y j = c i) :
    Solves n U c y := by
  intro i hi
  rw [← Finset.sum_range_add_sum_Ico _ (by omega : i ≤ n),
    Finset.sum_eq_sum_Ico_succ_bot hi]
  have z : ∑ j in Finset.range i, U i j * y j = 0 := by
    apply Finset.sum_eq_zero
    intro j hj
    have := Finset.mem_range.mp hj
    rw [hz i j (by omega) this hi, zero_mul]
  rw [z, zero_add]
  exact h i hi

/-- The solver segment of `apply_boundary_conditions` on a non-singular system: the computed
vector is finite and solves the system as it was before elimination. -/
theorem solve_reduced_spec (n : Nat) (K : Mat α) (F : Vec α) (A : Nat → Nat → α)
    (b : Nat → α) (hK : MatIs n K A) (hF : VecIs n F b) (hns : Nonsingular n A) :
    ∃ x : Nat → α, VecIs n (solve_reduced n K F) x ∧ Solves n A b x := by
  obtain ⟨U, c, h1, h2, h3, h4, h5⟩ := forward_elimination_spec n (K, F) A b hK hF hns
  obtain ⟨y, hy1, hy2⟩ := back_substitution_spec n _ _ U c h1 h2 h4
  exact ⟨y, hy1, h5 y (upper_solves n U c y h3 hy2)⟩

/-! ## Boundary conditions: fixed flags, free count, index map, reduced system -/

/-- The inner marking loop sets the flags of the constrained axes of node `i`. -/
theorem mark_inner_get (nd : Node α) (i : Nat) (f : Arr Int) (d : Nat) :
    (forLoop 0 3 (fun j f1 => if nd.constraints j ≠ 0 then f1.set (3 * i + j) 1 else f1) f).get d =
      if 3 * i ≤ d ∧ d < 3 * i + 3 ∧ nd.constraints (d - 3 * i) ≠ 0 then 1 else f.get d := by
  revert d
  refine forLoop_inv
    (fun j (f1 : Arr Int) => ∀ d, f1.get d =
      if 3 * i ≤ d ∧ d < 3 * i + j ∧ nd.constraints (d - 3 * i) ≠ 0 then 1 else f.get d)
    (by omega : 0 ≤ 3) _ f ?_ ?_
  · intro d
    have : ¬ (3 * i ≤ d ∧ d < 3 * i + 0 ∧ nd.constraints (d - 3 * i) ≠ 0) := by omega
    rw [if_neg this]
  · intro j t _ hj ih d
    by_cases hd : d = 3 * i + j
    · have e : d - 3 * i = j := by omega
      by_cases hc : nd.constraints j ≠ 0
      · rw [if_pos hc, hd, Arr.get_set_self, if_pos]
        rw [← hd, e]
        exact ⟨by omega, by omega, hc⟩
      · rw [if_neg hc, ih d, if_neg (by omega), if_neg]
        rw [e]
        exact fun h => hc h.2.2
    · have e : (if nd.constraints j ≠ 0 then t.set (3 * i + j) 1 else t).get d = t.get d := by
        split_ifs
        · exact Arr.get_set_ne _ _ hd
        · rfl
      rw [e, ih d]
      by_cases hc : 3 * i ≤ d ∧ d < 3 * i + j ∧ nd.constraints (d - 3 * i) ≠ 0
      · rw [if_pos hc, if_pos ⟨hc.1, by omega, hc.2.2⟩]
      · rw [if_neg hc, if_neg]
        intro h
        exact hc ⟨h.1, by omega, h.2.2⟩

/-- The flag `is_fixed[d]` is 1 exactly for the DOFs of constrained axes, 0 otherwise. -/
theorem is_fixed_get (nodes : List (Node α)) (d : Nat) :
    (is_fixed nodes).get d =
      if d < 3 * nodes.length ∧ (nodes.getD (d / 3) default).constraints (d % 3) ≠ 0 then 1
      else 0 := by
  unfold is_fixed
  revert d
  refine forLoop_inv
    (fun i (f : Arr Int) => ∀ d, f.get d =
      if d < 3 * i ∧ (nodes.getD (d / 3) default).constraints (d % 3) ≠ 0 then 1 else 0)
    (Nat.zero_le _) _ _ ?_ ?_
  · intro d
    have : ¬ (d < 3 * 0 ∧ (nodes.getD (d / 3) default).constraints (d % 3) ≠ 0) := by omega
    rw [if_neg this]
    rfl
  · intro i t _ _ ih d
    rw [mark_inner_get, ih d]
    by_cases h1 : 3 * i ≤ d ∧ d < 3 * i + 3
    · have e1 : d / 3 = i := by omega
      have e2 : d % 3 = d - 3 * i := by omega
      rw [e1, e2]
      by_cases hc : (nodes.getD i default).constraints (d - 3 * i) ≠ 0
      · rw [if_pos ⟨h1.1, h1.2, hc⟩, if_pos ⟨by omega, hc⟩]
      · rw [if_neg (fun h => hc h.2.2), if_neg (by omega), if_neg (fun h => hc h.2)]
    · rw [if_neg (fun h => h1 ⟨h.1, h.2.1⟩)]
      by_cases hc : d < 3 * i ∧ (nodes.getD (d / 3) default).constraints (d % 3) ≠ 0
      · rw [if_pos hc, if_pos ⟨by omega, hc.2⟩]
      · rw [if_neg hc, if_neg]
        intro h
        exact hc ⟨by omega, h.2⟩

theorem freeBelow_succ (nodes : List (Node α)) (k : Nat) :
    freeBelow nodes (k + 1) =
      freeBelow nodes k + if (is_fixed nodes).get k = 0 then 1 else 0 := by
  unfold freeBelow
  rw [Finset.range_succ, Finset.filter_insert]
  split_ifs with h
  · rw [Finset.card_insert_of_not_mem]
    simp
  · rfl

theorem freeBelow_mono (nodes : List (Node α)) {a b : Nat} (h : a ≤ b) :
    freeBelow nodes a ≤ freeBelow nodes b := by
  induction b with
  | zero =>
    have : a = 0 := by omega
    rw [this]
  | succ k ih =>
    by_cases hk : a ≤ k
    · have := ih hk
      rw [freeBelow_succ]
      omega
    · have : a = k + 1 := by omega
      rw [this]

theorem freeBelow_lt (nodes : List (Node α)) {a b : Nat} (h : a < b)
    (ha : (is_fixed nodes).get a = 0) : freeBelow nodes a < freeBelow nodes b := by
  have h1 := freeBelow_mono nodes (by omega : a + 1 ≤ b)
  rw [freeBelow_succ, if_pos ha] at h1
  omega

theorem freeBelow_inj (nodes : List (Node α)) {a b : Nat}
    (ha : (is_fixed nodes).get a = 0) (hb : (is_fixed nodes).get b = 0)
    (h : freeBelow nodes a = freeBelow nodes b) : a = b := by
  rcases Nat.lt_trichotomy a b with h1 | h1 | h1
  · have := freeBelow_lt nodes h1 ha
    omega
  · exact h1
  · have := freeBelow_lt nodes h1 hb
    omega

theorem freeBelow_surj (nodes : List (Node α)) (N r : Nat) (h : r < freeBelow nodes N) :
    ∃ d, d < N ∧ (is_fixed nodes).get d = 0 ∧ freeBelow nodes d = r := by
  induction N with
  | zero =>
    unfold freeBelow at h
    simp at h
  | succ k ih =>
    by_cases hk : r < freeBelow nodes k
    · obtain ⟨d, h1, h2, h3⟩ := ih hk
      exact ⟨d, by omega, h2, h3⟩
    · rw [freeBelow_succ] at h
      by_cases hf : (is_fixed nodes).get k = 0
      · rw [if_pos hf] at h
        exact ⟨k, by omega, hf, by omega⟩
      · rw [if_neg hf] at h
        omega

/-- The counter `n_free` is the number of free DOFs. -/
theorem n_free_eq (nodes : List (Node α)) :
    n_free nodes = freeBelow nodes (total_dofs nodes) := by
  unfold n_free
  refine forLoop_inv (fun i (c : Nat) => c = freeBelow nodes i) (Nat.zero_le _) _ 0 ?_ ?_
  · unfold freeBelow
    simp
  · intro i c _ _ ih
    rw [freeBelow_succ, ih]
    split_ifs <;> rfl

/-- The index map: a free DOF gets the number of free DOFs before it, a fixed DOF -1. -/
theorem dof_map_get (nodes : List (Node α)) {d : Nat} (hd : d < total_dofs nodes) :
    (dof_map nodes).get d =
      if (is_fixed nodes).get d = 0 then (freeBelow nodes d : Int) else -1 := by
  have key : (dof_map_loop nodes).2 = freeBelow nodes (total_dofs nodes) ∧
      ∀ d, d < total_dofs nodes → (dof_map_loop nodes).1.get d =
        if (is_fixed nodes).get d = 0 then (freeBelow nodes d : Int) else -1 := by
    unfold dof_map_loop
    refine forLoop_inv
      (fun i (s : Arr Int × Nat) => s.2 = freeBelow nodes i ∧
        ∀ d, d < i → s.1.get d =
          if (is_fixed nodes).get d = 0 then (freeBelow nodes d : Int) else -1)
      (Nat.zero_le _) _ _ ?_ ?_
    · constructor
      · unfold freeBelow
        simp
      · intro d hd
        omega
    · intro i t _ _ ih
      obtain ⟨ih1, ih2⟩ := ih
      by_cases hf : (is_fixed nodes).get i = 0
      · rw [if_pos hf]
        constructor
        · show t.2 + 1 = _
          rw [freeBelow_succ, if_pos hf, ih1]
        · intro d hd
          show (t.1.set i _).get d = _
          by_cases hdi : d = i
          · rw [hdi, Arr.get_set_self, if_pos hf, ih1]
          · rw [Arr.get_set_ne _ _ hdi]
            exact ih2 d (by omega)
      · rw [if_neg hf]
        constructor
        · show t.2 = _
          rw [freeBelow_succ, if_neg hf, ih1]
          rfl
        · intro d hd
          show (t.1.set i _).get d = _
          by_cases hdi : d = i
          · rw [hdi, Arr.get_set_self, if_neg hf]
          · rw [Arr.get_set_ne _ _ hdi]
            exact ih2 d (by omega)
  exact key.2 d hd

theorem dof_map_toNat (nodes : List (Node α)) {d : Nat} (hd : d < total_dofs nodes)
    (hf : (is_fixed nodes).get d = 0) :
    ((dof_map nodes).get d).toNat = freeBelow nodes d := by
  rw [dof_map_get nodes hd, if_pos hf]
  exact Int.toNat_natCast _

/-- The reduced system holds the rows and columns of the free DOFs. -/
theorem fill_reduced_get (nodes : List (Node α)) (K : Mat α) (F : Vec α) :
    (∀ a b, a < total_dofs nodes → b < total_dofs nodes →
      (is_fixed nodes).get a = 0 → (is_fixed nodes).get b = 0 →
      (fill_reduced nodes K F).1.get2 (freeBelow nodes a) (freeBelow nodes b) = K.get2 a b) ∧
    (∀ a, a < total_dofs nodes → (is_fixed nodes).get a = 0 →
      (fill_reduced nodes K F).2.get (freeBelow nodes a) = F.get a) := by
  unfold fill_reduced
  refine forLoop_inv
    (fun i (s : Mat α × Vec α) =>
      (∀ a b, a < i → b < total_dofs nodes →
        (is_fixed nodes).get a = 0 → (is_fixed nodes).get b = 0 →
        s.1.get2 (freeBelow nodes a) (freeBelow nodes b) = K.get2 a b) ∧
      (∀ a, a < i → (is_fixed nodes).get a = 0 →
        s.2.get (freeBelow nodes a) = F.get a))
    (Nat.zero_le _) _ _ ?_ ?_
  · exact ⟨fun a b ha => absurd ha (Nat.not_lt_zero a), fun a ha => absurd ha (Nat.not_lt_zero a)⟩
  · intro i t _ hi ih
    obtain ⟨ihK, ihF⟩ := ih
    by_cases hf : (is_fixed nodes).get i = 0
    · rw [if_pos hf]
      have hrow : (∀ b, b < total_dofs nodes → (is_fixed nodes).get b = 0 →
            (forLoop 0 (total_dofs nodes) (fun j Kr =>
              if (is_fixed nodes).get j = 0 then
                Kr.set2 ((dof_map nodes).get i).toNat ((dof_map nodes).get j).toNat (K.get2 i j)
              else Kr) t.1).get2 (freeBelow nodes i) (freeBelow nodes b) = K.get2 i b) ∧
          (∀ a b, a ≠ freeBelow nodes i →
            (forLoop 0 (total_dofs nodes) (fun j Kr =>
              if (is_fixed nodes).get j = 0 then
                Kr.set2 ((dof_map nodes).get i).toNat ((dof_map nodes).get j).toNat (K.get2 i j)
              else Kr) t.1).get2 a b = t.1.get2 a b) := by
        have := forLoop_inv
          (fun j (Kr : Mat α) =>
            (∀ b, b < j → (is_fixed nodes).get b = 0 →
              Kr.get2 (freeBelow nodes i) (freeBelow nodes b) = K.get2 i b) ∧
            (∀ a b, a ≠ freeBelow nodes i → Kr.get2 a b = t.1.get2 a b))
          (Nat.zero_le (total_dofs nodes))
          (fun j Kr =>
              if (is_fixed nodes).get j = 0 then
                Kr.set2 ((dof_map nodes).get i).toNat ((dof_map nodes).get j).toNat (K.get2 i j)
              else Kr) t.1
          ⟨fun b hb => absurd hb (Nat.not_lt_zero b), fun a b _ => rfl⟩
          (by
            intro j Kr _ hj ih
            obtain ⟨ih1, ih2⟩ := ih
            beta_reduce
            by_cases hfj : (is_fixed nodes).get j = 0
            · rw [if_pos hfj, dof_map_toNat nodes hi hf, dof_map_toNat nodes hj hfj]
              constructor
              · intro b hb hfb
                rw [Arr.get2_set2]
                by_cases hbj : b = j
                · rw [hbj, if_pos ⟨rfl, rfl⟩]
                · rw [if_neg]
                  · exact ih1 b (by omega) hfb
                  · intro h
                    exact hbj (freeBelow_inj nodes hfb hfj h.2)
              · intro a b ha
                rw [Arr.get2_set2, if_neg (fun h => ha h.1)]
                exact ih2 a b ha
            · rw [if_neg hfj]
              constructor
              · intro b hb hfb
                have : b ≠ j := fun h => hfj (h ▸ hfb)
                exact ih1 b (by omega) hfb
              · exact ih2)
        exact ⟨fun b hb => this.1 b hb, this.2⟩
      obtain ⟨hr1, hr2⟩ := hrow
      constructor
      · intro a b ha hb hfa hfb
        by_cases hai : a = i
        · subst hai
          exact hr1 b hb hfb
        · have hne : freeBelow nodes a ≠ freeBelow nodes i :=
            fun h => hai (freeBelow_inj nodes hfa hf h)
          show Arr.get2 (forLoop _ _ _ _) _ _ = _
          rw [hr2 _ _ hne]
          exact ihK a b (by omega) hb hfa hfb
      · intro a ha hfa
        show (t.2.set _ _).get _ = _
        rw [dof_map_toNat nodes hi hf]
        by_cases hai : a = i
        · rw [hai, Arr.get_set_self]
        · have hne : freeBelow nodes a ≠ freeBelow nodes i :=
            fun h => hai (freeBelow_inj nodes hfa hf h)
          rw [Arr.get_set_ne _ _ hne]
          exact ihF a (by omega) hfa
    · rw [if_neg hf]
      constructor
      · intro a b ha hb hfa hfb
        have : a ≠ i := fun h => hf (h ▸ hfa)
        exact ihK a b (by omega) hb hfa hfb
      · intro a ha hfa
        have : a ≠ i := fun h => hf (h ▸ hfa)
        exact ihF a (by omega) hfa

/-- The expansion loop: size `total_dofs`, zero at fixed DOFs, the reduced value at free
DOFs. -/
theorem expand_spec (nodes : List (Node α)) (Dr : Vec α) :
    (expand nodes Dr).size = total_dofs nodes ∧
    ∀ k, (expand nodes Dr).get k =
      if k < total_dofs nodes ∧ (is_fixed nodes).get k = 0 then
        Dr.get ((dof_map nodes).get k).toNat
      else 0 := by
  unfold expand
  refine forLoop_inv
    (fun i (d : Vec α) => d.size = total_dofs nodes ∧
      ∀ k, d.get k =
        if k < i ∧ (is_fixed nodes).get k = 0 then Dr.get ((dof_map nodes).get k).toNat
        else 0)
    (Nat.zero_le _) _ _ ?_ ?_
  · constructor
    · rfl
    · intro k
      rw [if_neg (by omega)]
      rfl
  · intro i t _ _ ih
    obtain ⟨ih1, ih2⟩ := ih
    by_cases hf : (is_fixed nodes).get i = 0
    · rw [if_pos hf]
      constructor
      · exact ih1
      · intro k
        by_cases hki : k = i
        · rw [hki, Arr.get_set_self, if_pos ⟨Nat.lt_succ_self i, hf⟩]
        · rw [Arr.get_set_ne _ _ hki, ih2 k]
          by_cases hc : k < i ∧ (is_fixed nodes).get k = 0
          · rw [if_pos hc, if_pos ⟨by omega, hc.2⟩]
          · rw [if_neg hc, if_neg]
            intro h
            exact hc ⟨by omega, h.2⟩
    · rw [if_neg hf]
      constructor
      · exact ih1
      · intro k
        rw [ih2 k]
        by_cases hc : k < i ∧ (is_fixed nodes).get k = 0
        · rw [if_pos hc, if_pos ⟨by omega, hc.2⟩]
        · rw [if_neg hc, if_neg]
          intro h
          by_cases hki : k = i
          · exact hf (hki ▸ h.2)
          · exact hc ⟨by omega, h.2⟩

/-! ## Assembly -/

theorem sum_fin {ι : Type} (s : Finset ι) (f : ι → α) :
    ∑ i in s, Dbl.fin (f i) = Dbl.fin (∑ i in s, f i) := by
  classical
  induction s using Finset.induction_on with
  | empty => rfl
  | insert h ih => rw [Finset.sum_insert h, Finset.sum_insert h, ih, Dbl.fin_add]

theorem list_sum_fin {ι : Type} (l : List ι) (g : ι → α) :
    (l.map (fun m => Dbl.fin (g m))).sum = Dbl.fin ((l.map g).sum) := by
  induction l with
  | nil => rfl
  | cons a t ih => rw [List.map_cons, List.sum_cons, ih, List.map_cons, List.sum_cons, Dbl.fin_add]

/-- An accumulation loop `K[r][c q] += e q` adds to each entry the terms that land on it. -/
theorem acc_row_get2 (e : Nat → Dbl α) (r : Nat) (c : Nat → Nat) (n : Nat) (K : Mat α)
    (P Q : Nat) :
    (forLoop 0 n (fun q K2 => K2.set2 r (c q) (K2.get2 r (c q) + e q)) K).get2 P Q =
      K.get2 P Q + ∑ q in Finset.range n, if r = P ∧ c q = Q then e q else 0 := by
  revert P Q
  refine forLoop_inv
    (fun j (K2 : Mat α) => ∀ P Q, K2.get2 P Q =
      K.get2 P Q + ∑ q in Finset.range j, if r = P ∧ c q = Q then e q else 0)
    (Nat.zero_le n) _ K ?_ ?_
  · intro P Q
    rw [Finset.range_zero, Finset.sum_empty, add_zero]
  · intro j t _ _ ih P Q
    rw [Arr.get2_set2, Finset.sum_range_succ, ← add_assoc, ← ih P Q]
    by_cases h : P = r ∧ Q = c j
    · obtain ⟨h1, h2⟩ := h
      subst h1 h2
      rw [if_pos ⟨rfl, rfl⟩, if_pos ⟨rfl, rfl⟩]
    · rw [if_neg h, if_neg (fun h2 => h ⟨h2.1.symm, h2.2.symm⟩), add_zero]

/-- The double loop over the element matrix, entry by entry. -/
theorem add_element_get2 (e : Nat → Nat → Dbl α) (d : Nat → Nat) (K : Mat α) (P Q : Nat) :
    (add_element e d K).get2 P Q =
      K.get2 P Q + ∑ p in Finset.range 6, ∑ q in Finset.range 6,
        if d p = P ∧ d q = Q then e p q else 0 := by
  unfold add_element
  revert P Q
  refine forLoop_inv
    (fun i (K1 : Mat α) => ∀ P Q, K1.get2 P Q =
      K.get2 P Q + ∑ p in Finset.range i, ∑ q in Finset.range 6,
        if d p = P ∧ d q = Q then e p q else 0)
    (Nat.zero_le 6) _ K ?_ ?_
  · intro P Q
    rw [Finset.range_zero, Finset.sum_empty, add_zero]
  · intro i t _ _ ih P Q
    rw [acc_row_get2 (e i) (d i) d 6 t P Q, ih P Q, add_assoc]
    congr 1
    exact (Finset.sum_range_succ
      (fun p => ∑ q in Finset.range 6, if d p = P ∧ d q = Q then e p q else 0) i).symm

/-- The assembled matrix is, entry by entry, the sum of the member contributions. -/
theorem K_global_get2 (sqrt : α → α) (nodes : List (Node α)) (members : List (Member α))
    (P Q : Nat) :
    (K_global sqrt nodes members).get2 P Q =
      (members.map (fun m => elem_term sqrt nodes m P Q)).sum := by
  have key : ∀ (l : List (Member α)) (K0 : Mat α),
      (l.foldl (assemble_member sqrt nodes) K0).get2 P Q =
        K0.get2 P Q + (l.map (fun m => elem_term sqrt nodes m P Q)).sum := by
    intro l
    induction l with
    | nil =>
      intro K0
      rw [List.foldl_nil, List.map_nil, List.sum_nil, add_zero]
    | cons m t ih =>
      intro K0
      rw [List.foldl_cons, ih, List.map_cons, List.sum_cons, ← add_assoc]
      congr 1
      exact add_element_get2 _ _ K0 P Q
  unfold K_global
  rw [key]
  exact zero_add _

/-- With a non-zero length the element matrix holds the finite values
`(E A / L) * c[p] * c[q]`. -/
theorem ke_fin (sqrt : α → α) (nodes : List (Node α)) (m : Member α)
    (hL : member_length sqrt nodes m ≠ 0) {p q : Nat} (hp : p < 6) (hq : q < 6) :
    ke (direction sqrt nodes m 0) (direction sqrt nodes m 1) (direction sqrt nodes m 2)
        (member_k sqrt nodes m) p q =
      Dbl.fin (m.E * m.A / member_length sqrt nodes m * cos6 sqrt nodes m p *
        cos6 sqrt nodes m q) := by
  have e0 : direction sqrt nodes m 0 = Dbl.fin (cos6 sqrt nodes m 0) := by
    simp [direction, arr3, cos6, Dbl.fin_div_of_ne _ hL]
  have e1 : direction sqrt nodes m 1 = Dbl.fin (cos6 sqrt nodes m 1) := by
    simp [direction, arr3, cos6, Dbl.fin_div_of_ne _ hL]
  have e2 : direction sqrt nodes m 2 = Dbl.fin (cos6 sqrt nodes m 2) := by
    simp [direction, arr3, cos6, Dbl.fin_div_of_ne _ hL]
  have e3 : cos6 sqrt nodes m 3 = -cos6 sqrt nodes m 0 := by simp [cos6]
  have e4 : cos6 sqrt nodes m 4 = -cos6 sqrt nodes m 1 := by simp [cos6]
  have e5 : cos6 sqrt nodes m 5 = -cos6 sqrt nodes m 2 := by simp [cos6]
  have ek : member_k sqrt nodes m = Dbl.fin (m.E * m.A / member_length sqrt nodes m) := by
    simp [member_k, Dbl.fin_div_of_ne _ hL]
  rw [e0, e1, e2, ek]
  interval_cases p <;> interval_cases q <;>
    simp only [ke, ke_init, List.getD_cons_zero, List.getD_cons_succ, Dbl.fin_mul, Dbl.neg_fin,
      e3, e4, e5, Dbl.fin.injEq] <;> ring

/-- On a valid model each member contribution is the finite value of the specification. -/
theorem elem_term_fin (sqrt : α → α) (nodes : List (Node α)) (m : Member α)
    (hL : member_length sqrt nodes m ≠ 0) (P Q : Nat) :
    elem_term sqrt nodes m P Q =
      Dbl.fin (∑ p in Finset.range 6, ∑ q in Finset.range 6,
        if dofs m.node1 m.node2 p = P ∧ dofs m.node1 m.node2 q = Q then
          m.E * m.A / member_length sqrt nodes m * cos6 sqrt nodes m p * cos6 sqrt nodes m q
        else 0) := by
  unfold elem_term
  rw [← sum_fin]
  apply Finset.sum_congr rfl
  intro p hp
  rw [← sum_fin]
  apply Finset.sum_congr rfl
  intro q hq
  rw [ke_fin sqrt nodes m hL (Finset.mem_range.mp hp) (Finset.mem_range.mp hq)]
  split_ifs <;> rfl

/-- On a valid model the assembled matrix holds the finite values of `K_exact`. -/
theorem K_global_fin (sqrt : α → α) (nodes : List (Node α)) (members : List (Member α))
    (hL : ∀ m ∈ members, member_length sqrt nodes m ≠ 0) (P Q : Nat) :
    (K_global sqrt nodes members).get2 P Q = Dbl.fin (K_exact sqrt nodes members P Q) := by
  rw [K_global_get2]
  unfold K_exact
  rw [← list_sum_fin]
  congr 1
  apply List.map_congr_left
  intro m hm
  exact elem_term_fin sqrt nodes m (hL m hm) P Q

/-- The load vector holds each node's three load components at its three DOFs. -/
theorem F_global_get (nodes : List (Node α)) (d : Nat) :
    (F_global nodes).get d =
      if d < 3 * nodes.length then Dbl.fin ((nodes.getD (d / 3) default).loads (d % 3))
      else 0 := by
  unfold F_global
  revert d
  refine forLoop_inv
    (fun i (F : Vec α) => ∀ d, F.get d =
      if d < 3 * i then Dbl.fin ((nodes.getD (d / 3) default).loads (d % 3)) else 0)
    (Nat.zero_le _) _ _ ?_ ?_
  · intro d
    rw [if_neg (by omega)]
    rfl
  · intro i t _ _ ih d
    simp only [Arr.get_set]
    by_cases h2 : d = 3 * i + 2
    · have e1 : d / 3 = i := by omega
      have e2 : d % 3 = 2 := by omega
      rw [if_pos h2, if_pos (by omega), e1, e2]
    · rw [if_neg h2]
      by_cases h1 : d = 3 * i + 1
      · have e1 : d / 3 = i := by omega
        have e2 : d % 3 = 1 := by omega
        rw [if_pos h1, if_pos (by omega), e1, e2]
      · rw [if_neg h1]
        by_cases h0 : d = 3 * i
        · have e1 : d / 3 = i := by omega
          have e2 : d % 3 = 0 := by omega
          rw [if_pos h0, if_pos (by omega), e1, e2]
        · rw [if_neg h0, ih d]
          by_cases hc : d < 3 * i
          · rw [if_pos hc, if_pos (by omega)]
          · rw [if_neg hc, if_neg (by omega)]

/-- The inner loop of `compute_reactions` accumulates row `i` of `K * D` in cell `i`. -/
theorem react_inner_spec (K : Mat α) (D : Vec α) (i n : Nat) (r : Vec α) :
    (forLoop 0 n (fun j r2 => r2.set i (r2.get i + K.get2 i j * D.get j)) r).size = r.size ∧
    (forLoop 0 n (fun j r2 => r2.set i (r2.get i + K.get2 i j * D.get j)) r).get i =
      r.get i + ∑ j in Finset.range n, K.get2 i j * D.get j ∧
    ∀ k, k ≠ i →
      (forLoop 0 n (fun j r2 => r2.set i (r2.get i + K.get2 i j * D.get j)) r).get k =
        r.get k := by
  refine forLoop_inv
    (fun j (r2 : Vec α) => r2.size = r.size ∧
      r2.get i = r.get i + ∑ c in Finset.range j, K.get2 i c * D.get c ∧
      ∀ k, k ≠ i → r2.get k = r.get k)
    (Nat.zero_le n) _ r ?_ ?_
  · refine ⟨rfl, ?_, fun k _ => rfl⟩
    rw [Finset.range_zero, Finset.sum_empty, add_zero]
  · intro j t _ _ ih
    obtain ⟨ih0, ih1, ih2⟩ := ih
    refine ⟨ih0, ?_, ?_⟩
    · rw [Arr.get_set_self, ih1, Finset.sum_range_succ, add_assoc]
    · intro k hk
      rw [Arr.get_set_ne _ _ hk]
      exact ih2 k hk

/-- The vector `reactions` is `K * D - F` on the first `total_dofs` cells, as doubles. -/
theorem compute_reactions_spec (nodes : List (Node α)) (K : Mat α) (F : Vec α) (D : Vec α) :
    (compute_reactions nodes K F D).size = total_dofs nodes ∧
    ∀ k, (compute_reactions nodes K F D).get k =
      if k < total_dofs nodes then
        (∑ j in Finset.range (total_dofs nodes), K.get2 k j * D.get j) - F.get k
      else 0 := by
  have h1 : (forLoop 0 (total_dofs nodes) (fun i r =>
        forLoop 0 (total_dofs nodes) (fun j r2 =>
          r2.set i (r2.get i + K.get2 i j * D.get j)) r)
        (Arr.calloc (total_dofs nodes) 0)).size = total_dofs nodes ∧
      ∀ k, (forLoop 0 (total_dofs nodes) (fun i r =>
        forLoop 0 (total_dofs nodes) (fun j r2 =>
          r2.set i (r2.get i + K.get2 i j * D.get j)) r)
        (Arr.calloc (total_dofs nodes) 0)).get k =
        if k < total_dofs nodes then
          ∑ j in Finset.range (total_dofs nodes), K.get2 k j * D.get j
        else 0 := by
    refine forLoop_inv
      (fun i (r : Vec α) => r.size = total_dofs nodes ∧
        ∀ k, r.get k =
          if k < i then ∑ j in Finset.range (total_dofs nodes), K.get2 k j * D.get j else 0)
      (Nat.zero_le _) _ _ ?_ ?_
    · refine ⟨rfl, fun k => ?_⟩
      rw [if_neg (by omega)]
      rfl
    · intro i t _ _ ih
      obtain ⟨ih0, ih1⟩ := ih
      obtain ⟨g0, g1, g2⟩ := react_inner_spec K D i (total_dofs nodes) t
      refine ⟨by rw [g0, ih0], fun k => ?_⟩
      by_cases hki : k = i
      · subst hki
        rw [g1, ih1 k, if_neg (lt_irrefl k), if_pos (Nat.lt_succ_self k), zero_add]
      · rw [g2 k hki, ih1 k]
        by_cases hc : k < i
        · rw [if_pos hc, if_pos (by omega)]
        · rw [if_neg hc, if_neg (by omega)]
  obtain ⟨h1a, h1b⟩ := h1
  unfold compute_reactions
  have h2 := forLoop_inv
    (fun i (r : Vec α) => r.size = total_dofs nodes ∧
      ∀ k, r.get k =
        if k < total_dofs nodes then
          if k < i then
            (∑ j in Finset.range (total_dofs nodes), K.get2 k j * D.get j) - F.get k
          else ∑ j in Finset.range (total_dofs nodes), K.get2 k j * D.get j
        else 0)
    (Nat.zero_le (total_dofs nodes)) (fun i r => r.set i (r.get i - F.get i))
    (forLoop 0 (total_dofs nodes) (fun i r =>
        forLoop 0 (total_dofs nodes) (fun j r2 =>
          r2.set i (r2.get i + K.get2 i j * D.get j)) r)
        (Arr.calloc (total_dofs nodes) 0))
    ⟨h1a, fun k => by rw [h1b k, if_neg (Nat.not_lt_zero k)]⟩
    (by
      intro i t _ hi ih
      obtain ⟨ih0, ih1⟩ := ih
      refine ⟨ih0, fun k => ?_⟩
      by_cases hki : k = i
      · subst hki
        rw [Arr.get_set_self, ih1 k, if_pos hi, if_neg (lt_irrefl k), if_pos hi,
          if_pos (Nat.lt_succ_self k)]
      · rw [Arr.get_set_ne _ _ hki, ih1 k]
        by_cases hk : k < total_dofs nodes
        · rw [if_pos hk, if_pos hk]
          by_cases hc : k < i
          · rw [if_pos hc, if_pos (by omega)]
          · rw [if_neg hc, if_neg (by omega)]
        · rw [if_neg hk, if_neg hk])
  obtain ⟨h2a, h2b⟩ := h2
  refine ⟨h2a, fun k => ?_⟩
  rw [h2b k]
  by_cases hk : k < total_dofs nodes
  · rw [if_pos hk, if_pos hk, if_pos hk]
  · rw [if_neg hk, if_neg hk]

/-- The specified stiffness matrix is symmetric. -/
theorem K_exact_symm (sqrt : α → α) (nodes : List (Node α)) (members : List (Member α))
    (P Q : Nat) : K_exact sqrt nodes members P Q = K_exact sqrt nodes members Q P := by
  unfold K_exact
  congr 1
  apply List.map_congr_left
  intro m _
  rw [Finset.sum_comm]
  apply Finset.sum_congr rfl
  intro q _
  apply Finset.sum_congr rfl
  intro p _
  by_cases h : dofs m.node1 m.node2 p = P ∧ dofs m.node1 m.node2 q = Q
  · rw [if_pos h, if_pos ⟨h.2, h.1⟩]
    ring
  · rw [if_neg h, if_neg (fun h2 => h ⟨h2.2, h2.1⟩)]

theorem sum_list_comm {ι β : Type} (s : Finset ι) (l : List β) (f : β → ι → α) :
    ∑ i in s, (l.map (fun m => f m i)).sum = (l.map (fun m => ∑ i in s, f m i)).sum := by
  induction l with
  | nil => simp
  | cons a t ih =>
    simp only [List.map_cons, List.sum_cons]
    rw [Finset.sum_add_distrib, ih]

/-- The rows of one axis of an element matrix cancel: summed over the nodes, the
contributions of a member to the DOFs of axis `a` in any column are zero. -/
theorem member_colsum (n1 n2 len : Nat) (h1 : n1 < len) (h2 : n2 < len) (k : α)
    (c : Nat → α) (hc3 : c 3 = -c 0) (hc4 : c 4 = -c 1) (hc5 : c 5 = -c 2)
    (a : Nat) (ha : a < 3) (Q : Nat) :
    ∑ i in Finset.range len, ∑ p in Finset.range 6, ∑ q in Finset.range 6,
      (if dofs n1 n2 p = 3 * i + a ∧ dofs n1 n2 q = Q then k * c p * c q else 0) = 0 := by
  have key : ∀ p, p < 6 → ∀ q,
      ∑ i in Finset.range len,
        (if dofs n1 n2 p = 3 * i + a ∧ dofs n1 n2 q = Q then k * c p * c q else 0) =
      if p % 3 = a ∧ dofs n1 n2 q = Q then k * c p * c q else 0 := by
    intro p hp q
    have hd : dofs n1 n2 p = 3 * (if p < 3 then n1 else n2) + p % 3 := by
      interval_cases p <;> simp [dofs]
    have hlt : (if p < 3 then n1 else n2) < len := by
      split_ifs <;> assumption
    have hmod : p % 3 < 3 := Nat.mod_lt _ (by decide)
    generalize (if p < 3 then n1 else n2) = nd at hd hlt
    rw [Finset.sum_eq_single nd]
    · by_cases hc : p % 3 = a ∧ dofs n1 n2 q = Q
      · rw [if_pos hc, if_pos ⟨by rw [hd, hc.1], hc.2⟩]
      · rw [if_neg hc, if_neg]
        intro h
        exact hc ⟨by omega, h.2⟩
    · intro i _ hi
      rw [if_neg]
      intro h
      apply hi
      omega
    · intro h
      exact absurd (Finset.mem_range.mpr hlt) h
  rw [Finset.sum_comm]
  have e1 : ∀ p ∈ Finset.range 6,
      ∑ i in Finset.range len, ∑ q in Finset.range 6,
        (if dofs n1 n2 p = 3 * i + a ∧ dofs n1 n2 q = Q then k * c p * c q else 0) =
      ∑ q in Finset.range 6,
        if p % 3 = a ∧ dofs n1 n2 q = Q then k * c p * c q else 0 := by
    intro p hp
    rw [Finset.sum_comm]
    apply Finset.sum_congr rfl
    intro q _
    exact key p (Finset.mem_range.mp hp) q
  rw [Finset.sum_congr rfl e1, Finset.sum_comm]
  apply Finset.sum_eq_zero
  intro q _
  by_cases hQ : dofs n1 n2 q = Q
  · simp only [hQ, and_true, Finset.sum_range_succ, Finset.sum_range_zero, hc3, hc4, hc5]
    interval_cases a <;> norm_num
  · simp [hQ]

/-- Column sums of the specified stiffness matrix over the DOFs of one axis vanish. -/
theorem K_exact_colsum (sqrt : α → α) (nodes : List (Node α)) (members : List (Member α))
    (hv : ValidModel sqrt nodes members) (a : Nat) (ha : a < 3) (Q : Nat) :
    ∑ i in Finset.range nodes.length, K_exact sqrt nodes members (3 * i + a) Q = 0 := by
  unfold K_exact
  rw [sum_list_comm]
  apply List.sum_eq_zero
  intro x hx
  obtain ⟨m, hm, rfl⟩ := List.mem_map.mp hx
  obtain ⟨h1, h2, _⟩ := hv m hm
  have := member_colsum m.node1 m.node2 nodes.length h1 h2
    (m.E * m.A / member_length sqrt nodes m) (cos6 sqrt nodes m)
    (by simp [cos6]) (by simp [cos6]) (by simp [cos6]) a ha Q
  simpa only [eq_comm] using this

/-- Reactions on a finite system: `K * D - F` in exact arithmetic. -/
theorem reactions_fin (sqrt : α → α) (nodes : List (Node α)) (members : List (Member α))
    (hL : ∀ m ∈ members, member_length sqrt nodes m ≠ 0) (D : Vec α) (Dv : Nat → α)
    (hD : VecIs (total_dofs nodes) D Dv) :
    VecIs (total_dofs nodes)
      (compute_reactions nodes (K_global sqrt nodes members) (F_global nodes) D)
      (fun k => (∑ j in Finset.range (total_dofs nodes),
        K_exact sqrt nodes members k j * Dv j) -
        (nodes.getD (k / 3) default).loads (k % 3)) := by
  intro k hk
  rw [(compute_reactions_spec nodes _ _ D).2 k, if_pos hk, F_global_get,
    if_pos (by unfold total_dofs at hk; exact hk)]
  have e : ∑ j in Finset.range (total_dofs nodes),
      (K_global sqrt nodes members).get2 k j * D.get j =
      Dbl.fin (∑ j in Finset.range (total_dofs nodes),
        K_exact sqrt nodes members k j * Dv j) := by
    rw [← sum_fin]
    apply Finset.sum_congr rfl
    intro j hj
    rw [K_global_fin sqrt nodes members hL, hD j (Finset.mem_range.mp hj), Dbl.fin_mul]
  rw [e, Dbl.fin_sub]

/-! ## Finite entries of the assembled matrix -/

theorem add_eq_fin {x y : Dbl α} {v : α} (h : x + y = Dbl.fin v) :
    (∃ a, x = Dbl.fin a) ∧ (∃ b, y = Dbl.fin b) := by
  cases x with
  | undef => exact absurd h (by simp)
  | fin a =>
    cases y with
    | undef => exact absurd h (by simp)
    | fin b => exact ⟨⟨a, rfl⟩, ⟨b, rfl⟩⟩

theorem list_sum_fin_iff {ι : Type} (l : List ι) (f : ι → Dbl α) :
    (∃ v, (l.map f).sum = Dbl.fin v) ↔ ∀ m ∈ l, ∃ w, f m = Dbl.fin w := by
  induction l with
  | nil => exact ⟨fun _ m hm => absurd hm (List.not_mem_nil m), fun _ => ⟨0, rfl⟩⟩
  | cons a t ih =>
    rw [List.map_cons, List.sum_cons]
    constructor
    · rintro ⟨v, hv⟩ m hm
      obtain ⟨h1, h2⟩ := add_eq_fin hv
      rcases List.mem_cons.mp hm with rfl | hm
      · exact h1
      · exact ih.mp h2 m hm
    · intro h
      obtain ⟨w, hw⟩ := h a (List.mem_cons_self a t)
      obtain ⟨v, hv⟩ := ih.mpr (fun m hm => h m (List.mem_cons_of_mem a hm))
      exact ⟨w + v, by rw [hw, hv, Dbl.fin_add]⟩

theorem finset_sum_fin_iff {ι : Type} (s : Finset ι) (f : ι → Dbl α) :
    (∃ v, ∑ i in s, f i = Dbl.fin v) ↔ ∀ i ∈ s, ∃ w, f i = Dbl.fin w := by
  classical
  induction s using Finset.induction_on with
  | empty => exact ⟨fun _ i hi => absurd hi (Finset.not_mem_empty i), fun _ => ⟨0, rfl⟩⟩
  | insert hn ih =>
    rw [Finset.sum_insert hn]
    constructor
    · rintro ⟨v, hv⟩ i hi
      obtain ⟨h1, h2⟩ := add_eq_fin hv
      rcases Finset.mem_insert.mp hi with rfl | hi
      · exact h1
      · exact ih.mp h2 i hi
    · intro h
      obtain ⟨w, hw⟩ := h _ (Finset.mem_insert_self _ _)
      obtain ⟨v, hv⟩ := ih.mpr (fun i hi => h i (Finset.mem_insert_of_mem hi))
      exact ⟨w + v, by rw [hw, hv, Dbl.fin_add]⟩

/-- With a zero length every entry of the element matrix is non-finite. -/
theorem ke_undef (sqrt : α → α) (nodes : List (Node α)) (m : Member α)
    (hL : member_length sqrt nodes m = 0) (p q : Nat) :
    ke (direction sqrt nodes m 0) (direction sqrt nodes m 1) (direction sqrt nodes m 2)
        (member_k sqrt nodes m) p q = Dbl.undef := by
  have ek : member_k sqrt nodes m = Dbl.undef := by
    simp [member_k, hL]
  rw [ek]
  unfold ke
  exact Dbl.mul_undef _

/-- If the diagonal contribution of a member at `P` is finite, so is its contribution
to every entry of row `P`. -/
theorem elem_term_row_fin (sqrt : α → α) (nodes : List (Node α)) (m : Member α) (P : Nat)
    (h : ∃ v, elem_term sqrt nodes m P P = Dbl.fin v) (Q : Nat) :
    ∃ w, elem_term sqrt nodes m P Q = Dbl.fin w := by
  by_cases hL : member_length sqrt nodes m = 0
  · have hno : ∀ p, p < 6 → dofs m.node1 m.node2 p ≠ P := by
      intro p hp hd
      unfold elem_term at h
      obtain ⟨w, hw⟩ := (finset_sum_fin_iff _ _).mp h p (Finset.mem_range.mpr hp)
      obtain ⟨u, hu⟩ := (finset_sum_fin_iff _ _).mp ⟨w, hw⟩ p (Finset.mem_range.mpr hp)
      rw [if_pos ⟨hd, hd⟩, ke_undef sqrt nodes m hL p p] at hu
      exact absurd hu (by simp)
    refine ⟨0, ?_⟩
    unfold elem_term
    apply Finset.sum_eq_zero
    intro p hp
    apply Finset.sum_eq_zero
    intro q _
    rw [if_neg (fun hc => hno p (Finset.mem_range.mp hp) hc.1)]
  · exact ⟨_, elem_term_fin sqrt nodes m hL P Q⟩

/-- If the diagonal entry at `P` of the assembled matrix is finite, row `P` is finite. -/
theorem K_global_row_fin (sqrt : α → α) (nodes : List (Node α)) (members : List (Member α))
    (P : Nat) (h : ∃ v, (K_global sqrt nodes members).get2 P P = Dbl.fin v) (Q : Nat) :
    ∃ w, (K_global sqrt nodes members).get2 P Q = Dbl.fin w := by
  rw [K_global_get2] at h ⊢
  have h1 := (list_sum_fin_iff members (fun m => elem_term sqrt nodes m P P)).mp h
  exact (list_sum_fin_iff members (fun m => elem_term sqrt nodes m P Q)).mpr
    (fun m hm => elem_term_row_fin sqrt nodes m P (h1 m hm) Q)

/-! ## The solved displacements -/

/-- Sums over the free DOFs are sums over the reduced indices. -/
theorem sum_free_reindex (nodes : List (Node α)) (g : Nat → α) (N : Nat) :
    ∑ j in Finset.range N, (if (is_fixed nodes).get j = 0 then g (freeBelow nodes j) else 0) =
      ∑ r in Finset.range (freeBelow nodes N), g r := by
  induction N with
  | zero =>
    have : freeBelow nodes 0 = 0 := by
      unfold freeBelow
      simp
    rw [this]
    simp
  | succ k ih =>
    rw [Finset.sum_range_succ, ih, freeBelow_succ]
    by_cases hf : (is_fixed nodes).get k = 0
    · rw [if_pos hf, if_pos hf, Finset.sum_range_succ]
    · rw [if_neg hf, if_neg hf, add_zero, add_zero]

/-- The reduced right-hand side is finite when the load vector is. -/
theorem reduced_rhs_fin (nodes : List (Node α)) (K : Mat α) (F : Vec α) (Fv : Nat → α)
    (hF : VecIs (total_dofs nodes) F Fv) :
    ∃ br : Nat → α, VecIs (n_free nodes) (fill_reduced nodes K F).2 br ∧
      ∀ a, a < total_dofs nodes → (is_fixed nodes).get a = 0 →
        br (freeBelow nodes a) = Fv a := by
  have h : ∀ r, ∃ v, r < n_free nodes → (fill_reduced nodes K F).2.get r = Dbl.fin v := by
    intro r
    by_cases hr : r < n_free nodes
    · have hr2 := hr
      rw [n_free_eq] at hr2
      obtain ⟨d, h1, h2, h3⟩ := freeBelow_surj nodes _ r hr2
      exact ⟨Fv d, fun _ => by rw [← h3, (fill_reduced_get nodes K F).2 d h1 h2, hF d h1]⟩
    · exact ⟨0, fun h => absurd h hr⟩
  choose br hbr using h
  refine ⟨br, fun r hr => hbr r hr, ?_⟩
  intro a ha hfa
  have := hbr (freeBelow nodes a) (by rw [n_free_eq]; exact freeBelow_lt nodes ha hfa)
  rw [(fill_reduced_get nodes K F).2 a ha hfa, hF a ha] at this
  exact (Dbl.fin.inj this).symm

/-- On a model with a non-singular reduced system the displacements are finite: zero
at fixed DOFs and the solution of the reduced system at free DOFs. -/
theorem displacements_fin (nodes : List (Node α)) (K : Mat α) (F : Vec α)
    (Ar : Nat → Nat → α) (hM : MatIs (n_free nodes) (fill_reduced nodes K F).1 Ar)
    (hns : Nonsingular (n_free nodes) Ar) (Fv : Nat → α)
    (hF : VecIs (total_dofs nodes) F Fv) :
    ∃ (x br : Nat → α), Solves (n_free nodes) Ar br x ∧
      (∀ a, a < total_dofs nodes → (is_fixed nodes).get a = 0 →
        br (freeBelow nodes a) = Fv a) ∧
      VecIs (total_dofs nodes) (apply_boundary_conditions nodes K F)
        (fun i => if (is_fixed nodes).get i = 0 then x (freeBelow nodes i) else 0) := by
  obtain ⟨br, hbr1, hbr2⟩ := reduced_rhs_fin nodes K F Fv hF
  obtain ⟨x, hx1, hx2⟩ := solve_reduced_spec (n_free nodes) _ _ Ar br hM hbr1 hns
  refine ⟨x, br, hx2, hbr2, ?_⟩
  intro i hi
  show (expand nodes (D_reduced nodes K F)).get i =
    Dbl.fin (if (is_fixed nodes).get i = 0 then x (freeBelow nodes i) else 0)
  rw [(expand_spec nodes _).2 i]
  by_cases hf : (is_fixed nodes).get i = 0
  · rw [if_pos ⟨hi, hf⟩, if_pos hf, dof_map_toNat nodes hi hf]
    exact hx1 _ (by rw [n_free_eq]; exact freeBelow_lt nodes hi hf)
  · rw [if_neg (fun h => hf h.2), if_neg hf]
    rfl

/-! ## Non-singular means non-zero determinant -/

/-- The trivial-kernel reading of non-singular agrees with the determinant. -/
theorem nonsingular_iff_det (n : Nat) (A : Nat → Nat → α) :
    Nonsingular n A ↔ (Matrix.of (fun (i j : Fin n) => A i j)).det ≠ 0 := by
  have hmv : ∀ (x : Nat → α) (i : Fin n),
      Matrix.mulVec (Matrix.of (fun (i j : Fin n) => A i j)) (fun j : Fin n => x j) i =
        ∑ j in Finset.range n, A i j * x j := by
    intro x i
    rw [Finset.sum_range]
    rfl
  constructor
  · intro hns hdet
    obtain ⟨v, hv, hmul⟩ := Matrix.exists_mulVec_eq_zero_iff.mpr hdet
    apply hv
    have hx : Solves n A (fun _ => 0) (fun j => if h : j < n then v ⟨j, h⟩ else 0) := by
      intro i hi
      have := hmv (fun j => if h : j < n then v ⟨j, h⟩ else 0) ⟨i, hi⟩
      have e : (fun j : Fin n => (fun j : Nat => if h : j < n then v ⟨j, h⟩ else 0) j) = v := by
        funext j
        simp
      rw [e, hmul] at this
      exact this.symm
    funext j
    have := hns _ hx j j.2
    simpa using this
  · intro hdet x hx j hj
    by_contra hne
    apply hdet
    apply Matrix.exists_mulVec_eq_zero_iff.mp
    refine ⟨fun j : Fin n => x j, ?_, ?_⟩
    · intro h0
      exact hne (congrFun h0 ⟨j, hj⟩)
    · funext i
      rw [hmv x i]
      exact hx i i.2

/-! ## A zero pivot -/

theorem forLoop_split {σ : Type} {a b c : Nat} (hab : a ≤ b) (hbc : b ≤ c)
    (body : Nat → σ → σ) (s : σ) :
    forLoop a c body s = forLoop b c body (forLoop a b body s) := by
  induction c with
  | zero =>
    have h1 : b = 0 := by omega
    have h2 : a = 0 := by omega
    subst h1 h2
    rw [forLoop_of_le (le_refl 0), forLoop_of_le (le_refl 0)]
  | succ k ih =>
    by_cases hk : b ≤ k
    · rw [forLoop_succ (by omega), forLoop_succ hk, ih hk]
    · have : b = k + 1 := by omega
      subst this
      rw [forLoop_of_le (le_refl _)]

theorem div_fin_zero (x : Dbl α) : x / Dbl.fin (0 : α) = Dbl.undef := by
  cases x with
  | undef => rfl
  | fin a => exact Dbl.fin_div_zero a

/-- The pivot search stays at row `q` when the column below it holds no finite value. -/
theorem find_pivot_of_undef (K : Mat α) (n q : Nat)
    (h : ∀ i, q < i → i < n → K.get2 i q = Dbl.undef) : find_pivot K n q = q := by
  by_cases hq : q + 1 ≤ n
  · unfold find_pivot
    refine forLoop_inv (fun _ (r : Nat) => r = q) hq _ q rfl ?_
    intro i r hi1 hi2 hr
    rw [h i (by omega) hi2]
    exact hr
  · unfold find_pivot
    exact forLoop_of_le (by omega) _ _

/-- A pivot step with a zero pivot leaves no finite value below the pivot row, and the
zero on the diagonal. -/
theorem pivot_step_zero {n p : Nat} (t : Mat α × Vec α)
    (hz : (swap_rows t p (find_pivot t.1 n p)).1.get2 p p = Dbl.fin 0) :
    Poisoned n p (pivot_step n p t) ∧ (pivot_step n p t).1.get2 p p = Dbl.fin 0 := by
  unfold pivot_step
  obtain ⟨e1, e2⟩ := eliminate_spec n p (swap_rows t p (find_pivot t.1 n p))
  constructor
  · intro i hi1 hi2
    constructor
    · rw [e2 i, if_pos ⟨hi1, hi2⟩, hz, div_fin_zero, Dbl.undef_mul, Dbl.sub_undef]
    · intro j hj1 hj2
      rw [e1 i j, if_pos ⟨hi1, hi2, hj1, hj2⟩, hz, div_fin_zero, Dbl.undef_mul, Dbl.sub_undef]
  · rw [e1 p p, if_neg (by omega)]
    exact hz

/-- Later pivot steps keep the rows below `p` without finite values, and row `p`. -/
theorem pivot_step_poisoned {n p q : Nat} (hpq : p < q) (t : Mat α × Vec α)
    (hP : Poisoned n p t) :
    Poisoned n p (pivot_step n q t) ∧
      (pivot_step n q t).1.get2 p p = t.1.get2 p p := by
  have hfp : find_pivot t.1 n q = q :=
    find_pivot_of_undef t.1 n q (fun i h1 h2 => (hP i (by omega) h2).2 q (by omega) (by omega))
  have hsw : swap_rows t q q = t := by
    unfold swap_rows
    rw [if_neg (fun h => h rfl)]
  unfold pivot_step
  rw [hfp, hsw]
  obtain ⟨e1, e2⟩ := eliminate_spec n q t
  constructor
  · intro i hi1 hi2
    constructor
    · rw [e2 i]
      by_cases hc : q < i ∧ i < n
      · rw [if_pos hc, (hP i hi1 hi2).1, Dbl.undef_sub]
      · rw [if_neg hc]
        exact (hP i hi1 hi2).1
    · intro j hj1 hj2
      rw [e1 i j]
      by_cases hc : q < i ∧ i < n ∧ q ≤ j ∧ j < n
      · rw [if_pos hc, (hP i hi1 hi2).2 j hj1 hj2, Dbl.undef_sub]
      · rw [if_neg hc]
        exact (hP i hi1 hi2).2 j hj1 hj2
  · rw [e1 p p, if_neg (by omega)]

/-- Back substitution returns no finite value when the last cell of the right-hand side
is not finite or the last diagonal entry is zero. -/
theorem back_substitution_undef {n : Nat} (hn : 0 < n) (K : Mat α) (F : Vec α)
    (h : F.get (n - 1) = Dbl.undef ∨ K.get2 (n - 1) (n - 1) = Dbl.fin 0) :
    ∀ i, i < n → (back_substitution n K F).get i = Dbl.undef := by
  have key : ∀ i, 0 ≤ i → i < n → (back_substitution n K F).get i = Dbl.undef := by
    unfold back_substitution
    refine forDown_inv
      (fun k (D : Vec α) => ∀ i, k ≤ i → i < n → D.get i = Dbl.undef)
      n _ (Arr.calloc n 0) (fun i h1 h2 => absurd h2 (by omega)) ?_
    intro i D hi ih
    have hin : (forLoop (i + 1) n (fun j D3 => D3.set i (D3.get i - K.get2 i j * D3.get j))
          (D.set i (F.get i))).get i =
          (if i + 1 < n then Dbl.undef else F.get i) ∧
        ∀ k, k ≠ i →
          (forLoop (i + 1) n (fun j D3 => D3.set i (D3.get i - K.get2 i j * D3.get j))
            (D.set i (F.get i))).get k = D.get k := by
      refine forLoop_inv
        (fun j (D3 : Vec α) =>
          D3.get i = (if i + 1 < j then Dbl.undef else F.get i) ∧
          ∀ k, k ≠ i → D3.get k = D.get k)
        (by omega : i + 1 ≤ n) _ _ ?_ ?_
      · constructor
        · rw [if_neg (lt_irrefl _), Arr.get_set_self]
        · intro k hk
          exact Arr.get_set_ne _ _ hk
      · intro j t hj1 hj2 ih2
        obtain ⟨g1, g2⟩ := ih2
        constructor
        · rw [Arr.get_set_self, g2 j (by omega), ih j (by omega) hj2, Dbl.mul_undef,
            Dbl.sub_undef, if_pos (by omega)]
        · intro k hk
          rw [Arr.get_set_ne _ _ hk]
          exact g2 k hk
    obtain ⟨g1, g2⟩ := hin
    intro k hk1 hk2
    by_cases hki : k = i
    · subst hki
      rw [Arr.get_set_self, g1]
      by_cases hlast : k + 1 < n
      · rw [if_pos hlast, Dbl.undef_div]
      · rw [if_neg hlast]
        have e : k = n - 1 := by omega
        rcases h with h | h
        · rw [e, h, Dbl.undef_div]
        · rw [e, h, div_fin_zero]
    · rw [Arr.get_set_ne _ _ hki, g2 k hki]
      exact ih k (by omega) hk2
  exact fun i hi => key i (Nat.zero_le i) hi

/-- If the pivot chosen at some column is zero, the solver segment divides by it and
every cell of `D_reduced` ends without a finite value. -/
theorem solve_reduced_zero_pivot {n p : Nat} (hp : p < n) (K : Mat α) (F : Vec α)
    (hz : chosen_pivot n p (K, F) = Dbl.fin 0) :
    ∀ i, i < n → (solve_reduced n K F).get i = Dbl.undef := by
  unfold chosen_pivot at hz
  have hsplit : forward_elimination n (K, F) =
      forLoop (p + 1) n (pivot_step n)
        (pivot_step n p (forLoop 0 p (pivot_step n) (K, F))) := by
    unfold forward_elimination
    rw [forLoop_split (Nat.zero_le (p + 1)) (by omega : p + 1 ≤ n), forLoop_succ (Nat.zero_le p)]
  obtain ⟨h1, h2⟩ := pivot_step_zero (forLoop 0 p (pivot_step n) (K, F)) hz
  have hfin : Poisoned n p (forward_elimination n (K, F)) ∧
      (forward_elimination n (K, F)).1.get2 p p = Dbl.fin 0 := by
    rw [hsplit]
    refine forLoop_inv
      (fun _ (t : Mat α × Vec α) => Poisoned n p t ∧ t.1.get2 p p = Dbl.fin 0)
      (by omega : p + 1 ≤ n) _ _ ⟨h1, h2⟩ ?_
    intro q t hq1 _ ih
    obtain ⟨g1, g2⟩ := pivot_step_poisoned (by omega : p < q) t ih.1
    exact ⟨g1, by rw [g2]; exact ih.2⟩
  unfold solve_reduced
  apply back_substitution_undef (by omega : 0 < n)
  by_cases hlast : p = n - 1
  · right
    rw [← hlast]
    exact hfin.2
  · left
    exact (hfin.1 (n - 1) (by omega) (by omega)).1

theorem example_valid : ValidModel Rat.sqrt [node_fixed, node_roller] [bar] := by
  unfold ValidModel
  decide!

theorem example_displacements :
    VecIs (total_dofs [node_fixed, node_roller])
      (solve Rat.sqrt [node_fixed, node_roller] [bar]).1 exD := by
  intro i hi
  have hi6 : i < 6 := hi
  interval_cases i <;> decide!

theorem F_global_is (nodes : List (Node α)) :
    VecIs (total_dofs nodes) (F_global nodes)
      (fun d => (nodes.getD (d / 3) default).loads (d % 3)) := by
  intro d hd
  rw [F_global_get, if_pos (by unfold total_dofs at hd; exact hd)]

theorem one_by_one_nonsingular (c : α) (hc : c ≠ 0) : Nonsingular 1 (fun _ _ => c) := by
  intro x hx j hj
  have h0 := hx 0 (by decide)
  simp only [Finset.sum_range_one] at h0
  have : j = 0 := by omega
  rw [this]
  rcases mul_eq_zero.mp h0 with h | h
  · exact absurd h hc
  · exact h

theorem example_reduced (n2 : Node ℚ) (hn : n_free [node_fixed, n2] = 1)
    (h00 : (fill_reduced [node_fixed, n2] (K_global Rat.sqrt [node_fixed, n2] [bar])
      (F_global [node_fixed, n2])).1.get2 0 0 = Dbl.fin 2900) :
    ReducedNonsingular [node_fixed, n2] (K_global Rat.sqrt [node_fixed, n2] [bar])
      (F_global [node_fixed, n2]) := by
  refine ⟨fun _ _ => 2900, ?_, ?_⟩
  · intro i j hi hj
    rw [hn] at hi hj
    have e1 : i = 0 := by omega
    have e2 : j = 0 := by omega
    rw [e1, e2]
    exact h00
  · rw [hn]
    exact one_by_one_nonsingular 2900 (by norm_num)

/-! ## Claims -/

theorem exA_nonsingular : Nonsingular 2 exA := by
  intro x hx j hj
  have h0 := hx 0 (by decide)
  have h1 := hx 1 (by decide)
  simp only [Finset.sum_range_succ, Finset.sum_range_zero, exA] at h0 h1
  norm_num at h0 h1
  have e0 : x 0 = 0 := by linarith
  have e1 : x 1 = 0 := by linarith
  interval_cases j
  · exact e0
  · exact e1

/-- C1: for every dimension `n`, every non-singular `n × n` reduced matrix and every
right-hand side (finite values `A`, `b` held by `K_reduced`, `F_reduced` before
elimination), forward elimination with partial pivoting followed by back substitution
yields finite values `x` with `A x = b` in exact arithmetic.  Non-singular is the
trivial kernel, equivalently a non-zero determinant (`nonsingular_iff_det`). -/
theorem C1_solver_solves_nonsingular (n : Nat) (K : Mat α) (F : Vec α)
    (A : Nat → Nat → α) (b : Nat → α) (hK : MatIs n K A) (hF : VecIs n F b)
    (hns : Nonsingular n A) :
    ∃ x : Nat → α, VecIs n (solve_reduced n K F) x ∧ Solves n A b x :=
  solve_reduced_spec n K F A b hK hF hns

/-- Witness for C1 on the example `2 × 2` system. -/
theorem C1_witness :
    MatIs 2 exK exA ∧ VecIs 2 exF exb ∧ Nonsingular 2 exA ∧
      ∃ x : Nat → ℚ, VecIs 2 (solve_reduced 2 exK exF) x ∧ Solves 2 exA exb x :=
  ⟨fun _ _ _ _ => rfl, fun _ _ => rfl, exA_nonsingular,
    C1_solver_solves_nonsingular 2 exK exF exA exb (fun _ _ _ _ => rfl) (fun _ _ => rfl)
      exA_nonsingular⟩

/-- C9: in `apply_boundary_conditions`, DOF `3i+a` is flagged fixed iff
`nodes[i].constraints[a]` is non-zero; `n_free` is the number of unfixed DOFs; `dof_map`
is -1 on fixed DOFs and, on the free DOFs, a strictly increasing bijection onto
`0 .. n_free-1` (values in range, order preserving, every index reached); and before
elimination
`K_reduced[dof_map[i]][dof_map[j]] = K_global[i][j]` and
`F_reduced[dof_map[i]] = F_global[i]` for all free DOFs `i`, `j`. -/
theorem C9_boundary_reduction (nodes : List (Node α)) (K : Mat α) (F : Vec α) :
    (∀ i a, i < nodes.length → a < 3 →
      ((is_fixed nodes).get (3 * i + a) ≠ 0 ↔ (nodes.getD i default).constraints a ≠ 0)) ∧
    n_free nodes =
      ((Finset.range (total_dofs nodes)).filter (fun d => (is_fixed nodes).get d = 0)).card ∧
    (∀ d, d < total_dofs nodes → (is_fixed nodes).get d ≠ 0 → (dof_map nodes).get d = -1) ∧
    (∀ d, d < total_dofs nodes → (is_fixed nodes).get d = 0 →
      0 ≤ (dof_map nodes).get d ∧ (dof_map nodes).get d < (n_free nodes : Int)) ∧
    (∀ d e, d < e → e < total_dofs nodes →
      (is_fixed nodes).get d = 0 → (is_fixed nodes).get e = 0 →
      (dof_map nodes).get d < (dof_map nodes).get e) ∧
    (∀ r, r < n_free nodes → ∃ d, d < total_dofs nodes ∧ (is_fixed nodes).get d = 0 ∧
      (dof_map nodes).get d = (r : Int)) ∧
    (∀ i j, i < total_dofs nodes → j < total_dofs nodes →
      (is_fixed nodes).get i = 0 → (is_fixed nodes).get j = 0 →
      (fill_reduced nodes K F).1.get2 ((dof_map nodes).get i).toNat
        ((dof_map nodes).get j).toNat = K.get2 i j) ∧
    (∀ i, i < total_dofs nodes → (is_fixed nodes).get i = 0 →
      (fill_reduced nodes K F).2.get ((dof_map nodes).get i).toNat = F.get i) := by
  refine ⟨?_, n_free_eq nodes, ?_, ?_, ?_, ?_, ?_, ?_⟩
  · intro i a hi ha
    rw [is_fixed_get]
    have e1 : (3 * i + a) / 3 = i := by omega
    have e2 : (3 * i + a) % 3 = a := by omega
    rw [e1, e2]
    constructor
    · intro h
      by_contra hc
      rw [if_neg (fun h2 => h2.2 hc)] at h
      exact h rfl
    · intro h
      rw [if_pos ⟨by omega, h⟩]
      exact one_ne_zero
  · intro d hd hf
    rw [dof_map_get nodes hd, if_neg hf]
  · intro d hd hf
    rw [dof_map_get nodes hd, if_pos hf, n_free_eq]
    exact ⟨Int.natCast_nonneg _, Int.ofNat_lt.mpr (freeBelow_lt nodes hd hf)⟩
  · intro d e hde he hfd hfe
    rw [dof_map_get nodes (by omega), dof_map_get nodes he, if_pos hfd, if_pos hfe]
    exact Int.ofNat_lt.mpr (freeBelow_lt nodes hde hfd)
  · intro r hr
    rw [n_free_eq] at hr
    obtain ⟨d, h1, h2, h3⟩ := freeBelow_surj nodes _ r hr
    exact ⟨d, h1, h2, by rw [dof_map_get nodes h1, if_pos h2, h3]⟩
  · intro i j hi hj hfi hfj
    rw [dof_map_toNat nodes hi hfi, dof_map_toNat nodes hj hfj]
    exact (fill_reduced_get nodes K F).1 i j hi hj hfi hfj
  · intro i hi hfi
    rw [dof_map_toNat nodes hi hfi]
    exact (fill_reduced_get nodes K F).2 i hi hfi

/-- Witness for C9 on the example truss: DOF 3 (node 2, x) is the only free DOF, it is
mapped to reduced index 0 and the reduced entry is the global entry `(3, 3)`. -/
theorem C9_witness :
    (is_fixed [node_fixed, node_roller]).get 3 = 0 ∧
    (dof_map [node_fixed, node_roller]).get 3 = 0 ∧
    (fill_reduced [node_fixed, node_roller]
        (K_global Rat.sqrt [node_fixed, node_roller] [bar])
        (F_global [node_fixed, node_roller])).1.get2
        ((dof_map [node_fixed, node_roller]).get 3).toNat
        ((dof_map [node_fixed, node_roller]).get 3).toNat =
      (K_global Rat.sqrt [node_fixed, node_roller] [bar]).get2 3 3 :=
  ⟨by decide, by decide,
    (C9_boundary_reduction [node_fixed, node_roller]
      (K_global Rat.sqrt [node_fixed, node_roller] [bar])
      (F_global [node_fixed, node_roller])).2.2.2.2.2.2.1 3 3
      (by decide) (by decide) (by decide) (by decide)⟩

/-- C10: after `apply_boundary_conditions` the displacement vector has length
`total_dofs = 3 * n_nodes`, is exactly 0 at every fixed DOF and equals
`D_reduced[dof_map[i]]` at every free DOF `i`. -/
theorem C10_displacement_expansion (nodes : List (Node α)) (K : Mat α) (F : Vec α) :
    (apply_boundary_conditions nodes K F).size = total_dofs nodes ∧
    total_dofs nodes = 3 * nodes.length ∧
    (∀ i, i < total_dofs nodes → (is_fixed nodes).get i ≠ 0 →
      (apply_boundary_conditions nodes K F).get i = Dbl.fin 0) ∧
    (∀ i, i < total_dofs nodes → (is_fixed nodes).get i = 0 →
      (apply_boundary_conditions nodes K F).get i =
        (D_reduced nodes K F).get ((dof_map nodes).get i).toNat) := by
  obtain ⟨h1, h2⟩ := expand_spec nodes (D_reduced nodes K F)
  refine ⟨h1, rfl, ?_, ?_⟩
  · intro i _ hf
    show (expand nodes (D_reduced nodes K F)).get i = _
    rw [h2 i, if_neg (fun h => hf h.2)]
    rfl
  · intro i hi hf
    show (expand nodes (D_reduced nodes K F)).get i = _
    rw [h2 i, if_pos ⟨hi, hf⟩]

/-- Witness for C10 on the example truss: DOF 0 is fixed and DOF 3 is free. -/
theorem C10_witness :
    (is_fixed [node_fixed, node_roller]).get 0 ≠ 0 ∧
    (is_fixed [node_fixed, node_roller]).get 3 = 0 ∧
    (apply_boundary_conditions [node_fixed, node_roller]
        (K_global Rat.sqrt [node_fixed, node_roller] [bar])
        (F_global [node_fixed, node_roller])).get 0 = Dbl.fin 0 ∧
    (apply_boundary_conditions [node_fixed, node_roller]
        (K_global Rat.sqrt [node_fixed, node_roller] [bar])
        (F_global [node_fixed, node_roller])).get 3 =
      (D_reduced [node_fixed, node_roller]
        (K_global Rat.sqrt [node_fixed, node_roller] [bar])
        (F_global [node_fixed, node_roller])).get
        ((dof_map [node_fixed, node_roller]).get 3).toNat :=
  ⟨by decide, by decide,
    (C10_displacement_expansion [node_fixed, node_roller]
      (K_global Rat.sqrt [node_fixed, node_roller] [bar])
      (F_global [node_fixed, node_roller])).2.2.1 0 (by decide) (by decide),
    (C10_displacement_expansion [node_fixed, node_roller]
      (K_global Rat.sqrt [node_fixed, node_roller] [bar])
      (F_global [node_fixed, node_roller])).2.2.2 3 (by decide) (by decide)⟩

/-- C7: for every valid model (valid member node indices, every member of non-zero
length) the matrix built by `assemble_global_stiffness` is symmetric,
`K_global[p][q] = K_global[q][p]` for all DOF indices below `total_dofs`, both sides
being the same finite value. -/
theorem C7_stiffness_symmetric (sqrt : α → α) (nodes : List (Node α))
    (members : List (Member α)) (hv : ValidModel sqrt nodes members) (p q : Nat)
    (_hp : p < total_dofs nodes) (_hq : q < total_dofs nodes) :
    (assemble_global_stiffness sqrt nodes members).1.get2 p q =
        (assemble_global_stiffness sqrt nodes members).1.get2 q p ∧
      ∃ v : α, (assemble_global_stiffness sqrt nodes members).1.get2 p q = Dbl.fin v := by
  have hL : ∀ m ∈ members, member_length sqrt nodes m ≠ 0 := fun m hm => (hv m hm).2.2
  show (K_global sqrt nodes members).get2 p q = (K_global sqrt nodes members).get2 q p ∧
    ∃ v : α, (K_global sqrt nodes members).get2 p q = Dbl.fin v
  rw [K_global_fin sqrt nodes members hL p q, K_global_fin sqrt nodes members hL q p,
    K_exact_symm sqrt nodes members p q]
  exact ⟨rfl, _, rfl⟩

/-- Witness for C7 on the example truss. -/
theorem C7_witness :
    ValidModel Rat.sqrt [node_fixed, node_roller] [bar] ∧
    ((assemble_global_stiffness Rat.sqrt [node_fixed, node_roller] [bar]).1.get2 0 3 =
        (assemble_global_stiffness Rat.sqrt [node_fixed, node_roller] [bar]).1.get2 3 0 ∧
      ∃ v : ℚ, (assemble_global_stiffness Rat.sqrt [node_fixed, node_roller] [bar]).1.get2 0 3 =
        Dbl.fin v) :=
  ⟨example_valid,
    C7_stiffness_symmetric Rat.sqrt [node_fixed, node_roller] [bar] example_valid 0 3
      (by decide) (by decide)⟩

/-- C8: for every valid model, `assemble_global_stiffness` produces at `(P, Q)` the sum
over the members and over the local index pairs `(p, q)` in `0..5` with `dofs[p] = P` and
`dofs[q] = Q` of `(E A / L) * c[p] * c[q]` (`K_exact`), contributions of several members
being added; an entry that no member touches is 0. -/
theorem C8_stiffness_entries (sqrt : α → α) (nodes : List (Node α))
    (members : List (Member α)) (hv : ValidModel sqrt nodes members) (P Q : Nat) :
    (assemble_global_stiffness sqrt nodes members).1.get2 P Q =
        Dbl.fin (K_exact sqrt nodes members P Q) ∧
      ((∀ m ∈ members, ∀ p q, p < 6 → q < 6 →
          ¬ (dofs m.node1 m.node2 p = P ∧ dofs m.node1 m.node2 q = Q)) →
        (assemble_global_stiffness sqrt nodes members).1.get2 P Q = Dbl.fin 0) := by
  have hL : ∀ m ∈ members, member_length sqrt nodes m ≠ 0 := fun m hm => (hv m hm).2.2
  have h1 := K_global_fin sqrt nodes members hL P Q
  refine ⟨h1, ?_⟩
  intro hno
  show (K_global sqrt nodes members).get2 P Q = Dbl.fin 0
  rw [h1]
  congr 1
  unfold K_exact
  apply List.sum_eq_zero
  intro x hx
  obtain ⟨m, hm, rfl⟩ := List.mem_map.mp hx
  apply Finset.sum_eq_zero
  intro p hp
  apply Finset.sum_eq_zero
  intro q hq
  rw [if_neg (hno m hm p q (Finset.mem_range.mp hp) (Finset.mem_range.mp hq))]

/-- Witness for C8 on the example truss. -/
theorem C8_witness :
    ValidModel Rat.sqrt [node_fixed, node_roller] [bar] ∧
    ((assemble_global_stiffness Rat.sqrt [node_fixed, node_roller] [bar]).1.get2 3 0 =
        Dbl.fin (K_exact Rat.sqrt [node_fixed, node_roller] [bar] 3 0) ∧
      ((∀ m ∈ [bar], ∀ p q, p < 6 → q < 6 →
          ¬ (dofs m.node1 m.node2 p = 3 ∧ dofs m.node1 m.node2 q = 0)) →
        (assemble_global_stiffness Rat.sqrt [node_fixed, node_roller] [bar]).1.get2 3 0 =
          Dbl.fin 0)) :=
  ⟨example_valid,
    C8_stiffness_entries Rat.sqrt [node_fixed, node_roller] [bar] example_valid 3 0⟩

/-- C4: for every solved model (valid member indices, every member of non-zero length,
finite computed displacements) and each axis `a`, the reactions left by
`compute_reactions` are finite and the sum over all nodes of `reactions[3i+a]` plus the
sum over all nodes of `nodes[i].loads[a]` is 0 in exact arithmetic. -/
theorem C4_global_equilibrium (sqrt : α → α) (nodes : List (Node α))
    (members : List (Member α)) (hv : ValidModel sqrt nodes members) (Dv : Nat → α)
    (hD : VecIs (total_dofs nodes) (solve sqrt nodes members).1 Dv) :
    ∃ R : Nat → α, VecIs (total_dofs nodes) (solve sqrt nodes members).2.1 R ∧
      ∀ a, a < 3 →
        ∑ i in Finset.range nodes.length, R (3 * i + a) +
          ∑ i in Finset.range nodes.length, (nodes.getD i default).loads a = 0 := by
  have hL : ∀ m ∈ members, member_length sqrt nodes m ≠ 0 := fun m hm => (hv m hm).2.2
  refine ⟨_, reactions_fin sqrt nodes members hL _ Dv hD, ?_⟩
  intro a ha
  rw [← Finset.sum_add_distrib]
  have e : ∀ i ∈ Finset.range nodes.length,
      (∑ j in Finset.range (total_dofs nodes),
          K_exact sqrt nodes members (3 * i + a) j * Dv j) -
        (nodes.getD ((3 * i + a) / 3) default).loads ((3 * i + a) % 3) +
        (nodes.getD i default).loads a =
      ∑ j in Finset.range (total_dofs nodes),
          K_exact sqrt nodes members (3 * i + a) j * Dv j := by
    intro i _
    have e1 : (3 * i + a) / 3 = i := by omega
    have e2 : (3 * i + a) % 3 = a := by omega
    rw [e1, e2]
    ring
  rw [Finset.sum_congr rfl e, Finset.sum_comm]
  apply Finset.sum_eq_zero
  intro j _
  rw [← Finset.sum_mul, K_exact_colsum sqrt nodes members hv a ha j, zero_mul]

/-- Witness for C4 on the example truss (node 2 free along the member only). -/
theorem C4_witness :
    ValidModel Rat.sqrt [node_fixed, node_roller] [bar] ∧
    VecIs (total_dofs [node_fixed, node_roller])
      (solve Rat.sqrt [node_fixed, node_roller] [bar]).1 exD ∧
    ∃ R : Nat → ℚ,
      VecIs (total_dofs [node_fixed, node_roller])
        (solve Rat.sqrt [node_fixed, node_roller] [bar]).2.1 R ∧
      ∀ a, a < 3 →
        ∑ i in Finset.range [node_fixed, node_roller].length, R (3 * i + a) +
          ∑ i in Finset.range [node_fixed, node_roller].length,
            ([node_fixed, node_roller].getD i default).loads a = 0 :=
  ⟨example_valid, example_displacements,
    C4_global_equilibrium Rat.sqrt [node_fixed, node_roller] [bar] example_valid exD
      example_displacements⟩

/-- C5: for every model whose reduced system is non-singular, after
`apply_boundary_conditions` and `compute_reactions` the reaction `(K D - F)[i]` is
exactly 0 at every free DOF `i`. -/
theorem C5_free_reactions_vanish (sqrt : α → α) (nodes : List (Node α))
    (members : List (Member α))
    (hns : ReducedNonsingular nodes (K_global sqrt nodes members) (F_global nodes))
    (i : Nat) (hi : i < total_dofs nodes) (hf : (is_fixed nodes).get i = 0) :
    (solve sqrt nodes members).2.1.get i = Dbl.fin 0 := by
  obtain ⟨Ar, hM, hN⟩ := hns
  obtain ⟨x, br, hx, hbr, hD⟩ := displacements_fin nodes _ _ Ar hM hN _ (F_global_is nodes)
  have hfb : ∀ a, a < total_dofs nodes → (is_fixed nodes).get a = 0 →
      freeBelow nodes a < n_free nodes := by
    intro a ha hfa
    rw [n_free_eq]
    exact freeBelow_lt nodes ha hfa
  have hKf : ∀ j, j < total_dofs nodes → (is_fixed nodes).get j = 0 →
      (K_global sqrt nodes members).get2 i j =
        Dbl.fin (Ar (freeBelow nodes i) (freeBelow nodes j)) := by
    intro j hj hfj
    rw [← (fill_reduced_get nodes _ (F_global nodes)).1 i j hi hj hf hfj]
    exact hM _ _ (hfb i hi hf) (hfb j hj hfj)
  have hrow := K_global_row_fin sqrt nodes members i ⟨_, hKf i hi hf⟩
  choose Kv hKv using hrow
  show (compute_reactions nodes (K_global sqrt nodes members) (F_global nodes)
    (apply_boundary_conditions nodes (K_global sqrt nodes members) (F_global nodes))).get i = _
  rw [(compute_reactions_spec nodes _ _ _).2 i, if_pos hi, F_global_is nodes i hi]
  have e : ∑ j in Finset.range (total_dofs nodes),
      (K_global sqrt nodes members).get2 i j *
        (apply_boundary_conditions nodes (K_global sqrt nodes members) (F_global nodes)).get j =
      Dbl.fin (∑ j in Finset.range (total_dofs nodes),
        (if (is_fixed nodes).get j = 0 then
          (fun r => Ar (freeBelow nodes i) r * x r) (freeBelow nodes j) else 0)) := by
    rw [← sum_fin]
    apply Finset.sum_congr rfl
    intro j hj
    have hj2 := Finset.mem_range.mp hj
    rw [hD j hj2]
    beta_reduce
    by_cases hfj : (is_fixed nodes).get j = 0
    · rw [if_pos hfj, if_pos hfj, hKf j hj2 hfj, Dbl.fin_mul]
    · rw [if_neg hfj, if_neg hfj, hKv j, Dbl.fin_mul, mul_zero]
  rw [e, sum_free_reindex nodes (fun r => Ar (freeBelow nodes i) r * x r) (total_dofs nodes),
    ← n_free_eq, hx _ (hfb i hi hf), hbr i hi hf, Dbl.fin_sub, sub_self]

/-- Witness for C5 on the example truss. -/
theorem C5_witness :
    ReducedNonsingular [node_fixed, node_roller]
      (K_global Rat.sqrt [node_fixed, node_roller] [bar]) (F_global [node_fixed, node_roller]) ∧
    (solve Rat.sqrt [node_fixed, node_roller] [bar]).2.1.get 3 = Dbl.fin 0 :=
  ⟨example_reduced node_roller (by decide) (by decide!),
    C5_free_reactions_vanish Rat.sqrt [node_fixed, node_roller] [bar]
      (example_reduced node_roller (by decide) (by decide!)) 3 (by decide) (by decide)⟩

/-- C6: for every model in which every load component of every node is zero and whose
reduced system is non-singular, `apply_boundary_conditions` yields a displacement vector
(of `total_dofs` entries) whose every entry is 0. -/
theorem C6_zero_load_zero_displacement (sqrt : α → α) (nodes : List (Node α))
    (members : List (Member α))
    (hz : ∀ nd ∈ nodes, ∀ a, a < 3 → nd.loads a = 0)
    (hns : ReducedNonsingular nodes (K_global sqrt nodes members) (F_global nodes))
    (i : Nat) (hi : i < total_dofs nodes) :
    (apply_boundary_conditions nodes (assemble_global_stiffness sqrt nodes members).1
      (assemble_global_stiffness sqrt nodes members).2).get i = Dbl.fin 0 := by
  obtain ⟨Ar, hM, hN⟩ := hns
  obtain ⟨x, br, hx, hbr, hD⟩ := displacements_fin nodes _ _ Ar hM hN _ (F_global_is nodes)
  have hload : ∀ d, d < total_dofs nodes →
      (nodes.getD (d / 3) default).loads (d % 3) = 0 := by
    intro d hd
    have h3 : d / 3 < nodes.length := by
      unfold total_dofs at hd
      omega
    rw [List.getD_eq_getElem _ _ h3]
    exact hz _ (List.getElem_mem h3) _ (Nat.mod_lt _ (by decide))
  have hbr0 : ∀ r, r < n_free nodes → br r = 0 := by
    intro r hr
    rw [n_free_eq] at hr
    obtain ⟨d, h1, h2, h3⟩ := freeBelow_surj nodes _ r hr
    rw [← h3, hbr d h1 h2]
    exact hload d h1
  have hx0 : ∀ r, r < n_free nodes → x r = 0 := by
    apply hN x
    intro r hr
    rw [hx r hr]
    exact hbr0 r hr
  show (apply_boundary_conditions nodes (K_global sqrt nodes members) (F_global nodes)).get i = _
  rw [hD i hi]
  beta_reduce
  by_cases hf : (is_fixed nodes).get i = 0
  · rw [if_pos hf, hx0 _ (by rw [n_free_eq]; exact freeBelow_lt nodes hi hf)]
  · rw [if_neg hf]

/-- Witness for C6 on the unloaded example truss. -/
theorem C6_witness :
    (∀ nd ∈ [node_fixed, node_idle], ∀ a, a < 3 → nd.loads a = 0) ∧
    ReducedNonsingular [node_fixed, node_idle]
      (K_global Rat.sqrt [node_fixed, node_idle] [bar]) (F_global [node_fixed, node_idle]) ∧
    (apply_boundary_conditions [node_fixed, node_idle]
      (assemble_global_stiffness Rat.sqrt [node_fixed, node_idle] [bar]).1
      (assemble_global_stiffness Rat.sqrt [node_fixed, node_idle] [bar]).2).get 3 = Dbl.fin 0 :=
  ⟨by decide!, example_reduced node_idle (by decide) (by decide!),
    C6_zero_load_zero_displacement Rat.sqrt [node_fixed, node_idle] [bar] (by decide!)
      (example_reduced node_idle (by decide) (by decide!)) 3 (by decide)⟩

/-- C2, counterexample: for the single two-node member with no constraint flag and no
load, all six DOFs are free, the pivot chosen at column 1 is zero, and
`apply_boundary_conditions` still returns a displacement vector of six cells, none of
them finite: no failure is raised. -/
theorem C2_counterexample :
    n_free [node_float1, node_float2] = 6 ∧
    chosen_pivot 6 1 (fill_reduced [node_float1, node_float2]
      (K_global Rat.sqrt [node_float1, node_float2] [bar])
      (F_global [node_float1, node_float2])) = Dbl.fin 0 ∧
    (apply_boundary_conditions [node_float1, node_float2]
      (K_global Rat.sqrt [node_float1, node_float2] [bar])
      (F_global [node_float1, node_float2])).size = 6 ∧
    (apply_boundary_conditions [node_float1, node_float2]
      (K_global Rat.sqrt [node_float1, node_float2] [bar])
      (F_global [node_float1, node_float2])).toList =
      [Dbl.undef, Dbl.undef, Dbl.undef, Dbl.undef, Dbl.undef, Dbl.undef] := by
  decide!

/-- C2, amended: when the pivot chosen by partial pivoting at some column `p` is zero,
`apply_boundary_conditions` has no failure path: it divides by the pivot and returns a
displacement vector of `total_dofs` cells that is 0 at every fixed DOF and holds no
finite value (NaN or Inf) at every free DOF. -/
theorem C2_zero_pivot_returns_non_finite (nodes : List (Node α)) (K : Mat α) (F : Vec α)
    (p : Nat) (hp : p < n_free nodes)
    (hz : chosen_pivot (n_free nodes) p (fill_reduced nodes K F) = Dbl.fin 0) :
    (apply_boundary_conditions nodes K F).size = total_dofs nodes ∧
    ∀ i, i < total_dofs nodes →
      ((is_fixed nodes).get i ≠ 0 → (apply_boundary_conditions nodes K F).get i = Dbl.fin 0) ∧
      ((is_fixed nodes).get i = 0 → (apply_boundary_conditions nodes K F).get i = Dbl.undef) := by
  obtain ⟨h1, h2⟩ := expand_spec nodes (D_reduced nodes K F)
  refine ⟨h1, fun i hi => ⟨?_, ?_⟩⟩
  · intro hf
    show (expand nodes (D_reduced nodes K F)).get i = _
    rw [h2 i, if_neg (fun h => hf h.2)]
    rfl
  · intro hf
    show (expand nodes (D_reduced nodes K F)).get i = _
    rw [h2 i, if_pos ⟨hi, hf⟩, dof_map_toNat nodes hi hf]
    exact solve_reduced_zero_pivot hp _ _ hz _
      (by rw [n_free_eq]; exact freeBelow_lt nodes hi hf)

/-- Witness for the amended C2 on the truss whose loaded node is unrestrained. -/
theorem C2_witness :
    1 < n_free [node_fixed, node_loaded] ∧
    chosen_pivot (n_free [node_fixed, node_loaded]) 1
      (fill_reduced [node_fixed, node_loaded]
        (K_global Rat.sqrt [node_fixed, node_loaded] [bar])
        (F_global [node_fixed, node_loaded])) = Dbl.fin 0 ∧
    ((apply_boundary_conditions [node_fixed, node_loaded]
        (K_global Rat.sqrt [node_fixed, node_loaded] [bar])
        (F_global [node_fixed, node_loaded])).size = total_dofs [node_fixed, node_loaded] ∧
      ∀ i, i < total_dofs [node_fixed, node_loaded] →
        ((is_fixed [node_fixed, node_loaded]).get i ≠ 0 →
          (apply_boundary_conditions [node_fixed, node_loaded]
            (K_global Rat.sqrt [node_fixed, node_loaded] [bar])
            (F_global [node_fixed, node_loaded])).get i = Dbl.fin 0) ∧
        ((is_fixed [node_fixed, node_loaded]).get i = 0 →
          (apply_boundary_conditions [node_fixed, node_loaded]
            (K_global Rat.sqrt [node_fixed, node_loaded] [bar])
            (F_global [node_fixed, node_loaded])).get i = Dbl.undef)) :=
  ⟨by decide, by decide!,
    C2_zero_pivot_returns_non_finite [node_fixed, node_loaded]
      (K_global Rat.sqrt [node_fixed, node_loaded] [bar])
      (F_global [node_fixed, node_loaded]) 1 (by decide) (by decide!)⟩

/-- C3, counterexample: on the scenario as stated (node 2 with no constraint flag) the
reduced `3 × 3` system is singular; the pipeline yields no finite displacement at node
2's x-DOF, no finite member force with status "Compression", and no finite reaction at
node 1's x-DOF, so the stated values are not produced. -/
theorem C3_counterexample :
    (solve Rat.sqrt [node_fixed, node_loaded] [bar]).1.get 3 = Dbl.undef ∧
    (solve Rat.sqrt [node_fixed, node_loaded] [bar]).2.2.map (fun r => r.force) =
      [Dbl.undef] ∧
    (solve Rat.sqrt [node_fixed, node_loaded] [bar]).2.2.map (fun r => r.status) =
      ["Compression"] ∧
    (solve Rat.sqrt [node_fixed, node_loaded] [bar]).2.1.get 0 = Dbl.undef ∧
    ¬ ((solve Rat.sqrt [node_fixed, node_loaded] [bar]).1.get 3 =
          Dbl.fin (100 * 10 / (29000 * 1)) ∧
        (solve Rat.sqrt [node_fixed, node_loaded] [bar]).2.2.map (fun r => r.force) =
          [Dbl.fin 100] ∧
        (solve Rat.sqrt [node_fixed, node_loaded] [bar]).2.2.map (fun r => r.status) =
          ["Tension"] ∧
        (solve Rat.sqrt [node_fixed, node_loaded] [bar]).2.1.get 0 = Dbl.fin (-100)) := by
  decide!

/-- C3, amended: with node 2 restrained across the member (constraint flags `(0,1,1)`),
node 1 at `(0,0,0)` fully fixed, node 2 at `(10,0,0)` with loads `(100,0,0)` and one
member `E = 29000`, `A = 1`, the pipeline yields displacement `100*10/(29000*1)` at node
2's x-DOF, member force 100 with status "Tension", and reaction -100 at node 1's
x-DOF. -/
theorem C3_restrained_scenario :
    (solve Rat.sqrt [node_fixed, node_roller] [bar]).1.get 3 =
      Dbl.fin (100 * 10 / (29000 * 1)) ∧
    (solve Rat.sqrt [node_fixed, node_roller] [bar]).2.2.map (fun r => r.force) =
      [Dbl.fin 100] ∧
    (solve Rat.sqrt [node_fixed, node_roller] [bar]).2.2.map (fun r => r.status) =
      ["Tension"] ∧
    (solve Rat.sqrt [node_fixed, node_roller] [bar]).2.1.get 0 = Dbl.fin (-100) := by
  decide!

/-! ## Reactions and pivot search (second group of claims) -/

/-- Reactions of finite data: `K * D - F` in exact arithmetic. -/
theorem reactions_is (nodes : List (Node α)) (K : Mat α) (F D : Vec α)
    (A : Nat → Nat → α) (b d : Nat → α)
    (hK : MatIs (total_dofs nodes) K A) (hF : VecIs (total_dofs nodes) F b)
    (hD : VecIs (total_dofs nodes) D d) :
    VecIs (total_dofs nodes) (compute_reactions nodes K F D)
      (fun i => (∑ j in Finset.range (total_dofs nodes), A i j * d j) - b i) := by
  intro k hk
  rw [(compute_reactions_spec nodes K F D).2 k, if_pos hk, hF k hk]
  have e : ∑ j in Finset.range (total_dofs nodes), K.get2 k j * D.get j =
      Dbl.fin (∑ j in Finset.range (total_dofs nodes), A k j * d j) := by
    rw [← sum_fin]
    apply Finset.sum_congr rfl
    intro j hj
    rw [hK k j hk (Finset.mem_range.mp hj), hD j (Finset.mem_range.mp hj), Dbl.fin_mul]
  rw [e, Dbl.fin_sub]

/-- C11: for every `K_global`, `F_global` and displacement vector `D`,
`compute_reactions` leaves a vector of `total_dofs` cells with, for every DOF `i` (free
or fixed), `reactions[i] = (sum over j < total_dofs of K_global[i][j] * D[j]) -
F_global[i]`: as the doubles the code computes, and as the exact value when the data
are finite. -/
theorem C11_reactions_formula (nodes : List (Node α)) (K : Mat α) (F D : Vec α) :
    (compute_reactions nodes K F D).size = total_dofs nodes ∧
    (∀ i, i < total_dofs nodes →
      (compute_reactions nodes K F D).get i =
        (∑ j in Finset.range (total_dofs nodes), K.get2 i j * D.get j) - F.get i) ∧
    (∀ (A : Nat → Nat → α) (b d : Nat → α),
      MatIs (total_dofs nodes) K A → VecIs (total_dofs nodes) F b →
      VecIs (total_dofs nodes) D d →
      ∀ i, i < total_dofs nodes →
        (compute_reactions nodes K F D).get i =
          Dbl.fin ((∑ j in Finset.range (total_dofs nodes), A i j * d j) - b i)) := by
  obtain ⟨h1, h2⟩ := compute_reactions_spec nodes K F D
  refine ⟨h1, ?_, ?_⟩
  · intro i hi
    rw [h2 i, if_pos hi]
  · intro A b d hK hF hD i hi
    exact reactions_is nodes K F D A b d hK hF hD i hi

/-- Witness for C11: the reaction at DOF 2 of a two-node model on finite example data. -/
theorem C11_witness :
    (2 : Nat) < total_dofs [node_fixed, node_roller] ∧
    (compute_reactions [node_fixed, node_roller] exK6 exF6 exD6).get 2 =
      (∑ j in Finset.range (total_dofs [node_fixed, node_roller]),
        exK6.get2 2 j * exD6.get j) - exF6.get 2 :=
  ⟨by decide,
    (C11_reactions_formula [node_fixed, node_roller] exK6 exF6 exD6).2.1 2 (by decide)⟩

/-- The row exchange moves whole rows: row `a` afterwards is row `swapIdx p r a` before. -/
theorem swap_rows_rows (s : Mat α × Vec α) (p r : Nat) (a : Nat) :
    (swap_rows s p r).1.get a = s.1.get (swapIdx p r a) ∧
    (swap_rows s p r).2.get a = s.2.get (swapIdx p r a) := by
  unfold swap_rows swapIdx
  by_cases h : r = p
  · subst h
    rw [if_neg (fun hn => hn rfl)]
    by_cases h1 : a = r
    · simp [h1]
    · simp [h1]
  · rw [if_pos h]
    have hpr : ¬ p = r := fun e => h e.symm
    simp only [Arr.get_set]
    by_cases h1 : a = r
    · simp [h1]
    · by_cases h2 : a = p
      · simp [h2, hpr]
      · simp [h1, h2]

/-- C19: at a pivot column `p` whose entries in the rows `p .. n-1` are finite (values
`col` before the exchange), the row `r` chosen by the pivot search satisfies
`p ≤ r < n` and `|col r| ≥ |col i|` for every row `i` in `p .. n-1`, and is the smallest
such row; the exchange leaves the state untouched when `r = p`, and otherwise (and in
general) row `a` of `K_reduced` and cell `a` of `F_reduced` afterwards are row and cell
`swapIdx p r a` before: rows `p` and `r` trade places, every other row stays. -/
theorem C19_partial_pivoting (n p : Nat) (hp : p < n) (s : Mat α × Vec α) (col : Nat → α)
    (hK : ∀ i, p ≤ i → i < n → s.1.get2 i p = Dbl.fin (col i)) :
    p ≤ find_pivot s.1 n p ∧ find_pivot s.1 n p < n ∧
    (∀ i, p ≤ i → i < n → |col i| ≤ |col (find_pivot s.1 n p)|) ∧
    (∀ i, p ≤ i → i < find_pivot s.1 n p → |col i| < |col (find_pivot s.1 n p)|) ∧
    (find_pivot s.1 n p = p → swap_rows s p (find_pivot s.1 n p) = s) ∧
    (∀ a, (swap_rows s p (find_pivot s.1 n p)).1.get a =
        s.1.get (if a = find_pivot s.1 n p then p
          else if a = p then find_pivot s.1 n p else a)) ∧
    (∀ a, (swap_rows s p (find_pivot s.1 n p)).2.get a =
        s.2.get (if a = find_pivot s.1 n p then p
          else if a = p then find_pivot s.1 n p else a)) := by
  obtain ⟨h1, h2, h3, h4⟩ := find_pivot_spec s.1 col n p hp hK
  refine ⟨h1, h2, h3, h4, ?_, ?_, ?_⟩
  · intro h
    unfold swap_rows
    rw [if_neg (fun hn => hn h)]
  · intro a
    exact (swap_rows_rows s p _ a).1
  · intro a
    exact (swap_rows_rows s p _ a).2

/-- Witness for C19 on the example `2 × 2` system, whose first pivot is row 1. -/
theorem C19_witness :
    find_pivot (exK, exF).1 2 0 = 1 ∧
    (swap_rows (exK, exF) 0 (find_pivot (exK, exF).1 2 0)).2.get 0 = Dbl.fin 6 ∧
    (0 ≤ find_pivot (exK, exF).1 2 0 ∧ find_pivot (exK, exF).1 2 0 < 2 ∧
      (∀ i, 0 ≤ i → i < 2 →
        |(fun i => exA i 0) i| ≤ |(fun i => exA i 0) (find_pivot (exK, exF).1 2 0)|) ∧
      (∀ i, 0 ≤ i → i < find_pivot (exK, exF).1 2 0 →
        |(fun i => exA i 0) i| < |(fun i => exA i 0) (find_pivot (exK, exF).1 2 0)|) ∧
      (find_pivot (exK, exF).1 2 0 = 0 →
        swap_rows (exK, exF) 0 (find_pivot (exK, exF).1 2 0) = (exK, exF)) ∧
      (∀ a, (swap_rows (exK, exF) 0 (find_pivot (exK, exF).1 2 0)).1.get a =
        (exK, exF).1.get (if a = find_pivot (exK, exF).1 2 0 then 0
          else if a = 0 then find_pivot (exK, exF).1 2 0 else a)) ∧
      (∀ a, (swap_rows (exK, exF) 0 (find_pivot (exK, exF).1 2 0)).2.get a =
        (exK, exF).2.get (if a = find_pivot (exK, exF).1 2 0 then 0
          else if a = 0 then find_pivot (exK, exF).1 2 0 else a))) :=
  ⟨by decide!, by decide!,
    C19_partial_pivoting 2 0 (by decide) (exK, exF) (fun i => exA i 0) (fun _ _ _ => rfl)⟩

/-! ## Member forces, degenerate geometry, the fully fixed model, frame -/

theorem sq_dist_pos (nodes : List (Node α)) (m : Member α) (h : DistinctEnds nodes m) :
    0 < sq_dist nodes m := by
  unfold sq_dist
  dsimp only
  unfold DistinctEnds at h
  have hx := mul_self_nonneg ((nodes.getD m.node2 default).x - (nodes.getD m.node1 default).x)
  have hy := mul_self_nonneg ((nodes.getD m.node2 default).y - (nodes.getD m.node1 default).y)
  have hz := mul_self_nonneg ((nodes.getD m.node2 default).z - (nodes.getD m.node1 default).z)
  rcases h with h | h | h
  · have : 0 < ((nodes.getD m.node2 default).x - (nodes.getD m.node1 default).x) *
        ((nodes.getD m.node2 default).x - (nodes.getD m.node1 default).x) :=
      mul_self_pos.mpr (sub_ne_zero.mpr (Ne.symm h))
    linarith
  · have : 0 < ((nodes.getD m.node2 default).y - (nodes.getD m.node1 default).y) *
        ((nodes.getD m.node2 default).y - (nodes.getD m.node1 default).y) :=
      mul_self_pos.mpr (sub_ne_zero.mpr (Ne.symm h))
    linarith
  · have : 0 < ((nodes.getD m.node2 default).z - (nodes.getD m.node1 default).z) *
        ((nodes.getD m.node2 default).z - (nodes.getD m.node1 default).z) :=
      mul_self_pos.mpr (sub_ne_zero.mpr (Ne.symm h))
    linarith

theorem member_length_eq (sqrt : α → α) (nodes : List (Node α)) (m : Member α) :
    member_length sqrt nodes m = sqrt (sq_dist nodes m) := rfl

/-- With an exact square root, distinct end positions give a positive length. -/
theorem member_length_pos (sqrt : α → α) (nodes : List (Node α)) (m : Member α)
    (h : DistinctEnds nodes m) (hs : SqrtExactAt sqrt (sq_dist nodes m)) :
    0 < member_length sqrt nodes m := by
  rw [member_length_eq]
  rcases lt_or_eq_of_le hs.1 with h1 | h1
  · exact h1
  · have := sq_dist_pos nodes m h
    rw [← hs.2, ← h1, mul_zero] at this
    exact absurd this (lt_irrefl 0)

theorem direction_fin (sqrt : α → α) (nodes : List (Node α)) (m : Member α)
    (hL : member_length sqrt nodes m ≠ 0) {a : Nat} (ha : a < 3) :
    direction sqrt nodes m a = Dbl.fin (cos6 sqrt nodes m a) := by
  interval_cases a <;> simp [direction, arr3, cos6, Dbl.fin_div_of_ne _ hL]

/-- The force of a member of non-zero length under finite displacements. -/
theorem member_force_fin (sqrt : α → α) (nodes : List (Node α)) (m : Member α)
    (hL : member_length sqrt nodes m ≠ 0) (D : Vec α) (d : Nat → α)
    (hD : ∀ k, D.get k = Dbl.fin (d k)) :
    (member_result sqrt nodes D m).force = Dbl.fin (axial_force sqrt nodes m d) := by
  show (Dbl.fin (m.E * m.A) / Dbl.fin (member_length sqrt nodes m)) *
      (direction sqrt nodes m 0 * (D.get (3 * m.node2) - D.get (3 * m.node1)) +
       direction sqrt nodes m 1 * (D.get (3 * m.node2 + 1) - D.get (3 * m.node1 + 1)) +
       direction sqrt nodes m 2 * (D.get (3 * m.node2 + 2) - D.get (3 * m.node1 + 2))) = _
  rw [direction_fin sqrt nodes m hL (by decide : 0 < 3),
    direction_fin sqrt nodes m hL (by decide : 1 < 3),
    direction_fin sqrt nodes m hL (by decide : 2 < 3)]
  simp only [hD, Dbl.fin_sub, Dbl.fin_mul, Dbl.fin_add, Dbl.fin_div_of_ne _ hL]
  rfl

theorem member_status_eq (sqrt : α → α) (nodes : List (Node α)) (D : Vec α) (m : Member α) :
    (member_result sqrt nodes D m).status =
      if Dbl.gt (member_result sqrt nodes D m).force 0 then "Tension" else "Compression" :=
  rfl

/-- C12: `compute_member_forces` produces one record per member in member order, each
the record of the loop body; the status is always "Tension" or "Compression"; the stress
is `force / A`; and for a member whose end nodes are at distinct positions (square root
exact at its squared distance) and a finite displacement vector, the recorded length is
the positive root of the squared distance, the force is
`(E A / L) (cx (D[3j]-D[3i]) + cy (D[3j+1]-D[3i+1]) + cz (D[3j+2]-D[3i+2]))`, and the status
is "Tension" exactly when the force is positive and "Compression" otherwise (force 0
included). -/
theorem C12_member_force_records (sqrt : α → α) (nodes : List (Node α))
    (members : List (Member α)) (D : Vec α) :
    compute_member_forces sqrt nodes members D =
        members.map (member_result sqrt nodes D) ∧
    (∀ m : Member α, (member_result sqrt nodes D m).status = "Tension" ∨
        (member_result sqrt nodes D m).status = "Compression") ∧
    (∀ m : Member α, (member_result sqrt nodes D m).stress =
        (member_result sqrt nodes D m).force / Dbl.fin m.A) ∧
    (∀ (m : Member α) (d : Nat → α), DistinctEnds nodes m →
      SqrtExactAt sqrt (sq_dist nodes m) → (∀ k, D.get k = Dbl.fin (d k)) →
      0 < member_length sqrt nodes m ∧
      member_length sqrt nodes m * member_length sqrt nodes m = sq_dist nodes m ∧
      (member_result sqrt nodes D m).length = Dbl.fin (member_length sqrt nodes m) ∧
      (member_result sqrt nodes D m).force = Dbl.fin (axial_force sqrt nodes m d) ∧
      ((member_result sqrt nodes D m).status = "Tension" ↔ 0 < axial_force sqrt nodes m d) ∧
      ((member_result sqrt nodes D m).status = "Compression" ↔
        axial_force sqrt nodes m d ≤ 0)) := by
  refine ⟨?_, ?_, fun m => rfl, ?_⟩
  · unfold compute_member_forces
    split_ifs with h
    · rw [List.length_eq_zero.mp h]
      rfl
    · rfl
  · intro m
    rw [member_status_eq]
    split_ifs
    · exact Or.inl rfl
    · exact Or.inr rfl
  · intro m d hde hs hD
    have hpos := member_length_pos sqrt nodes m hde hs
    have hf := member_force_fin sqrt nodes m (ne_of_gt hpos) D d hD
    refine ⟨hpos, hs.2, rfl, hf, ?_, ?_⟩
    · rw [member_status_eq, hf]
      show (if decide (0 < axial_force sqrt nodes m d) = true then "Tension"
        else "Compression") = "Tension" ↔ _
      by_cases hc : 0 < axial_force sqrt nodes m d
      · simp [hc]
      · simp [hc]
    · rw [member_status_eq, hf]
      show (if decide (0 < axial_force sqrt nodes m d) = true then "Tension"
        else "Compression") = "Compression" ↔ _
      by_cases hc : 0 < axial_force sqrt nodes m d
      · simp [hc]
      · simp [hc, not_lt.mp hc]

theorem example_distinct : DistinctEnds [node_fixed, node_roller] bar := by
  unfold DistinctEnds
  decide!

theorem example_sqrt_exact : SqrtExactAt Rat.sqrt (sq_dist [node_fixed, node_roller] bar) := by
  unfold SqrtExactAt
  decide!

/-- Witness for C12 on the example truss and its displacements. -/
theorem C12_witness :
    DistinctEnds [node_fixed, node_roller] bar ∧
    SqrtExactAt Rat.sqrt (sq_dist [node_fixed, node_roller] bar) ∧
    (∀ k, exDv.get k = Dbl.fin (exD k)) ∧
    (0 < member_length Rat.sqrt [node_fixed, node_roller] bar ∧
      member_length Rat.sqrt [node_fixed, node_roller] bar *
        member_length Rat.sqrt [node_fixed, node_roller] bar =
        sq_dist [node_fixed, node_roller] bar ∧
      (member_result Rat.sqrt [node_fixed, node_roller] exDv bar).length =
        Dbl.fin (member_length Rat.sqrt [node_fixed, node_roller] bar) ∧
      (member_result Rat.sqrt [node_fixed, node_roller] exDv bar).force =
        Dbl.fin (axial_force Rat.sqrt [node_fixed, node_roller] bar exD) ∧
      ((member_result Rat.sqrt [node_fixed, node_roller] exDv bar).status = "Tension" ↔
        0 < axial_force Rat.sqrt [node_fixed, node_roller] bar exD) ∧
      ((member_result Rat.sqrt [node_fixed, node_roller] exDv bar).status = "Compression" ↔
        axial_force Rat.sqrt [node_fixed, node_roller] bar exD ≤ 0)) :=
  ⟨example_distinct, example_sqrt_exact, fun _ => rfl,
    (C12_member_force_records Rat.sqrt [node_fixed, node_roller] [bar] exDv).2.2.2 bar exD
      example_distinct example_sqrt_exact (fun _ => rfl)⟩

theorem dbl_cases (x : Dbl α) : x = Dbl.undef ∨ ∃ v, x = Dbl.fin v := by
  cases x with
  | undef => exact Or.inl rfl
  | fin a => exact Or.inr ⟨a, rfl⟩

theorem list_sum_undef {ι : Type} (l : List ι) (f : ι → Dbl α) {m : ι} (hm : m ∈ l)
    (h : f m = Dbl.undef) : (l.map f).sum = Dbl.undef := by
  rcases dbl_cases (l.map f).sum with h1 | ⟨v, h1⟩
  · exact h1
  · obtain ⟨w, hw⟩ := (list_sum_fin_iff l f).mp ⟨v, h1⟩ m hm
    rw [h] at hw
    exact absurd hw (by simp)

theorem finset_sum_undef {ι : Type} (s : Finset ι) (f : ι → Dbl α) {i : ι} (hi : i ∈ s)
    (h : f i = Dbl.undef) : ∑ j in s, f j = Dbl.undef := by
  rcases dbl_cases (∑ j in s, f j) with h1 | ⟨v, h1⟩
  · exact h1
  · obtain ⟨w, hw⟩ := (finset_sum_fin_iff s f).mp ⟨v, h1⟩ i hi
    rw [h] at hw
    exact absurd hw (by simp)

/-- A member of zero length leaves no finite value in the entries of `K_global` at its
own DOFs. -/
theorem K_global_undef (sqrt : α → α) (nodes : List (Node α)) (members : List (Member α))
    (m : Member α) (hm : m ∈ members) (hL : member_length sqrt nodes m = 0)
    {p q : Nat} (hp : p < 6) (hq : q < 6) :
    (K_global sqrt nodes members).get2 (dofs m.node1 m.node2 p) (dofs m.node1 m.node2 q) =
      Dbl.undef := by
  rw [K_global_get2]
  apply list_sum_undef members _ hm
  unfold elem_term
  apply finset_sum_undef _ _ (Finset.mem_range.mpr hp)
  apply finset_sum_undef _ _ (Finset.mem_range.mpr hq)
  rw [if_pos ⟨rfl, rfl⟩]
  exact ke_undef sqrt nodes m hL p q

theorem coincident_length (sqrt : α → α) (nodes : List (Node α)) (m : Member α)
    (hc : CoincidentEnds nodes m) (h0 : sqrt 0 = 0) : member_length sqrt nodes m = 0 := by
  unfold member_length
  obtain ⟨hx, hy, hz⟩ := hc
  simp only [hx, hy, hz, sub_self, mul_zero, add_zero]
  exact h0

/-- The record of a member of zero length. -/
theorem member_result_zero_length (sqrt : α → α) (nodes : List (Node α)) (D : Vec α)
    (m : Member α) (hL : member_length sqrt nodes m = 0) :
    (member_result sqrt nodes D m).length = Dbl.fin 0 ∧
    (member_result sqrt nodes D m).force = Dbl.undef ∧
    (member_result sqrt nodes D m).stress = Dbl.undef ∧
    (member_result sqrt nodes D m).status = "Compression" := by
  have hf : (member_result sqrt nodes D m).force = Dbl.undef := by
    show (Dbl.fin (m.E * m.A) / Dbl.fin (member_length sqrt nodes m)) * _ = _
    rw [hL, Dbl.fin_div_zero, Dbl.undef_mul]
  refine ⟨?_, hf, ?_, ?_⟩
  · show Dbl.fin (member_length sqrt nodes m) = _
    rw [hL]
  · show (member_result sqrt nodes D m).force / Dbl.fin m.A = _
    rw [hf, Dbl.undef_div]
  · rw [member_status_eq, hf]
    rfl

/-- C14, counterexample: for two coincident nodes joined by a member the length is 0,
nothing is detected, `assemble_global_stiffness` returns a matrix whose entry `(0,0)`
is not finite and `compute_member_forces` returns a record with non-finite force and
status "Compression". -/
theorem C14_counterexample :
    CoincidentEnds [node_fixed, node_twin] bar ∧
    member_length Rat.sqrt [node_fixed, node_twin] bar = 0 ∧
    (assemble_global_stiffness Rat.sqrt [node_fixed, node_twin] [bar]).1.get2 0 0 =
      Dbl.undef ∧
    (solve Rat.sqrt [node_fixed, node_twin] [bar]).2.2.map (fun r => r.force) =
      [Dbl.undef] ∧
    (solve Rat.sqrt [node_fixed, node_twin] [bar]).2.2.map (fun r => r.status) =
      ["Compression"] := by
  unfold CoincidentEnds
  decide!

/-- C14, amended: for every model containing a member whose end nodes have identical
coordinates (`sqrt 0 = 0`), nothing detects the zero length: `L = 0` is used as a
divisor, `assemble_global_stiffness` returns a matrix without a finite value at the 36
entries of the member's DOFs, and `compute_member_forces` returns one record per member,
the record of that member with length 0, non-finite force and stress, and status
"Compression". -/
theorem C14_zero_length_not_detected (sqrt : α → α) (nodes : List (Node α))
    (members : List (Member α)) (D : Vec α) (m : Member α) (hm : m ∈ members)
    (hc : CoincidentEnds nodes m) (h0 : sqrt 0 = 0) :
    member_length sqrt nodes m = 0 ∧
    (∀ p q, p < 6 → q < 6 →
      (assemble_global_stiffness sqrt nodes members).1.get2
        (dofs m.node1 m.node2 p) (dofs m.node1 m.node2 q) = Dbl.undef) ∧
    compute_member_forces sqrt nodes members D =
      members.map (member_result sqrt nodes D) ∧
    (member_result sqrt nodes D m).length = Dbl.fin 0 ∧
    (member_result sqrt nodes D m).force = Dbl.undef ∧
    (member_result sqrt nodes D m).stress = Dbl.undef ∧
    (member_result sqrt nodes D m).status = "Compression" := by
  have hL := coincident_length sqrt nodes m hc h0
  obtain ⟨h1, h2, h3, h4⟩ := member_result_zero_length sqrt nodes D m hL
  refine ⟨hL, ?_, ?_, h1, h2, h3, h4⟩
  · intro p q hp hq
    exact K_global_undef sqrt nodes members m hm hL hp hq
  · unfold compute_member_forces
    split_ifs with h
    · rw [List.length_eq_zero.mp h]
      rfl
    · rfl

/-- Witness for the amended C14 on two coincident nodes. -/
theorem C14_witness :
    bar ∈ [bar] ∧ CoincidentEnds [node_fixed, node_twin] bar ∧ Rat.sqrt 0 = 0 ∧
    (member_length Rat.sqrt [node_fixed, node_twin] bar = 0 ∧
      (∀ p q, p < 6 → q < 6 →
        (assemble_global_stiffness Rat.sqrt [node_fixed, node_twin] [bar]).1.get2
          (dofs bar.node1 bar.node2 p) (dofs bar.node1 bar.node2 q) = Dbl.undef) ∧
      compute_member_forces Rat.sqrt [node_fixed, node_twin] [bar] exDv =
        [bar].map (member_result Rat.sqrt [node_fixed, node_twin] exDv) ∧
      (member_result Rat.sqrt [node_fixed, node_twin] exDv bar).length = Dbl.fin 0 ∧
      (member_result Rat.sqrt [node_fixed, node_twin] exDv bar).force = Dbl.undef ∧
      (member_result Rat.sqrt [node_fixed, node_twin] exDv bar).stress = Dbl.undef ∧
      (member_result Rat.sqrt [node_fixed, node_twin] exDv bar).status = "Compression") :=
  ⟨List.mem_singleton.mpr rfl, by unfold CoincidentEnds; decide!, by decide!,
    C14_zero_length_not_detected Rat.sqrt [node_fixed, node_twin] [bar] exDv bar
      (List.mem_singleton.mpr rfl) (by unfold CoincidentEnds; decide!) (by decide!)⟩

/-- With `n_free = 0` every DOF below `total_dofs` is flagged fixed. -/
theorem all_fixed_of_n_free_zero (nodes : List (Node α)) (h0 : n_free nodes = 0)
    (i : Nat) (hi : i < total_dofs nodes) : (is_fixed nodes).get i ≠ 0 := by
  intro hf
  have := freeBelow_lt nodes hi hf
  rw [← n_free_eq, h0] at this
  exact absurd this (Nat.not_lt_zero _)

/-- With `n_free = 0` the displacement vector is all zeros. -/
theorem displacements_all_fixed (nodes : List (Node α)) (K : Mat α) (F : Vec α)
    (h0 : n_free nodes = 0) :
    VecIs (total_dofs nodes) (apply_boundary_conditions nodes K F) (fun _ => 0) := by
  intro i hi
  show (expand nodes (D_reduced nodes K F)).get i = _
  rw [(expand_spec nodes _).2 i,
    if_neg (fun h => all_fixed_of_n_free_zero nodes h0 i hi h.2)]
  rfl

/-- C15, counterexample: two coincident, fully fixed nodes joined by a member have
`n_free = 0` and an all-zero displacement vector, yet the reaction at DOF 0 is not
finite, so it is not `-F_global[0]`. -/
theorem C15_counterexample :
    n_free [node_fixed, node_twin] = 0 ∧
    (solve Rat.sqrt [node_fixed, node_twin] [bar]).1.toList =
      [Dbl.fin 0, Dbl.fin 0, Dbl.fin 0, Dbl.fin 0, Dbl.fin 0, Dbl.fin 0] ∧
    (solve Rat.sqrt [node_fixed, node_twin] [bar]).2.1.get 0 = Dbl.undef ∧
    (solve Rat.sqrt [node_fixed, node_twin] [bar]).2.1.get 0 ≠
      -(F_global [node_fixed, node_twin]).get 0 := by
  decide!

/-- C15, amended: for every model in which every DOF is fixed (`n_free = 0`), the empty
model included, `apply_boundary_conditions` runs no elimination step and no
back-substitution step (the loops over `0 .. n_free-1` have no iteration, so nothing is
divided) and yields an all-zero displacement vector of length `total_dofs`; and when
every member has non-zero length, `compute_reactions` gives
`reactions[i] = -F_global[i]` for every DOF `i`. -/
theorem C15_fully_fixed_model (sqrt : α → α) (nodes : List (Node α))
    (members : List (Member α)) (h0 : n_free nodes = 0) :
    (∀ i, i < total_dofs nodes → (is_fixed nodes).get i ≠ 0) ∧
    (∀ s : Mat α × Vec α, forward_elimination (n_free nodes) s = s) ∧
    (∀ (K : Mat α) (F : Vec α),
      back_substitution (n_free nodes) K F = Arr.calloc 0 0) ∧
    (apply_boundary_conditions nodes (K_global sqrt nodes members) (F_global nodes)).size =
      total_dofs nodes ∧
    (∀ i, i < total_dofs nodes →
      (apply_boundary_conditions nodes (K_global sqrt nodes members)
        (F_global nodes)).get i = Dbl.fin 0) ∧
    ((∀ m ∈ members, member_length sqrt nodes m ≠ 0) →
      ∀ i, i < total_dofs nodes →
        (solve sqrt nodes members).2.1.get i = -(F_global nodes).get i) := by
  refine ⟨all_fixed_of_n_free_zero nodes h0, ?_, ?_, (expand_spec nodes _).1,
    displacements_all_fixed nodes _ _ h0, ?_⟩
  · intro s
    rw [h0]
    exact forLoop_of_le (le_refl 0) _ _
  · intro K F
    rw [h0]
    rfl
  · intro hL i hi
    have h := reactions_is nodes (K_global sqrt nodes members) (F_global nodes)
      (apply_boundary_conditions nodes (K_global sqrt nodes members) (F_global nodes))
      (K_exact sqrt nodes members) _ (fun _ => 0)
      (fun a b _ _ => K_global_fin sqrt nodes members hL a b) (F_global_is nodes)
      (displacements_all_fixed nodes _ _ h0) i hi
    show (compute_reactions nodes (K_global sqrt nodes members) (F_global nodes)
      (apply_boundary_conditions nodes (K_global sqrt nodes members)
        (F_global nodes))).get i = _
    rw [h, F_global_is nodes i hi, Dbl.neg_fin]
    congr 1
    simp

/-- Witness for the amended C15 on the fully fixed two-node truss
`[node_fixed, node_clamped]`, `[bar]`, whose node 2 carries the load `(100,0,0)`: six
DOFs, all fixed, a member of length 10. -/
theorem C15_witness :
    n_free [node_fixed, node_clamped] = 0 ∧
    (∀ m ∈ [bar], member_length Rat.sqrt [node_fixed, node_clamped] m ≠ 0) ∧
    (∀ i, i < total_dofs [node_fixed, node_clamped] →
      (is_fixed [node_fixed, node_clamped]).get i ≠ 0) ∧
    (apply_boundary_conditions [node_fixed, node_clamped]
      (K_global Rat.sqrt [node_fixed, node_clamped] [bar])
      (F_global [node_fixed, node_clamped])).size = total_dofs [node_fixed, node_clamped] ∧
    (∀ i, i < total_dofs [node_fixed, node_clamped] →
      (apply_boundary_conditions [node_fixed, node_clamped]
        (K_global Rat.sqrt [node_fixed, node_clamped] [bar])
        (F_global [node_fixed, node_clamped])).get i = Dbl.fin 0) ∧
    (∀ i, i < total_dofs [node_fixed, node_clamped] →
      (solve Rat.sqrt [node_fixed, node_clamped] [bar]).2.1.get i =
        -(F_global [node_fixed, node_clamped]).get i) :=
  (fun hL h => ⟨by decide!, hL, h.1, h.2.2.2.1, h.2.2.2.2.1, h.2.2.2.2.2 hL⟩)
    (fun m hm => by
      rw [List.mem_singleton.mp hm]
      decide!)
    (C15_fully_fixed_model Rat.sqrt [node_fixed, node_clamped] [bar] (by decide!))

/-! ## Stiffness times displacement, member by member -/

/-- On a model with members of non-zero length and a non-singular reduced system, the
displacements are finite, zero at fixed DOFs, and every free row of `K D` equals the
load. -/
theorem free_row_balance (sqrt : α → α) (nodes : List (Node α)) (members : List (Member α))
    (hL : ∀ m ∈ members, member_length sqrt nodes m ≠ 0)
    (hns : ReducedNonsingular nodes (K_global sqrt nodes members) (F_global nodes)) :
    ∃ Dv : Nat → α,
      VecIs (total_dofs nodes)
        (apply_boundary_conditions nodes (K_global sqrt nodes members) (F_global nodes)) Dv ∧
      (∀ i, i < total_dofs nodes → (is_fixed nodes).get i ≠ 0 → Dv i = 0) ∧
      (∀ i, i < total_dofs nodes → (is_fixed nodes).get i = 0 →
        ∑ j in Finset.range (total_dofs nodes), K_exact sqrt nodes members i j * Dv j =
          (nodes.getD (i / 3) default).loads (i % 3)) := by
  obtain ⟨Ar, hM, hN⟩ := hns
  obtain ⟨x, br, hx, hbr, hD⟩ := displacements_fin nodes _ _ Ar hM hN _ (F_global_is nodes)
  have hfb : ∀ a, a < total_dofs nodes → (is_fixed nodes).get a = 0 →
      freeBelow nodes a < n_free nodes := by
    intro a ha hfa
    rw [n_free_eq]
    exact freeBelow_lt nodes ha hfa
  refine ⟨_, hD, ?_, ?_⟩
  · intro i _ hf
    rw [if_neg hf]
  · intro i hi hf
    have hKf : ∀ j, j < total_dofs nodes → (is_fixed nodes).get j = 0 →
        K_exact sqrt nodes members i j = Ar (freeBelow nodes i) (freeBelow nodes j) := by
      intro j hj hfj
      have h1 := (fill_reduced_get nodes (K_global sqrt nodes members)
        (F_global nodes)).1 i j hi hj hf hfj
      rw [hM _ _ (hfb i hi hf) (hfb j hj hfj), K_global_fin sqrt nodes members hL] at h1
      exact (Dbl.fin.inj h1).symm
    have e : ∑ j in Finset.range (total_dofs nodes), K_exact sqrt nodes members i j *
          (if (is_fixed nodes).get j = 0 then x (freeBelow nodes j) else 0) =
        ∑ j in Finset.range (total_dofs nodes),
          (if (is_fixed nodes).get j = 0 then
            (fun r => Ar (freeBelow nodes i) r * x r) (freeBelow nodes j) else 0) := by
      apply Finset.sum_congr rfl
      intro j hj
      by_cases hfj : (is_fixed nodes).get j = 0
      · rw [if_pos hfj, if_pos hfj, hKf j (Finset.mem_range.mp hj) hfj]
      · rw [if_neg hfj, if_neg hfj, mul_zero]
    rw [e, sum_free_reindex nodes (fun r => Ar (freeBelow nodes i) r * x r) (total_dofs nodes),
      ← n_free_eq, hx _ (hfb i hi hf), hbr i hi hf]

/-- One element matrix times a displacement vector: row `P` collects, for each local
index `p` landing on `P`, `k c[p]` times the projection `sum over q of c[q] d[dofs[q]]`. -/
theorem member_KD (n1 n2 T : Nat) (h1 : 3 * n1 + 2 < T) (h2 : 3 * n2 + 2 < T) (k : α)
    (c d : Nat → α) (P : Nat) :
    ∑ Q in Finset.range T,
      (∑ p in Finset.range 6, ∑ q in Finset.range 6,
        if dofs n1 n2 p = P ∧ dofs n1 n2 q = Q then k * c p * c q else 0) * d Q =
    ∑ p in Finset.range 6,
      if dofs n1 n2 p = P then
        k * c p * ∑ q in Finset.range 6, c q * d (dofs n1 n2 q)
      else 0 := by
  have hlt : ∀ q, q < 6 → dofs n1 n2 q < T := by
    intro q hq
    interval_cases q <;> simp [dofs] <;> omega
  have e1 : ∀ Q ∈ Finset.range T,
      (∑ p in Finset.range 6, ∑ q in Finset.range 6,
        if dofs n1 n2 p = P ∧ dofs n1 n2 q = Q then k * c p * c q else 0) * d Q =
      ∑ p in Finset.range 6, ∑ q in Finset.range 6,
        (if dofs n1 n2 p = P ∧ dofs n1 n2 q = Q then k * c p * c q * d Q else 0) := by
    intro Q _
    rw [Finset.sum_mul]
    apply Finset.sum_congr rfl
    intro p _
    rw [Finset.sum_mul]
    apply Finset.sum_congr rfl
    intro q _
    split_ifs
    · rfl
    · exact zero_mul _
  rw [Finset.sum_congr rfl e1, Finset.sum_comm]
  apply Finset.sum_congr rfl
  intro p _
  rw [Finset.sum_comm]
  by_cases hp : dofs n1 n2 p = P
  · rw [if_pos hp, Finset.mul_sum]
    apply Finset.sum_congr rfl
    intro q hq
    rw [Finset.sum_eq_single (dofs n1 n2 q)]
    · rw [if_pos ⟨hp, rfl⟩]
      ring
    · intro Q _ hQ
      rw [if_neg (fun h => hQ h.2.symm)]
    · intro h
      exact absurd (Finset.mem_range.mpr (hlt q (Finset.mem_range.mp hq))) h
  · rw [if_neg hp]
    apply Finset.sum_eq_zero
    intro q _
    apply Finset.sum_eq_zero
    intro Q _
    rw [if_neg (fun h => hp h.1)]

/-- The projection of the displacements on the signed cosines is minus the elongation,
so the stiffness times it is minus the axial force. -/
theorem projection_eq_force (sqrt : α → α) (nodes : List (Node α)) (m : Member α)
    (d : Nat → α) :
    m.E * m.A / member_length sqrt nodes m *
      ∑ q in Finset.range 6, cos6 sqrt nodes m q * d (dofs m.node1 m.node2 q) =
    -axial_force sqrt nodes m d := by
  unfold axial_force
  simp only [Finset.sum_range_succ, Finset.sum_range_zero, dofs, cos6, List.getD_cons_zero,
    List.getD_cons_succ]
  ring

/-- Row `P` of `K D`, member by member: each member adds `-(c[p] * force)` for each of
its local indices `p` that lands on `P`. -/
theorem K_exact_mul (sqrt : α → α) (nodes : List (Node α)) (members : List (Member α))
    (hv : ∀ m ∈ members, m.node1 < nodes.length ∧ m.node2 < nodes.length)
    (d : Nat → α) (P : Nat) :
    ∑ Q in Finset.range (total_dofs nodes), K_exact sqrt nodes members P Q * d Q =
      (members.map (fun m => ∑ p in Finset.range 6,
        if dofs m.node1 m.node2 p = P then
          -(cos6 sqrt nodes m p * axial_force sqrt nodes m d)
        else 0)).sum := by
  unfold K_exact
  have e : ∀ Q ∈ Finset.range (total_dofs nodes),
      (members.map (fun m =>
        ∑ p in Finset.range 6, ∑ q in Finset.range 6,
          if dofs m.node1 m.node2 p = P ∧ dofs m.node1 m.node2 q = Q then
            m.E * m.A / member_length sqrt nodes m * cos6 sqrt nodes m p * cos6 sqrt nodes m q
          else 0)).sum * d Q =
      (members.map (fun m =>
        (∑ p in Finset.range 6, ∑ q in Finset.range 6,
          if dofs m.node1 m.node2 p = P ∧ dofs m.node1 m.node2 q = Q then
            m.E * m.A / member_length sqrt nodes m * cos6 sqrt nodes m p * cos6 sqrt nodes m q
          else 0) * d Q)).sum := by
    intro Q _
    rw [← List.sum_map_mul_right]
  rw [Finset.sum_congr rfl e,
    sum_list_comm (Finset.range (total_dofs nodes)) members (fun m Q =>
        (∑ p in Finset.range 6, ∑ q in Finset.range 6,
          if dofs m.node1 m.node2 p = P ∧ dofs m.node1 m.node2 q = Q then
            m.E * m.A / member_length sqrt nodes m * cos6 sqrt nodes m p * cos6 sqrt nodes m q
          else 0) * d Q)]
  congr 1
  apply List.map_congr_left
  intro m hm
  obtain ⟨h1, h2⟩ := hv m hm
  rw [member_KD m.node1 m.node2 (total_dofs nodes) (by unfold total_dofs; omega)
    (by unfold total_dofs; omega)]
  apply Finset.sum_congr rfl
  intro p _
  by_cases hp : dofs m.node1 m.node2 p = P
  · rw [if_pos hp, if_pos hp]
    have := projection_eq_force sqrt nodes m d
    calc m.E * m.A / member_length sqrt nodes m * cos6 sqrt nodes m p *
          ∑ q in Finset.range 6, cos6 sqrt nodes m q * d (dofs m.node1 m.node2 q)
        = cos6 sqrt nodes m p * (m.E * m.A / member_length sqrt nodes m *
          ∑ q in Finset.range 6, cos6 sqrt nodes m q * d (dofs m.node1 m.node2 q)) := by ring
      _ = -(cos6 sqrt nodes m p * axial_force sqrt nodes m d) := by rw [this]; ring
  · rw [if_neg hp, if_neg hp]

/-! ## The two-node member under an axial load -/

theorem dofs_inj {n1 n2 : Nat} (hne : n1 ≠ n2) {p q : Nat} (hp : p < 6) (hq : q < 6)
    (h : dofs n1 n2 p = dofs n1 n2 q) : p = q := by
  interval_cases p <;> interval_cases q <;> simp [dofs] at h <;> omega

theorem dofs_node {n1 n2 : Nat} {p : Nat} (hp : p < 6) :
    dofs n1 n2 p = 3 * (if p < 3 then n1 else n2) + (if p < 3 then p else p - 3) := by
  interval_cases p <;> simp [dofs]

theorem cos6_coord (sqrt : α → α) (nodes : List (Node α)) (m : Member α) {p : Nat}
    (hp : p < 6) :
    cos6 sqrt nodes m p =
      if p < 3 then
        (coord (nodes.getD m.node2 default) p - coord (nodes.getD m.node1 default) p) /
          member_length sqrt nodes m
      else
        -((coord (nodes.getD m.node2 default) (p - 3) -
            coord (nodes.getD m.node1 default) (p - 3)) / member_length sqrt nodes m) := by
  interval_cases p <;> simp [cos6, coord, arr3]

/-- A non-singular reduced system of positive size has a non-zero entry. -/
theorem reduced_not_zero (sqrt : α → α) (nodes : List (Node α)) (members : List (Member α))
    (hL : ∀ m ∈ members, member_length sqrt nodes m ≠ 0)
    (hns : ReducedNonsingular nodes (K_global sqrt nodes members) (F_global nodes))
    (hfree : 0 < n_free nodes) :
    ∃ i j, i < total_dofs nodes ∧ j < total_dofs nodes ∧ (is_fixed nodes).get i = 0 ∧
      (is_fixed nodes).get j = 0 ∧ K_exact sqrt nodes members i j ≠ 0 := by
  obtain ⟨Ar, hM, hN⟩ := hns
  by_contra hall
  have hzero : ∀ r s, r < n_free nodes → s < n_free nodes → Ar r s = 0 := by
    intro r s hr hs
    have hr2 := hr
    have hs2 := hs
    rw [n_free_eq] at hr2 hs2
    obtain ⟨i, hi, hfi, hir⟩ := freeBelow_surj nodes _ r hr2
    obtain ⟨j, hj, hfj, hjs⟩ := freeBelow_surj nodes _ s hs2
    have h1 := (fill_reduced_get nodes (K_global sqrt nodes members)
      (F_global nodes)).1 i j hi hj hfi hfj
    rw [hir, hjs, hM r s hr hs, K_global_fin sqrt nodes members hL] at h1
    have h2 : Ar r s = K_exact sqrt nodes members i j := Dbl.fin.inj h1
    rw [h2]
    by_contra hne
    exact hall ⟨i, j, hi, hj, hfi, hfj, hne⟩
  have hx : Solves (n_free nodes) Ar (fun _ => 0) (fun _ => 1) := by
    intro r hr
    apply Finset.sum_eq_zero
    intro s hs
    rw [hzero r s hr (Finset.mem_range.mp hs), zero_mul]
  exact one_ne_zero (hN _ hx 0 hfree)

/-- The solved force of a two-node, one-member model whose one end is fully fixed and
whose other end carries `P` times the unit vector away from the fixed end. -/
theorem two_node_force (sqrt : α → α) (n0 n1 : Node α) (m : Member α) (P : α) (f e : Nat)
    (hfe : (f = 0 ∧ e = 1) ∨ (f = 1 ∧ e = 0))
    (hm : (m.node1 = f ∧ m.node2 = e) ∨ (m.node1 = e ∧ m.node2 = f))
    (hL : member_length sqrt [n0, n1] m ≠ 0)
    (hfix : ∀ a, a < 3 → ([n0, n1].getD f default).constraints a ≠ 0)
    (hload : ∀ a, a < 3 → ([n0, n1].getD e default).loads a =
      P * ((coord ([n0, n1].getD e default) a - coord ([n0, n1].getD f default) a) /
        member_length sqrt [n0, n1] m))
    (hfree : 0 < n_free [n0, n1])
    (hns : ReducedNonsingular [n0, n1] (K_global sqrt [n0, n1] [m]) (F_global [n0, n1])) :
    (member_result sqrt [n0, n1]
      (apply_boundary_conditions [n0, n1] (K_global sqrt [n0, n1] [m]) (F_global [n0, n1]))
      m).force = Dbl.fin P := by
  have hT : total_dofs [n0, n1] = 6 := rfl
  have hLall : ∀ m' ∈ [m], member_length sqrt [n0, n1] m' ≠ 0 := by
    intro m' hm'
    rw [List.mem_singleton.mp hm']
    exact hL
  have hnodes : m.node1 ≠ m.node2 ∧ m.node1 < 2 ∧ m.node2 < 2 := by
    rcases hfe with ⟨h1, h2⟩ | ⟨h1, h2⟩ <;> rcases hm with ⟨h3, h4⟩ | ⟨h3, h4⟩ <;> omega
  have hv : ∀ m' ∈ [m], m'.node1 < [n0, n1].length ∧ m'.node2 < [n0, n1].length := by
    intro m' hm'
    rw [List.mem_singleton.mp hm']
    exact ⟨hnodes.2.1, hnodes.2.2⟩
  obtain ⟨Dv, hD, _, hbal⟩ := free_row_balance sqrt [n0, n1] [m] hLall hns
  have hDall : ∀ k, (apply_boundary_conditions [n0, n1] (K_global sqrt [n0, n1] [m])
      (F_global [n0, n1])).get k = Dbl.fin (if k < 6 then Dv k else 0) := by
    intro k
    by_cases hk : k < 6
    · rw [if_pos hk]
      exact hD k hk
    · rw [if_neg hk]
      show (expand [n0, n1] _).get k = _
      rw [(expand_spec [n0, n1] _).2 k, if_neg (fun h => hk h.1)]
      rfl
  rw [member_force_fin sqrt [n0, n1] m hL _ _ hDall]
  congr 1
  obtain ⟨i, j, hi, _, hfi, _, hK⟩ := reduced_not_zero sqrt [n0, n1] [m] hLall hns hfree
  rw [hT] at hi
  -- a local index that lands on the free DOF `i`, with a non-zero cosine
  obtain ⟨p, hp6, hpi, hcp⟩ : ∃ p, p < 6 ∧ dofs m.node1 m.node2 p = i ∧
      cos6 sqrt [n0, n1] m p ≠ 0 := by
    by_contra hno
    apply hK
    unfold K_exact
    rw [List.map_singleton, List.sum_singleton]
    apply Finset.sum_eq_zero
    intro p hp
    apply Finset.sum_eq_zero
    intro q _
    by_cases hc : dofs m.node1 m.node2 p = i ∧ dofs m.node1 m.node2 q = j
    · rw [if_pos hc]
      have : cos6 sqrt [n0, n1] m p = 0 := by
        by_contra hne
        exact hno ⟨p, Finset.mem_range.mp hp, hc.1, hne⟩
      rw [this]
      ring
    · rw [if_neg hc]
  -- the free DOF belongs to the loaded end
  have hie : i / 3 = e := by
    by_contra hne
    have hif : i / 3 = f := by
      rcases hfe with ⟨h1, h2⟩ | ⟨h1, h2⟩ <;> omega
    rw [is_fixed_get] at hfi
    have := hfix (i % 3) (Nat.mod_lt _ (by decide))
    rw [← hif] at this
    rw [if_pos ⟨by show i < 3 * 2; omega, this⟩] at hfi
    exact one_ne_zero hfi
  -- the balance of row `i`
  have hb := hbal i (by rw [hT]; exact hi) hfi
  have hsum : ∑ Q in Finset.range (total_dofs [n0, n1]),
      K_exact sqrt [n0, n1] [m] i Q * Dv Q =
      ∑ Q in Finset.range (total_dofs [n0, n1]),
        K_exact sqrt [n0, n1] [m] i Q * (fun k => if k < 6 then Dv k else 0) Q := by
    apply Finset.sum_congr rfl
    intro Q hQ
    have : Q < 6 := Finset.mem_range.mp hQ
    beta_reduce
    rw [if_pos this]
  rw [hsum, K_exact_mul sqrt [n0, n1] [m] hv, List.map_singleton, List.sum_singleton,
    Finset.sum_eq_single p] at hb
  · rw [if_pos hpi, hie] at hb
    -- the load at DOF `i` is `-P` times the cosine at `p`
    have hdn := @dofs_node m.node1 m.node2 p hp6
    have hcos := cos6_coord sqrt [n0, n1] m hp6
    have hld : ([n0, n1].getD e default).loads (i % 3) =
        -(P * cos6 sqrt [n0, n1] m p) := by
      rw [hload (i % 3) (Nat.mod_lt _ (by decide)), hcos]
      by_cases hp3 : p < 3
      · rw [if_pos hp3] at hdn hcos ⊢
        rw [if_pos hp3] at hdn
        have e1 : m.node1 = e := by omega
        have e2 : i % 3 = p := by omega
        have e3 : m.node2 = f := by
          rcases hm with ⟨h3, h4⟩ | ⟨h3, h4⟩
          · rcases hfe with ⟨h1, h2⟩ | ⟨h1, h2⟩ <;> omega
          · exact h4
        rw [e1, e2, e3]
        ring
      · rw [if_neg hp3] at hdn hcos ⊢
        rw [if_neg hp3] at hdn
        have e1 : m.node2 = e := by omega
        have e2 : i % 3 = p - 3 := by omega
        have e3 : m.node1 = f := by
          rcases hm with ⟨h3, h4⟩ | ⟨h3, h4⟩
          · exact h3
          · rcases hfe with ⟨h1, h2⟩ | ⟨h1, h2⟩ <;> omega
        rw [e1, e2, e3]
        ring
    rw [hld] at hb
    have h3 : cos6 sqrt [n0, n1] m p *
        (axial_force sqrt [n0, n1] m (fun k => if k < 6 then Dv k else 0) - P) = 0 := by
      linear_combination -hb
    rcases mul_eq_zero.mp h3 with h4 | h4
    · exact absurd h4 hcp
    · linear_combination h4
  · intro q hq hqp
    rw [if_neg]
    intro h
    exact hqp (dofs_inj hnodes.1 (Finset.mem_range.mp hq) hp6 (h.trans hpi.symm))
  · intro h
    exact absurd (Finset.mem_range.mpr hp6) h

/-- C13: for every two-node, one-member model with non-zero member length, one node
`f` of the member fully fixed, the other node `e` loaded with `P` times the unit vector
pointing from `f` to `e`, and a non-singular reduced system that is solved (at least one
free DOF), the solver records the member force `P`; the status is "Tension" if `P > 0`
and "Compression" if `P < 0`.  (`E > 0` and `A > 0` follow from the non-singularity of a
non-empty reduced system and are not needed as hypotheses.) -/
theorem C13_axial_member_sign (sqrt : α → α) (n0 n1 : Node α) (m : Member α) (P : α)
    (f e : Nat)
    (hfe : (f = 0 ∧ e = 1) ∨ (f = 1 ∧ e = 0))
    (hm : (m.node1 = f ∧ m.node2 = e) ∨ (m.node1 = e ∧ m.node2 = f))
    (hL : member_length sqrt [n0, n1] m ≠ 0)
    (hfix : ∀ a, a < 3 → ([n0, n1].getD f default).constraints a ≠ 0)
    (hload : ∀ a, a < 3 → ([n0, n1].getD e default).loads a =
      P * ((coord ([n0, n1].getD e default) a - coord ([n0, n1].getD f default) a) /
        member_length sqrt [n0, n1] m))
    (hfree : 0 < n_free [n0, n1])
    (hns : ReducedNonsingular [n0, n1] (K_global sqrt [n0, n1] [m]) (F_global [n0, n1])) :
    (solve sqrt [n0, n1] [m]).2.2.map (fun r => r.force) = [Dbl.fin P] ∧
    (0 < P → (solve sqrt [n0, n1] [m]).2.2.map (fun r => r.status) = ["Tension"]) ∧
    (P < 0 → (solve sqrt [n0, n1] [m]).2.2.map (fun r => r.status) = ["Compression"]) := by
  have hF := two_node_force sqrt n0 n1 m P f e hfe hm hL hfix hload hfree hns
  have hres : (solve sqrt [n0, n1] [m]).2.2 =
      [member_result sqrt [n0, n1]
        (apply_boundary_conditions [n0, n1] (K_global sqrt [n0, n1] [m])
          (F_global [n0, n1])) m] := rfl
  rw [hres]
  simp only [List.map_cons, List.map_nil]
  refine ⟨by rw [hF], ?_, ?_⟩
  · intro hP
    rw [member_status_eq, hF]
    have : Dbl.gt (Dbl.fin P) 0 = true := by
      show decide (P > 0) = true
      exact decide_eq_true hP
    rw [this]
    rfl
  · intro hP
    rw [member_status_eq, hF]
    have : Dbl.gt (Dbl.fin P) 0 = false := by
      show decide (P > 0) = false
      exact decide_eq_false (not_lt.mpr hP.le)
    rw [this]
    rfl

/-- Witness for C13 on the example truss `[node_fixed, node_roller]`, `[bar]` with
`P = 100`. -/
theorem C13_witness :
    (solve Rat.sqrt [node_fixed, node_roller] [bar]).2.2.map (fun r => r.force) =
      [Dbl.fin 100] ∧
    ((0 : ℚ) < 100 →
      (solve Rat.sqrt [node_fixed, node_roller] [bar]).2.2.map (fun r => r.status) =
        ["Tension"]) ∧
    ((100 : ℚ) < 0 →
      (solve Rat.sqrt [node_fixed, node_roller] [bar]).2.2.map (fun r => r.status) =
        ["Compression"]) :=
  C13_axial_member_sign Rat.sqrt node_fixed node_roller bar 100 0 1
    (Or.inl ⟨rfl, rfl⟩) (Or.inl ⟨rfl, rfl⟩) (by decide!) (by decide!) (by decide!)
    (by decide!) (example_reduced node_roller (by decide!) (by decide!))

/-! ## The loader -/

theorem trim_whitespace_nil : trim_whitespace [] = [] := rfl

theorem parse_loop_eq {β : Type} (atof : List Char → β) (max_values : Nat)
    (tokens : List (List Char)) (values : List β) (h : values.length ≤ max_values) :
    parse_loop atof max_values tokens values =
      (values ++ ((tokens.map trim_whitespace).filter (fun f => f ≠ [])).map atof).take
        max_values := by
  induction tokens generalizing values with
  | nil =>
    simp only [parse_loop, List.map_nil, List.filter_nil, List.append_nil]
    exact (List.take_of_length_le h).symm
  | cons t rest ih =>
    unfold parse_loop
    by_cases hlt : values.length < max_values
    · rw [if_pos hlt]
      dsimp only
      by_cases ht : trim_whitespace t = []
      · rw [if_neg (by rw [ht]; decide), ih values h, List.map_cons, List.filter_cons,
          if_neg (by simp [ht])]
      · rw [if_pos (List.length_pos.mpr ht), ih _ (by simp; omega), List.map_cons,
          List.filter_cons, if_pos (by simp [ht]), List.map_cons, List.append_assoc]
        rfl
    · rw [if_neg hlt]
      have : values.length = max_values := by omega
      rw [List.take_append_of_le_length (by omega), List.take_of_length_le (by omega)]

theorem csv_fields_ne_nil (cs : List Char) : csv_fields cs ≠ [] := by
  cases cs with
  | nil => simp [csv_fields]
  | cons c cs =>
    unfold csv_fields
    split
    · simp
    · split <;> simp

theorem strtok_scan_eq (cs cur : List Char) :
    strtok_scan cs cur =
      ((cur.reverse ++ (csv_fields cs).headD []) :: (csv_fields cs).tail).filter
        (fun f => f ≠ []) := by
  induction cs generalizing cur with
  | nil =>
    by_cases h : cur = []
    · simp [strtok_scan, csv_fields, h]
    · simp [strtok_scan, csv_fields, h]
  | cons c cs ih =>
    have hne := csv_fields_ne_nil cs
    obtain ⟨f, fs, hf⟩ : ∃ f fs, csv_fields cs = f :: fs := by
      cases h : csv_fields cs with
      | nil => exact absurd h hne
      | cons f fs => exact ⟨f, fs, rfl⟩
    unfold strtok_scan csv_fields
    by_cases hc : c = ','
    · rw [if_pos hc, if_pos hc]
      by_cases h : cur = []
      · rw [if_pos h, ih, hf]
        simp [h]
      · rw [if_neg h, ih, hf]
        simp [h]
    · rw [if_neg hc, if_neg hc, ih, hf]
      simp

theorem strtok_all_eq (line : List Char) :
    strtok_all line = (csv_fields line).filter (fun f => f ≠ []) := by
  have hne := csv_fields_ne_nil line
  unfold strtok_all
  rw [strtok_scan_eq]
  cases h : csv_fields line with
  | nil => exact absurd h hne
  | cons f fs => simp

theorem trimmed_tokens_eq (fields : List (List Char)) :
    ((fields.filter (fun f => f ≠ [])).map trim_whitespace).filter (fun f => f ≠ []) =
      (fields.map trim_whitespace).filter (fun f => f ≠ []) := by
  induction fields with
  | nil => rfl
  | cons f fs ih =>
    by_cases h : f = []
    · subst h
      simpa [trim_whitespace_nil] using ih
    · rw [List.filter_cons, if_pos (by simpa using h), List.map_cons, List.map_cons,
        List.filter_cons, List.filter_cons, ih]

/-- The values that `parse_csv_line` returns are the first `max_values` of the non-blank
fields of the line, trimmed and converted. -/
theorem parse_csv_line_eq {β : Type} (atof : List Char → β) (line : List Char)
    (max_values : Nat) :
    parse_csv_line atof line max_values =
      ((nonblank_fields line).map atof).take max_values := by
  unfold parse_csv_line nonblank_fields
  rw [parse_loop_eq atof max_values _ [] (Nat.zero_le _), strtok_all_eq, trimmed_tokens_eq,
    List.nil_append]

theorem parse_csv_line_length {β : Type} (atof : List Char → β) (line : List Char)
    (max_values : Nat) :
    (parse_csv_line atof line max_values).length =
      min max_values (nonblank_fields line).length := by
  rw [parse_csv_line_eq, List.length_take, List.length_map]

/-- The lookup loop returns, for each of the two identifiers, `-1` when no slot below
`n_nodes` reads that identifier and otherwise the last such slot. -/
theorem find_nodes_spec (heap : Nat → Int) (n_nodes : Nat) (nodes : List (Node α))
    (node1_id node2_id : Int) :
    ((find_nodes heap n_nodes nodes node1_id node2_id).1 = -1 ∧
        (∀ j, j < n_nodes → slot_id heap nodes j ≠ node1_id) ∨
      ∃ j, j < n_nodes ∧ (find_nodes heap n_nodes nodes node1_id node2_id).1 = (j : Int) ∧
        slot_id heap nodes j = node1_id ∧
        ∀ k, j < k → k < n_nodes → slot_id heap nodes k ≠ node1_id) ∧
    ((find_nodes heap n_nodes nodes node1_id node2_id).2 = -1 ∧
        (∀ j, j < n_nodes → slot_id heap nodes j ≠ node2_id) ∨
      ∃ j, j < n_nodes ∧ (find_nodes heap n_nodes nodes node1_id node2_id).2 = (j : Int) ∧
        slot_id heap nodes j = node2_id ∧
        ∀ k, j < k → k < n_nodes → slot_id heap nodes k ≠ node2_id) := by
  unfold find_nodes
  refine forLoop_inv (fun i (r : Int × Int) =>
    (r.1 = -1 ∧ (∀ j, j < i → slot_id heap nodes j ≠ node1_id) ∨
      ∃ j, j < i ∧ r.1 = (j : Int) ∧ slot_id heap nodes j = node1_id ∧
        ∀ k, j < k → k < i → slot_id heap nodes k ≠ node1_id) ∧
    (r.2 = -1 ∧ (∀ j, j < i → slot_id heap nodes j ≠ node2_id) ∨
      ∃ j, j < i ∧ r.2 = (j : Int) ∧ slot_id heap nodes j = node2_id ∧
        ∀ k, j < k → k < i → slot_id heap nodes k ≠ node2_id)) (Nat.zero_le _) _ _ ?_ ?_
  · exact ⟨Or.inl ⟨rfl, fun j hj => absurd hj (Nat.not_lt_zero _)⟩,
      Or.inl ⟨rfl, fun j hj => absurd hj (Nat.not_lt_zero _)⟩⟩
  · intro i r _ _ ⟨h1, h2⟩
    have step : ∀ (x : Int) (v : Int),
        (v = -1 ∧ (∀ j, j < i → slot_id heap nodes j ≠ x) ∨
          ∃ j, j < i ∧ v = (j : Int) ∧ slot_id heap nodes j = x ∧
            ∀ k, j < k → k < i → slot_id heap nodes k ≠ x) →
        ((if slot_id heap nodes i = x then (i : Int) else v) = -1 ∧
            (∀ j, j < i + 1 → slot_id heap nodes j ≠ x) ∨
          ∃ j, j < i + 1 ∧ (if slot_id heap nodes i = x then (i : Int) else v) = (j : Int) ∧
            slot_id heap nodes j = x ∧
            ∀ k, j < k → k < i + 1 → slot_id heap nodes k ≠ x) := by
      intro x v h
      by_cases hx : slot_id heap nodes i = x
      · rw [if_pos hx]
        exact Or.inr ⟨i, Nat.lt_succ_self _, rfl, hx, fun k hk1 hk2 => by omega⟩
      · rw [if_neg hx]
        rcases h with ⟨hv, hall⟩ | ⟨j, hj, hv, hjx, hall⟩
        · refine Or.inl ⟨hv, fun j hj => ?_⟩
          by_cases hji : j = i
          · rw [hji]; exact hx
          · exact hall j (by omega)
        · refine Or.inr ⟨j, by omega, hv, hjx, fun k hk1 hk2 => ?_⟩
          by_cases hki : k = i
          · rw [hki]; exact hx
          · exact hall k hk1 (by omega)
    exact ⟨step node1_id r.1 h1, step node2_id r.2 h2⟩

/-- Whatever the lookup loop returns besides `-1` is an index below `n_nodes` whose slot
read the identifier looked for at the time of the lookup. -/
theorem find_nodes_range (heap : Nat → Int) (n_nodes : Nat) (nodes : List (Node α))
    (node1_id node2_id : Int) :
    ((find_nodes heap n_nodes nodes node1_id node2_id).1 = -1 ∨
      (find_nodes heap n_nodes nodes node1_id node2_id).1.toNat < n_nodes ∧
        slot_id heap nodes (find_nodes heap n_nodes nodes node1_id node2_id).1.toNat =
          node1_id) ∧
    ((find_nodes heap n_nodes nodes node1_id node2_id).2 = -1 ∨
      (find_nodes heap n_nodes nodes node1_id node2_id).2.toNat < n_nodes ∧
        slot_id heap nodes (find_nodes heap n_nodes nodes node1_id node2_id).2.toNat =
          node2_id) := by
  obtain ⟨h1, h2⟩ := find_nodes_spec heap n_nodes nodes node1_id node2_id
  constructor
  · rcases h1 with ⟨h, _⟩ | ⟨j, hj, hv, hx, _⟩
    · exact Or.inl h
    · rw [hv]
      exact Or.inr ⟨hj, hx⟩
  · rcases h2 with ⟨h, _⟩ | ⟨j, hj, hv, hx, _⟩
    · exact Or.inl h
    · rw [hv]
      exact Or.inr ⟨hj, hx⟩

theorem slot_id_filled (heap : Nat → Int) (nodes : List (Node α)) {j : Nat}
    (hj : j < nodes.length) : slot_id heap nodes j = (nodes.getD j default).id := by
  unfold slot_id
  rw [List.getD_eq_getElem?_getD, List.get?_eq_getElem?, List.getElem?_eq_getElem hj]
  rfl

/-- With every slot stored, the lookup returns the last node with each identifier. -/
theorem find_nodes_last (heap : Nat → Int) (nodes : List (Node α)) (node1_id node2_id : Int)
    (j1 j2 : Nat) (h1 : IsLastWithId nodes node1_id j1) (h2 : IsLastWithId nodes node2_id j2) :
    find_nodes heap nodes.length nodes node1_id node2_id = ((j1 : Int), (j2 : Int)) := by
  have key : ∀ (x : Int) (v : Int) (j0 : Nat), IsLastWithId nodes x j0 →
      (v = -1 ∧ (∀ j, j < nodes.length → slot_id heap nodes j ≠ x) ∨
        ∃ j, j < nodes.length ∧ v = (j : Int) ∧ slot_id heap nodes j = x ∧
          ∀ k, j < k → k < nodes.length → slot_id heap nodes k ≠ x) → v = (j0 : Int) := by
    intro x v j0 ⟨hlt, hid, hlast⟩ h
    rcases h with ⟨_, hall⟩ | ⟨j, hj, hv, hjx, hall⟩
    · exact absurd ((slot_id_filled heap nodes hlt).trans hid) (hall j0 hlt)
    · rw [hv]
      congr 1
      rcases Nat.lt_trichotomy j j0 with h | h | h
      · exact absurd ((slot_id_filled heap nodes hlt).trans hid) (hall j0 h hlt)
      · exact h
      · exact absurd ((slot_id_filled heap nodes hj).symm.trans hjx) (hlast j h hj)
  have hs := find_nodes_spec heap nodes.length nodes node1_id node2_id
  exact Prod.ext (key _ _ _ h1 hs.1) (key _ _ _ h2 hs.2)

/-! ## Claims on the loader -/

theorem count_record_unskipped {β : Type} (atof : List Char → β) (c : Nat × Nat)
    (line : List Char) (hs : is_skipped line = false) :
    count_record atof c line =
      if (parse_csv_line atof line 10).length = 10 then (c.1 + 1, c.2)
      else if (parse_csv_line atof line 10).length = 5 then (c.1, c.2 + 1)
      else c := by
  unfold count_record
  rw [hs]
  rfl

theorem read_record_unskipped (atof : List Char → α) (toInt : α → Int) (heap : Nat → Int)
    (n_nodes : Nat) (s : ReadState α) (line : List Char) (hs : is_skipped line = false) :
    read_record atof toInt heap n_nodes s line =
      if (parse_csv_line atof line 10).length = 10 then
        some { s with nodes := s.nodes ++ [node_of_values toInt (parse_csv_line atof line 10)],
                      line_num := s.line_num + 1 }
      else if (parse_csv_line atof line 10).length = 5 then
        if (find_nodes heap n_nodes s.nodes (toInt ((parse_csv_line atof line 10).getD 1 0))
              (toInt ((parse_csv_line atof line 10).getD 2 0))).1 = -1 ∨
            (find_nodes heap n_nodes s.nodes (toInt ((parse_csv_line atof line 10).getD 1 0))
              (toInt ((parse_csv_line atof line 10).getD 2 0))).2 = -1 then none
        else
          some { s with
            members := s.members ++
              [⟨toInt ((parse_csv_line atof line 10).getD 0 0),
                (find_nodes heap n_nodes s.nodes
                  (toInt ((parse_csv_line atof line 10).getD 1 0))
                  (toInt ((parse_csv_line atof line 10).getD 2 0))).1.toNat,
                (find_nodes heap n_nodes s.nodes
                  (toInt ((parse_csv_line atof line 10).getD 1 0))
                  (toInt ((parse_csv_line atof line 10).getD 2 0))).2.toNat,
                (parse_csv_line atof line 10).getD 3 0,
                (parse_csv_line atof line 10).getD 4 0⟩],
            line_num := s.line_num + 1 }
      else
        some { s with
          warnings := s.warnings ++ [(s.line_num, (parse_csv_line atof line 10).length)],
          line_num := s.line_num + 1 } := by
  unfold read_record
  rw [hs]
  rfl

/-- C16: on the input `lines_member_first` (a member record naming identifier 0 at both
ends, followed by the only node record, whose identifier is 7), with zeros in the block
that `malloc` returns, `read_input` does not exit: the lookup loop runs over all
`n_nodes = 1` slots before any of them is stored, reads identifier 0 in slot 0 and
leaves the member with `node1 = node2 = 0`, although no node record carries identifier 0
and `nodes[0].id` is 7 when `read_input` returns. -/
theorem C16_lookup_reads_unstored_slots :
    lines_member_first.map (fun l => (parse_csv_line atof_decimal l 10).map trunc_int) =
      [[0, 0, 0, 29000, 1], [7, 0, 0, 0, 1, 1, 1, 0, 0, 0]] ∧
    (read_input atof_decimal trunc_int (fun _ => 0) lines_member_first).map
      (fun L => L.n_nodes) = some 1 ∧
    (read_input atof_decimal trunc_int (fun _ => 0) lines_member_first).map
      (fun L => L.nodes.map (fun n => n.id)) = some [7] ∧
    (read_input atof_decimal trunc_int (fun _ => 0) lines_member_first).map
      (fun L => L.members.map (fun m => (m.node1, m.node2))) = some [(0, 0)] := by
  refine ⟨by decide!, by decide!, by decide!, by decide!⟩

/-- C17, counterexample: on `lines_duplicate_id` (node records with identifiers 1, 1, 2,
then a member record from 1 to 2) `read_input` stores the member with `node1 = 1`, the
second node of the list, while the first node with identifier 1 is node 0. -/
theorem C17_counterexample :
    (read_input atof_decimal trunc_int (fun _ => 0) lines_duplicate_id).map
      (fun L => L.nodes.map (fun n => n.id)) = some [1, 1, 2] ∧
    (read_input atof_decimal trunc_int (fun _ => 0) lines_duplicate_id).map
      (fun L => L.members.map (fun m => (m.node1, m.node2))) = some [(1, 2)] ∧
    ([1, 1, 2] : List Int).indexOf 1 = 0 := by
  refine ⟨by decide!, by decide!, by decide!⟩

/-- C17, amended: when the second pass of `read_input` reaches a member record after all
node records have been stored (`n_nodes` is the number of stored nodes), it stores the
member with `node1` and `node2` the indices of the last node of the node list carrying
the first and the second identifier of the record (last match wins), given that each
identifier is carried by some node. -/
theorem C17_last_match_wins (atof : List Char → α) (toInt : α → Int) (heap : Nat → Int)
    (s : ReadState α) (line : List Char) (j1 j2 : Nat)
    (hs : is_skipped line = false)
    (h5 : (parse_csv_line atof line 10).length = 5)
    (h1 : IsLastWithId s.nodes (toInt ((parse_csv_line atof line 10).getD 1 0)) j1)
    (h2 : IsLastWithId s.nodes (toInt ((parse_csv_line atof line 10).getD 2 0)) j2) :
    read_record atof toInt heap s.nodes.length s line =
      some { s with
        members := s.members ++
          [⟨toInt ((parse_csv_line atof line 10).getD 0 0), j1, j2,
            (parse_csv_line atof line 10).getD 3 0, (parse_csv_line atof line 10).getD 4 0⟩],
        line_num := s.line_num + 1 } := by
  have hne : ¬ (((j1 : Int), (j2 : Int)).1 = -1 ∨ ((j1 : Int), (j2 : Int)).2 = -1) := by
    rintro (h | h)
    · have h3 : (j1 : Int) = -1 := h
      omega
    · have h3 : (j2 : Int) = -1 := h
      omega
  rw [read_record_unskipped atof toInt heap _ s line hs,
    if_neg (by rw [h5]; decide), if_pos h5,
    find_nodes_last heap s.nodes _ _ j1 j2 h1 h2, if_neg hne]
  rfl

/-- Witness for C17 on the member record of `lines_duplicate_id`. -/
theorem C17_witness :
    read_record atof_decimal trunc_int (fun _ => 0) state_duplicate_id.nodes.length
        state_duplicate_id line_member_duplicate =
      some { state_duplicate_id with
        members := state_duplicate_id.members ++
          [⟨trunc_int ((parse_csv_line atof_decimal line_member_duplicate 10).getD 0 0), 1, 2,
            (parse_csv_line atof_decimal line_member_duplicate 10).getD 3 0,
            (parse_csv_line atof_decimal line_member_duplicate 10).getD 4 0⟩],
        line_num := state_duplicate_id.line_num + 1 } :=
  C17_last_match_wins atof_decimal trunc_int (fun _ => 0) state_duplicate_id
    line_member_duplicate 1 2 (by decide!) (by decide!)
    ⟨by decide, by decide!, fun k hk1 hk2 => by
      have hk : k = 2 := by
        have : state_duplicate_id.nodes.length = 3 := rfl
        omega
      subst hk
      decide!⟩
    ⟨by decide, by decide!, fun k hk1 hk2 => by
      have : state_duplicate_id.nodes.length = 3 := rfl
      omega⟩

/-- C18, counterexample: the line `line_eleven` has eleven comma-separated fields, is
neither blank nor a comment, and `read_input` counts and stores it as a node, with no
warning. -/
theorem C18_counterexample :
    (csv_fields line_eleven).length = 11 ∧
    is_skipped line_eleven = false ∧
    (parse_csv_line atof_decimal line_eleven 10).length = 10 ∧
    first_pass atof_decimal [line_eleven] = (1, 0) ∧
    (read_input atof_decimal trunc_int (fun _ => 0) [line_eleven]).map
      (fun L => L.nodes.map (fun n => n.id)) = some [1] ∧
    (read_input atof_decimal trunc_int (fun _ => 0) [line_eleven]).map
      (fun L => L.warnings) = some [] := by
  refine ⟨by decide!, by decide!, by decide!, by decide!, by decide!, by decide!⟩

/-- C18, amended: for every non-blank, non-comment line, `parse_csv_line` returns the
first ten of the non-blank comma-separated fields, trimmed and converted; both passes of
`read_input` treat the line as a node exactly when it has at least ten non-blank fields
(the first ten are used), as a member exactly when it has five, and otherwise the first
pass counts nothing and the second pass writes a warning with the line number and the
number of non-blank fields, does not exit, and adds neither a node nor a member. -/
theorem C18_record_classification (atof : List Char → α) (toInt : α → Int)
    (heap : Nat → Int) (n_nodes : Nat) (s : ReadState α) (c : Nat × Nat) (line : List Char)
    (hs : is_skipped line = false) :
    parse_csv_line atof line 10 = ((nonblank_fields line).map atof).take 10 ∧
    (10 ≤ (nonblank_fields line).length →
      count_record atof c line = (c.1 + 1, c.2) ∧
      read_record atof toInt heap n_nodes s line =
        some { s with
          nodes := s.nodes ++
            [node_of_values toInt (((nonblank_fields line).map atof).take 10)],
          line_num := s.line_num + 1 }) ∧
    ((nonblank_fields line).length = 5 →
      count_record atof c line = (c.1, c.2 + 1) ∧
      (read_record atof toInt heap n_nodes s line = none ∨
        ∃ m, read_record atof toInt heap n_nodes s line =
          some { s with members := s.members ++ [m], line_num := s.line_num + 1 })) ∧
    ((nonblank_fields line).length < 10 → (nonblank_fields line).length ≠ 5 →
      count_record atof c line = c ∧
      read_record atof toInt heap n_nodes s line =
        some { s with
          warnings := s.warnings ++ [(s.line_num, (nonblank_fields line).length)],
          line_num := s.line_num + 1 }) := by
  have hlen := parse_csv_line_length atof line 10
  refine ⟨parse_csv_line_eq atof line 10, ?_, ?_, ?_⟩
  · intro h10
    have hl : (parse_csv_line atof line 10).length = 10 := by
      rw [hlen]
      exact min_eq_left h10
    constructor
    · rw [count_record_unskipped atof c line hs, if_pos hl]
    · rw [read_record_unskipped atof toInt heap n_nodes s line hs, if_pos hl,
        parse_csv_line_eq]
  · intro h5
    have hl : (parse_csv_line atof line 10).length = 5 := by
      rw [hlen, h5]
      rfl
    have hl10 : ¬ (parse_csv_line atof line 10).length = 10 := by
      rw [hl]
      decide
    constructor
    · rw [count_record_unskipped atof c line hs, if_neg hl10, if_pos hl]
    · rw [read_record_unskipped atof toInt heap n_nodes s line hs, if_neg hl10, if_pos hl]
      split
      · exact Or.inl rfl
      · exact Or.inr ⟨_, rfl⟩
  · intro hlt hne
    have hl : (parse_csv_line atof line 10).length = (nonblank_fields line).length := by
      rw [hlen]
      exact min_eq_right hlt.le
    have hl10 : ¬ (parse_csv_line atof line 10).length = 10 := by
      rw [hl]
      omega
    have hl5 : ¬ (parse_csv_line atof line 10).length = 5 := by
      rw [hl]
      exact hne
    constructor
    · rw [count_record_unskipped atof c line hs, if_neg hl10, if_neg hl5]
    · rw [read_record_unskipped atof toInt heap n_nodes s line hs, if_neg hl10, if_neg hl5,
        hl]

/-- Witness for C18 on the three-field line `line_three`. -/
theorem C18_witness :
    is_skipped line_three = false ∧
    count_record atof_decimal (0, 0) line_three = (0, 0) ∧
    read_record atof_decimal trunc_int (fun _ => 0) 0 state_initial line_three =
      some { state_initial with
        warnings := state_initial.warnings ++
          [(state_initial.line_num, (nonblank_fields line_three).length)],
        line_num := state_initial.line_num + 1 } :=
  ⟨by decide!,
    (C18_record_classification atof_decimal trunc_int (fun _ => 0) 0 state_initial (0, 0)
      line_three (by decide!)).2.2.2 (by decide!) (by decide!)⟩

/-! ## Assembler and member force evaluator -/

theorem member_force_fin_at (sqrt : α → α) (nodes : List (Node α)) (m : Member α)
    (hL : member_length sqrt nodes m ≠ 0) (h1 : m.node1 < nodes.length)
    (h2 : m.node2 < nodes.length) (D : Vec α) (d : Nat → α)
    (hD : VecIs (total_dofs nodes) D d) :
    (member_result sqrt nodes D m).force = Dbl.fin (axial_force sqrt nodes m d) := by
  have hT : total_dofs nodes = 3 * nodes.length := rfl
  show (Dbl.fin (m.E * m.A) / Dbl.fin (member_length sqrt nodes m)) *
      (direction sqrt nodes m 0 * (D.get (3 * m.node2) - D.get (3 * m.node1)) +
       direction sqrt nodes m 1 * (D.get (3 * m.node2 + 1) - D.get (3 * m.node1 + 1)) +
       direction sqrt nodes m 2 * (D.get (3 * m.node2 + 2) - D.get (3 * m.node1 + 2))) = _
  rw [direction_fin sqrt nodes m hL (by decide : 0 < 3),
    direction_fin sqrt nodes m hL (by decide : 1 < 3),
    direction_fin sqrt nodes m hL (by decide : 2 < 3),
    hD (3 * m.node2) (by omega), hD (3 * m.node1) (by omega),
    hD (3 * m.node2 + 1) (by omega), hD (3 * m.node1 + 1) (by omega),
    hD (3 * m.node2 + 2) (by omega), hD (3 * m.node1 + 2) (by omega)]
  simp only [Dbl.fin_sub, Dbl.fin_mul, Dbl.fin_add, Dbl.fin_div_of_ne _ hL]
  rfl

theorem dofs_eq_iff (n1 n2 n : Nat) {p a : Nat} (hp : p < 6) (ha : a < 3) :
    dofs n1 n2 p = 3 * n + a ↔ (n1 = n ∧ p = a) ∨ (n2 = n ∧ p = a + 3) := by
  interval_cases p <;> simp [dofs] <;> omega

/-- The contribution of one member to row `3 n + a` of `K * d`. -/
theorem member_row_resultant (sqrt : α → α) (nodes : List (Node α)) (m : Member α)
    (F : α) (n : Nat) {a : Nat} (ha : a < 3) :
    (∑ p in Finset.range 6,
      if dofs m.node1 m.node2 p = 3 * n + a then -(cos6 sqrt nodes m p * F) else 0) =
      (if m.node2 = n then F * cos6 sqrt nodes m a else 0) -
        (if m.node1 = n then F * cos6 sqrt nodes m a else 0) := by
  have h3 : cos6 sqrt nodes m (a + 3) = -cos6 sqrt nodes m a := by
    interval_cases a <;> simp [cos6]
  have key : ∀ p, p < 6 →
      (if dofs m.node1 m.node2 p = 3 * n + a then -(cos6 sqrt nodes m p * F) else 0) =
      (if p = a + 3 then (if m.node2 = n then F * cos6 sqrt nodes m a else 0) else 0) -
        (if p = a then (if m.node1 = n then F * cos6 sqrt nodes m a else 0) else 0) := by
    intro p hp
    have hiff := dofs_eq_iff m.node1 m.node2 n hp ha
    by_cases hpa : p = a
    · subst hpa
      have hne : ¬ p = p + 3 := by omega
      rw [if_neg hne, if_pos rfl]
      by_cases h1 : m.node1 = n
      · rw [if_pos (hiff.mpr (Or.inl ⟨h1, rfl⟩)), if_pos h1]
        ring
      · rw [if_neg (fun h => by rcases hiff.mp h with ⟨h4, _⟩ | ⟨_, h4⟩ <;> [exact h1 h4; omega]),
          if_neg h1]
        ring
    · rw [if_neg hpa]
      by_cases hpb : p = a + 3
      · subst hpb
        rw [if_pos rfl]
        by_cases h2 : m.node2 = n
        · rw [if_pos (hiff.mpr (Or.inr ⟨h2, rfl⟩)), if_pos h2, h3]
          ring
        · rw [if_neg (fun h => by rcases hiff.mp h with ⟨_, h4⟩ | ⟨h4, _⟩ <;> [omega; exact h2 h4]),
            if_neg h2]
          ring
      · rw [if_neg hpb, if_neg (fun h => by rcases hiff.mp h with ⟨_, h4⟩ | ⟨_, h4⟩ <;> omega)]
        ring
  rw [Finset.sum_congr rfl (fun p hp => key p (Finset.mem_range.mp hp)),
    Finset.sum_sub_distrib]
  simp only [Finset.sum_ite_eq', Finset.mem_range]
  rw [if_pos (show a + 3 < 6 by omega), if_pos (show a < 6 by omega)]

theorem list_sum_ite_sub {ι : Type} (l : List ι) (c1 c2 : ι → Prop) [DecidablePred c1]
    [DecidablePred c2] (g : ι → α) :
    (l.map (fun m => (if c2 m then g m else 0) - (if c1 m then g m else 0))).sum =
      ((l.filter (fun m => c2 m)).map g).sum - ((l.filter (fun m => c1 m)).map g).sum := by
  induction l with
  | nil => simp
  | cons x xs ih =>
    rw [List.map_cons, List.sum_cons, ih]
    by_cases h1 : c1 x <;> by_cases h2 : c2 x <;> simp [List.filter_cons, h1, h2] <;> ring

theorem zip_map_self {ι κ : Type} (l : List ι) (f : ι → κ) :
    l.zip (l.map f) = l.map (fun x => (x, f x)) := by
  induction l with
  | nil => rfl
  | cons x xs ih => rw [List.map_cons, List.zip_cons_cons, ih, List.map_cons]

theorem member_records_zip (sqrt : α → α) (nodes : List (Node α))
    (members : List (Member α)) (D : Vec α) :
    members.zip (compute_member_forces sqrt nodes members D) =
      members.map (fun m => (m, member_result sqrt nodes D m)) := by
  unfold compute_member_forces
  split_ifs with h
  · rw [List.length_eq_zero.mp h]
    rfl
  · exact zip_map_self members _

/-- The resultant of the recorded member forces in closed form. -/
theorem member_resultant_fin (sqrt : α → α) (nodes : List (Node α))
    (members : List (Member α)) (hv : ValidModel sqrt nodes members) (D : Vec α)
    (d : Nat → α) (hD : VecIs (total_dofs nodes) D d) (n : Nat) {a : Nat} (ha : a < 3) :
    member_resultant sqrt nodes members D n a =
      Dbl.fin (((members.filter (fun m => m.node2 = n)).map
          (fun m => axial_force sqrt nodes m d * cos6 sqrt nodes m a)).sum -
        ((members.filter (fun m => m.node1 = n)).map
          (fun m => axial_force sqrt nodes m d * cos6 sqrt nodes m a)).sum) := by
  have hterm : ∀ (c : Member α → Prop) [DecidablePred c],
      (((members.map (fun m => (m, member_result sqrt nodes D m))).filter
          (fun mr => c mr.1)).map
        (fun mr => mr.2.force * direction sqrt nodes mr.1 a)).sum =
      Dbl.fin (((members.filter (fun m => c m)).map
        (fun m => axial_force sqrt nodes m d * cos6 sqrt nodes m a)).sum) := by
    intro c _
    rw [List.filter_map, List.map_map, ← list_sum_fin]
    congr 1
    apply List.map_congr_left
    intro m hm
    have hmem : m ∈ members := (List.mem_filter.mp hm).1
    obtain ⟨h1, h2, hL⟩ := hv m hmem
    show (member_result sqrt nodes D m).force * direction sqrt nodes m a = _
    rw [member_force_fin_at sqrt nodes m hL h1 h2 D d hD, direction_fin sqrt nodes m hL ha,
      Dbl.fin_mul]
  unfold member_resultant
  dsimp only
  rw [member_records_zip, hterm (fun m => m.node2 = n), hterm (fun m => m.node1 = n),
    Dbl.fin_sub]

/-- The row `3 n + a` of `K_global * D` in closed form. -/
theorem stiffness_times_fin (sqrt : α → α) (nodes : List (Node α))
    (members : List (Member α)) (hv : ValidModel sqrt nodes members) (D : Vec α)
    (d : Nat → α) (hD : VecIs (total_dofs nodes) D d) (n : Nat) {a : Nat} (ha : a < 3) :
    stiffness_times nodes (K_global sqrt nodes members) D (3 * n + a) =
      Dbl.fin (((members.filter (fun m => m.node2 = n)).map
          (fun m => axial_force sqrt nodes m d * cos6 sqrt nodes m a)).sum -
        ((members.filter (fun m => m.node1 = n)).map
          (fun m => axial_force sqrt nodes m d * cos6 sqrt nodes m a)).sum) := by
  have hL : ∀ m ∈ members, member_length sqrt nodes m ≠ 0 := fun m hm => (hv m hm).2.2
  have hidx : ∀ m ∈ members, m.node1 < nodes.length ∧ m.node2 < nodes.length :=
    fun m hm => ⟨(hv m hm).1, (hv m hm).2.1⟩
  unfold stiffness_times
  rw [Finset.sum_congr rfl (fun j hj => by
    rw [K_global_fin sqrt nodes members hL, hD j (Finset.mem_range.mp hj), Dbl.fin_mul]),
    sum_fin, K_exact_mul sqrt nodes members hidx d (3 * n + a)]
  congr 1
  rw [← list_sum_ite_sub]
  congr 1
  apply List.map_congr_left
  intro m _
  exact member_row_resultant sqrt nodes m _ n ha

/-- C21: for every valid model (member node indices in range, members of non-zero
length) and every finite displacement vector `D` of length `total_dofs`, for each node
`n` and axis `a` the entry `3 n + a` of `K_global * D` is finite and equals the sum over
the members with `node2 = n` of `force * c[a]` minus the sum over the members with
`node1 = n` of `force * c[a]`, with the forces that `compute_member_forces` records for
`D`. -/
theorem C21_assembler_agrees_with_member_forces (sqrt : α → α) (nodes : List (Node α))
    (members : List (Member α)) (D : Vec α) (d : Nat → α) (n a : Nat)
    (hv : ValidModel sqrt nodes members) (hD : VecIs (total_dofs nodes) D d)
    (ha : a < 3) :
    stiffness_times nodes (K_global sqrt nodes members) D (3 * n + a) =
      member_resultant sqrt nodes members D n a ∧
    ∃ v, stiffness_times nodes (K_global sqrt nodes members) D (3 * n + a) = Dbl.fin v := by
  rw [stiffness_times_fin sqrt nodes members hv D d hD n ha,
    member_resultant_fin sqrt nodes members hv D d hD n ha]
  exact ⟨rfl, _, rfl⟩

/-- Witness for C21 on the example truss, its displacements, node 1 and the x axis. -/
theorem C21_witness :
    stiffness_times [node_fixed, node_roller]
        (K_global Rat.sqrt [node_fixed, node_roller] [bar]) exDv (3 * 1 + 0) =
      member_resultant Rat.sqrt [node_fixed, node_roller] [bar] exDv 1 0 ∧
    ∃ v, stiffness_times [node_fixed, node_roller]
        (K_global Rat.sqrt [node_fixed, node_roller] [bar]) exDv (3 * 1 + 0) = Dbl.fin v :=
  C21_assembler_agrees_with_member_forces Rat.sqrt [node_fixed, node_roller] [bar] exDv exD
    1 0 example_valid (fun _ _ => rfl) (by decide)

/-! ## Models that differ only in the loads -/

theorem forLoop_congr {σ : Type} {lo hi : Nat} (f g : Nat → σ → σ) (s : σ)
    (h : ∀ i t, lo ≤ i → i < hi → f i t = g i t) :
    forLoop lo hi f s = forLoop lo hi g s := by
  by_cases hle : lo ≤ hi
  · refine forLoop_inv (fun i t => t = forLoop lo i g s) hle f s ?_ ?_
    · exact (forLoop_of_le (le_refl lo) g s).symm
    · intro i t h1 h2 ht
      rw [forLoop_succ h1, ← ht]
      exact h i t h1 h2
  · rw [forLoop_of_le (by omega), forLoop_of_le (by omega)]

theorem forLoop_fst {σ τ : Type} {lo hi : Nat} (f g : Nat → σ × τ → σ × τ) (s t : σ × τ)
    (h0 : s.1 = t.1)
    (h : ∀ i u v, lo ≤ i → i < hi → u.1 = v.1 → (f i u).1 = (g i v).1) :
    (forLoop lo hi f s).1 = (forLoop lo hi g t).1 := by
  by_cases hle : lo ≤ hi
  · refine forLoop_inv (fun i (u : σ × τ) => u.1 = (forLoop lo i g t).1) hle f s ?_ ?_
    · show s.1 = (forLoop lo lo g t).1
      rw [forLoop_of_le (le_refl lo)]
      exact h0
    · intro i u h1 h2 hu
      show (f i u).1 = (forLoop lo (i + 1) g t).1
      rw [forLoop_succ h1]
      exact h i u _ h1 h2 hu
  · rw [forLoop_of_le (by omega), forLoop_of_le (by omega)]
    exact h0

theorem same_getD {nodes1 nodes2 : List (Node α)} (h : SameButLoads nodes1 nodes2) (i : Nat) :
    (nodes2.getD i default).x = (nodes1.getD i default).x ∧
    (nodes2.getD i default).y = (nodes1.getD i default).y ∧
    (nodes2.getD i default).z = (nodes1.getD i default).z := by
  by_cases hi : i < nodes1.length
  · obtain ⟨_, hx, hy, hz, _⟩ := h.2 i hi
    exact ⟨hx, hy, hz⟩
  · have h1 : nodes1.getD i default = default :=
      List.getD_eq_default _ _ (by omega)
    have h2 : nodes2.getD i default = default :=
      List.getD_eq_default _ _ (by have := h.1; omega)
    rw [h1, h2]
    exact ⟨rfl, rfl, rfl⟩

theorem same_total_dofs {nodes1 nodes2 : List (Node α)} (h : SameButLoads nodes1 nodes2) :
    total_dofs nodes2 = total_dofs nodes1 := by
  unfold total_dofs
  rw [h.1]

theorem same_member_length (sqrt : α → α) {nodes1 nodes2 : List (Node α)}
    (h : SameButLoads nodes1 nodes2) (m : Member α) :
    member_length sqrt nodes2 m = member_length sqrt nodes1 m := by
  unfold member_length
  dsimp only
  rw [(same_getD h m.node1).1, (same_getD h m.node1).2.1, (same_getD h m.node1).2.2,
    (same_getD h m.node2).1, (same_getD h m.node2).2.1, (same_getD h m.node2).2.2]

theorem same_direction (sqrt : α → α) {nodes1 nodes2 : List (Node α)}
    (h : SameButLoads nodes1 nodes2) (m : Member α) :
    direction sqrt nodes2 m = direction sqrt nodes1 m := by
  unfold direction
  dsimp only
  rw [same_member_length sqrt h m,
    (same_getD h m.node1).1, (same_getD h m.node1).2.1, (same_getD h m.node1).2.2,
    (same_getD h m.node2).1, (same_getD h m.node2).2.1, (same_getD h m.node2).2.2]

theorem same_K_global (sqrt : α → α) {nodes1 nodes2 : List (Node α)}
    (h : SameButLoads nodes1 nodes2) (members : List (Member α)) :
    K_global sqrt nodes2 members = K_global sqrt nodes1 members := by
  have hstep : assemble_member sqrt nodes2 = assemble_member sqrt nodes1 := by
    funext K m
    unfold assemble_member member_k
    rw [same_direction sqrt h m, same_member_length sqrt h m]
  unfold K_global
  rw [hstep, same_total_dofs h]

theorem same_member_result (sqrt : α → α) {nodes1 nodes2 : List (Node α)}
    (h : SameButLoads nodes1 nodes2) (D : Vec α) (m : Member α) :
    member_result sqrt nodes2 D m = member_result sqrt nodes1 D m := by
  unfold member_result
  dsimp only
  rw [same_direction sqrt h m, same_member_length sqrt h m]

theorem same_is_fixed {nodes1 nodes2 : List (Node α)} (h : SameButLoads nodes1 nodes2) :
    is_fixed nodes2 = is_fixed nodes1 := by
  unfold is_fixed
  rw [same_total_dofs h, ← h.1]
  apply forLoop_congr
  intro i f _ hi
  apply forLoop_congr
  intro j f1 _ hj
  rw [(h.2 i hi).2.2.2.2 j hj]

theorem same_n_free {nodes1 nodes2 : List (Node α)} (h : SameButLoads nodes1 nodes2) :
    n_free nodes2 = n_free nodes1 := by
  unfold n_free
  rw [same_total_dofs h, same_is_fixed h]

theorem same_dof_map {nodes1 nodes2 : List (Node α)} (h : SameButLoads nodes1 nodes2) :
    dof_map nodes2 = dof_map nodes1 := by
  unfold dof_map dof_map_loop
  rw [same_total_dofs h, same_is_fixed h]

theorem same_fill_reduced {nodes1 nodes2 : List (Node α)} (h : SameButLoads nodes1 nodes2)
    (K : Mat α) (F : Vec α) : fill_reduced nodes2 K F = fill_reduced nodes1 K F := by
  unfold fill_reduced
  rw [same_total_dofs h, same_is_fixed h, same_dof_map h, same_n_free h]

theorem same_apply_boundary_conditions {nodes1 nodes2 : List (Node α)}
    (h : SameButLoads nodes1 nodes2) (K : Mat α) (F : Vec α) :
    apply_boundary_conditions nodes2 K F = apply_boundary_conditions nodes1 K F := by
  unfold apply_boundary_conditions expand D_reduced
  rw [same_total_dofs h, same_is_fixed h, same_dof_map h, same_n_free h,
    same_fill_reduced h]

theorem same_compute_reactions {nodes1 nodes2 : List (Node α)}
    (h : SameButLoads nodes1 nodes2) (K : Mat α) (F D : Vec α) :
    compute_reactions nodes2 K F D = compute_reactions nodes1 K F D := by
  unfold compute_reactions
  rw [same_total_dofs h]

/-! ## The elimination of the matrix does not read the right-hand side -/

theorem fill_reduced_fst (nodes : List (Node α)) (K : Mat α) (F G : Vec α) :
    (fill_reduced nodes K F).1 = (fill_reduced nodes K G).1 := by
  unfold fill_reduced
  apply forLoop_fst
  · rfl
  · intro i u v _ _ huv
    beta_reduce
    by_cases hf : (is_fixed nodes).get i = 0
    · rw [if_pos hf, if_pos hf]
      dsimp only
      rw [huv]
    · rw [if_neg hf, if_neg hf]
      exact huv

theorem swap_rows_fst (s t : Mat α × Vec α) (h : s.1 = t.1) (p r : Nat) :
    (swap_rows s p r).1 = (swap_rows t p r).1 := by
  unfold swap_rows
  by_cases hr : r ≠ p
  · rw [if_pos hr, if_pos hr]
    dsimp only
    rw [h]
  · rw [if_neg hr, if_neg hr]
    exact h

theorem eliminate_fst (n p : Nat) (s t : Mat α × Vec α) (h : s.1 = t.1) :
    (eliminate n p s).1 = (eliminate n p t).1 := by
  unfold eliminate
  apply forLoop_fst
  · exact h
  · intro i u v _ _ huv
    dsimp only
    rw [huv]

theorem pivot_step_fst (n p : Nat) (s t : Mat α × Vec α) (h : s.1 = t.1) :
    (pivot_step n p s).1 = (pivot_step n p t).1 := by
  unfold pivot_step
  rw [h]
  exact eliminate_fst n p _ _ (swap_rows_fst s t h p _)

/-- The matrix after any number of pivot steps, and with it the row that the next pivot
search returns, is the same for all right-hand sides. -/
theorem pivot_rows_fst (n p : Nat) (s t : Mat α × Vec α) (h : s.1 = t.1) :
    (forLoop 0 p (pivot_step n) s).1 = (forLoop 0 p (pivot_step n) t).1 := by
  apply forLoop_fst
  · exact h
  · intro i u v _ _ huv
    exact pivot_step_fst n i u v huv

/-! ## Linearity of the solve in the load vector -/

theorem displacements_total (nodes : List (Node α)) (K : Mat α) (F : Vec α) (Dv : Nat → α)
    (h : VecIs (total_dofs nodes) (apply_boundary_conditions nodes K F) Dv) (k : Nat) :
    (apply_boundary_conditions nodes K F).get k =
      Dbl.fin (if k < total_dofs nodes then Dv k else 0) := by
  by_cases hk : k < total_dofs nodes
  · rw [if_pos hk]
    exact h k hk
  · rw [if_neg hk]
    show (expand nodes _).get k = _
    rw [(expand_spec nodes _).2 k, if_neg (fun h => hk h.1)]
    rfl

/-- With a non-singular reduced matrix the displacements are finite and linear in the
load vector. -/
theorem displacements_linear (nodes : List (Node α)) (K : Mat α) (F1 F2 F3 : Vec α)
    (b1 b2 b3 : Nat → α) (a b : α) (hns : ReducedNonsingular nodes K F1)
    (h1 : VecIs (total_dofs nodes) F1 b1) (h2 : VecIs (total_dofs nodes) F2 b2)
    (h3 : VecIs (total_dofs nodes) F3 b3)
    (hb : ∀ i, i < total_dofs nodes → b3 i = a * b1 i + b * b2 i) :
    ∃ d1 d2 : Nat → α,
      (∀ k, (apply_boundary_conditions nodes K F1).get k = Dbl.fin (d1 k)) ∧
      (∀ k, (apply_boundary_conditions nodes K F2).get k = Dbl.fin (d2 k)) ∧
      (∀ k, (apply_boundary_conditions nodes K F3).get k = Dbl.fin (a * d1 k + b * d2 k)) := by
  obtain ⟨Ar, hM, hN⟩ := hns
  have hM2 : MatIs (n_free nodes) (fill_reduced nodes K F2).1 Ar := by
    rw [fill_reduced_fst nodes K F2 F1]
    exact hM
  have hM3 : MatIs (n_free nodes) (fill_reduced nodes K F3).1 Ar := by
    rw [fill_reduced_fst nodes K F3 F1]
    exact hM
  obtain ⟨x1, br1, hs1, hbr1, hD1⟩ := displacements_fin nodes K F1 Ar hM hN b1 h1
  obtain ⟨x2, br2, hs2, hbr2, hD2⟩ := displacements_fin nodes K F2 Ar hM2 hN b2 h2
  obtain ⟨x3, br3, hs3, hbr3, hD3⟩ := displacements_fin nodes K F3 Ar hM3 hN b3 h3
  have hbr : ∀ i, i < n_free nodes → br3 i = a * br1 i + b * br2 i := by
    intro i hi
    rw [n_free_eq] at hi
    obtain ⟨d, hd, hfd, hdi⟩ := freeBelow_surj nodes _ i hi
    rw [← hdi, hbr3 d hd hfd, hbr1 d hd hfd, hbr2 d hd hfd, hb d hd]
  have hy : Solves (n_free nodes) Ar (fun _ => 0)
      (fun r => x3 r - a * x1 r - b * x2 r) := by
    intro i hi
    have e1 := hs1 i hi
    have e2 := hs2 i hi
    have e3 := hs3 i hi
    have hsum : ∑ j in Finset.range (n_free nodes), Ar i j * (x3 j - a * x1 j - b * x2 j) =
        ∑ j in Finset.range (n_free nodes), Ar i j * x3 j -
          a * ∑ j in Finset.range (n_free nodes), Ar i j * x1 j -
          b * ∑ j in Finset.range (n_free nodes), Ar i j * x2 j := by
      rw [Finset.mul_sum, Finset.mul_sum, ← Finset.sum_sub_distrib, ← Finset.sum_sub_distrib]
      apply Finset.sum_congr rfl
      intro j _
      ring
    show ∑ j in Finset.range (n_free nodes), Ar i j * (x3 j - a * x1 j - b * x2 j) = 0
    rw [hsum, e1, e2, e3, hbr i hi]
    ring
  have hx : ∀ r, r < n_free nodes → x3 r = a * x1 r + b * x2 r := by
    intro r hr
    have := hN _ hy r hr
    beta_reduce at this
    linear_combination this
  refine ⟨fun k => if k < total_dofs nodes then
      (if (is_fixed nodes).get k = 0 then x1 (freeBelow nodes k) else 0) else 0,
    fun k => if k < total_dofs nodes then
      (if (is_fixed nodes).get k = 0 then x2 (freeBelow nodes k) else 0) else 0,
    fun k => displacements_total nodes K F1 _ hD1 k,
    fun k => displacements_total nodes K F2 _ hD2 k, ?_⟩
  intro k
  rw [displacements_total nodes K F3 _ hD3 k]
  congr 1
  beta_reduce
  by_cases hk : k < total_dofs nodes
  · rw [if_pos hk, if_pos hk, if_pos hk]
    by_cases hf : (is_fixed nodes).get k = 0
    · rw [if_pos hf, if_pos hf, if_pos hf]
      exact hx _ (by rw [n_free_eq]; exact freeBelow_lt nodes hk hf)
    · rw [if_neg hf, if_neg hf, if_neg hf]
      ring
  · rw [if_neg hk, if_neg hk, if_neg hk]
    ring

/-- The reactions are linear in the load vector and the displacements, cell by cell; a
row of `K` with a non-finite entry gives a non-finite reaction on both sides. -/
theorem reactions_linear (nodes : List (Node α)) (K : Mat α) (F1 F2 F3 D1 D2 D3 : Vec α)
    (b1 b2 b3 d1 d2 : Nat → α) (a b : α)
    (h1 : VecIs (total_dofs nodes) F1 b1) (h2 : VecIs (total_dofs nodes) F2 b2)
    (h3 : VecIs (total_dofs nodes) F3 b3)
    (hb : ∀ i, i < total_dofs nodes → b3 i = a * b1 i + b * b2 i)
    (hD1 : ∀ k, D1.get k = Dbl.fin (d1 k)) (hD2 : ∀ k, D2.get k = Dbl.fin (d2 k))
    (hD3 : ∀ k, D3.get k = Dbl.fin (a * d1 k + b * d2 k)) (i : Nat) :
    (compute_reactions nodes K F3 D3).get i =
      Dbl.fin a * (compute_reactions nodes K F1 D1).get i +
        Dbl.fin b * (compute_reactions nodes K F2 D2).get i := by
  rw [(compute_reactions_spec nodes K F3 D3).2 i, (compute_reactions_spec nodes K F1 D1).2 i,
    (compute_reactions_spec nodes K F2 D2).2 i]
  by_cases hi : i < total_dofs nodes
  · rw [if_pos hi, if_pos hi, if_pos hi]
    by_cases hrow : ∀ j, j < total_dofs nodes → ∃ v, K.get2 i j = Dbl.fin v
    · choose! A hA using hrow
      have hsum : ∀ (D : Vec α) (d : Nat → α), (∀ k, D.get k = Dbl.fin (d k)) →
          ∑ j in Finset.range (total_dofs nodes), K.get2 i j * D.get j =
            Dbl.fin (∑ j in Finset.range (total_dofs nodes), A j * d j) := by
        intro D d hD
        rw [← sum_fin]
        apply Finset.sum_congr rfl
        intro j hj
        rw [hA j (Finset.mem_range.mp hj), hD j, Dbl.fin_mul]
      rw [hsum D3 _ hD3, hsum D1 _ hD1, hsum D2 _ hD2, h1 i hi, h2 i hi, h3 i hi,
        Dbl.fin_sub, Dbl.fin_sub, Dbl.fin_sub, Dbl.fin_mul, Dbl.fin_mul, Dbl.fin_add, hb i hi]
      congr 1
      have hlin : ∑ j in Finset.range (total_dofs nodes), A j * (a * d1 j + b * d2 j) =
          a * ∑ j in Finset.range (total_dofs nodes), A j * d1 j +
            b * ∑ j in Finset.range (total_dofs nodes), A j * d2 j := by
        rw [Finset.mul_sum, Finset.mul_sum, ← Finset.sum_add_distrib]
        apply Finset.sum_congr rfl
        intro j _
        ring
      rw [hlin]
      ring
    · push_neg at hrow
      obtain ⟨j, hj, hne⟩ := hrow
      have hu : K.get2 i j = Dbl.undef := by
        rcases dbl_cases (K.get2 i j) with h | ⟨v, h⟩
        · exact h
        · exact absurd h (hne v)
      have hsum : ∀ D : Vec α,
          ∑ j in Finset.range (total_dofs nodes), K.get2 i j * D.get j = Dbl.undef := by
        intro D
        apply finset_sum_undef _ _ (Finset.mem_range.mpr hj)
        rw [hu]
        rfl
      rw [hsum D3, hsum D1, hsum D2]
      simp only [Dbl.undef_sub, Dbl.mul_undef, Dbl.undef_add]
  · rw [if_neg hi, if_neg hi, if_neg hi]
    show Dbl.fin 0 = Dbl.fin a * Dbl.fin 0 + Dbl.fin b * Dbl.fin 0
    rw [Dbl.fin_mul, Dbl.fin_mul, Dbl.fin_add]
    congr 1
    ring

theorem axial_force_linear (sqrt : α → α) (nodes : List (Node α)) (m : Member α)
    (d1 d2 : Nat → α) (a b : α) :
    axial_force sqrt nodes m (fun k => a * d1 k + b * d2 k) =
      a * axial_force sqrt nodes m d1 + b * axial_force sqrt nodes m d2 := by
  unfold axial_force
  ring

/-- The recorded member force is linear in the displacements; a member of zero length
has a non-finite force on both sides. -/
theorem member_force_linear (sqrt : α → α) (nodes : List (Node α)) (m : Member α)
    (D1 D2 D3 : Vec α) (d1 d2 : Nat → α) (a b : α)
    (hD1 : ∀ k, D1.get k = Dbl.fin (d1 k)) (hD2 : ∀ k, D2.get k = Dbl.fin (d2 k))
    (hD3 : ∀ k, D3.get k = Dbl.fin (a * d1 k + b * d2 k)) :
    (member_result sqrt nodes D3 m).force =
      Dbl.fin a * (member_result sqrt nodes D1 m).force +
        Dbl.fin b * (member_result sqrt nodes D2 m).force := by
  by_cases hL : member_length sqrt nodes m = 0
  · rw [(member_result_zero_length sqrt nodes D3 m hL).2.1,
      (member_result_zero_length sqrt nodes D1 m hL).2.1,
      (member_result_zero_length sqrt nodes D2 m hL).2.1]
    simp only [Dbl.mul_undef, Dbl.undef_add]
  · rw [member_force_fin sqrt nodes m hL D3 _ hD3, member_force_fin sqrt nodes m hL D1 _ hD1,
      member_force_fin sqrt nodes m hL D2 _ hD2, axial_force_linear, Dbl.fin_mul, Dbl.fin_mul,
      Dbl.fin_add]

theorem compute_member_forces_eq (sqrt : α → α) (nodes : List (Node α))
    (members : List (Member α)) (D : Vec α) :
    compute_member_forces sqrt nodes members D =
      members.map (member_result sqrt nodes D) := by
  unfold compute_member_forces
  split_ifs with h
  · rw [List.length_eq_zero.mp h]
    rfl
  · rfl

theorem zipWith_map_same {ι κ : Type} (l : List ι) (f g : ι → κ) (op : κ → κ → κ) :
    List.zipWith op (l.map f) (l.map g) = l.map (fun x => op (f x) (g x)) := by
  induction l with
  | nil => rfl
  | cons x xs ih => rw [List.map_cons, List.map_cons, List.zipWith_cons_cons, ih, List.map_cons]

theorem sameButLoads_refl (nodes : List (Node α)) : SameButLoads nodes nodes :=
  ⟨rfl, fun _ _ => ⟨rfl, rfl, rfl, rfl, fun _ _ => rfl⟩⟩

/-- The pipeline on a model that differs from `nodes1` only in the loads: everything is
computed as for `nodes1`, with the load vector of the model. -/
theorem solve_same (sqrt : α → α) {nodes1 nodes2 : List (Node α)}
    (h : SameButLoads nodes1 nodes2) (members : List (Member α)) :
    solve sqrt nodes2 members =
      (apply_boundary_conditions nodes1 (K_global sqrt nodes1 members) (F_global nodes2),
       compute_reactions nodes1 (K_global sqrt nodes1 members) (F_global nodes2)
         (apply_boundary_conditions nodes1 (K_global sqrt nodes1 members) (F_global nodes2)),
       members.map (member_result sqrt nodes1
         (apply_boundary_conditions nodes1 (K_global sqrt nodes1 members)
           (F_global nodes2)))) := by
  have hm : member_result sqrt nodes2 = member_result sqrt nodes1 :=
    funext fun D => funext fun m => same_member_result sqrt h D m
  show (apply_boundary_conditions nodes2 (K_global sqrt nodes2 members) (F_global nodes2),
    compute_reactions nodes2 (K_global sqrt nodes2 members) (F_global nodes2)
      (apply_boundary_conditions nodes2 (K_global sqrt nodes2 members) (F_global nodes2)),
    compute_member_forces sqrt nodes2 members
      (apply_boundary_conditions nodes2 (K_global sqrt nodes2 members) (F_global nodes2))) = _
  rw [same_K_global sqrt h, same_apply_boundary_conditions h, same_compute_reactions h,
    compute_member_forces_eq, hm]

theorem same_F_global_is {nodes1 nodes2 : List (Node α)} (h : SameButLoads nodes1 nodes2) :
    VecIs (total_dofs nodes1) (F_global nodes2)
      (fun d => (nodes2.getD (d / 3) default).loads (d % 3)) := by
  rw [← same_total_dofs h]
  exact F_global_is nodes2

/-- C22: for three models that differ only in the node loads, the loads of the third
being `a` times those of the first plus `b` times those of the second, and with a
non-singular reduced stiffness: the reduced stiffness matrix is the same in the three
models, the row that the pivot search returns at every pivot column is the same, and
the displacements (all finite), the reactions and the member forces of the third model
are `a` times those of the first plus `b` times those of the second; when every member
has non-zero length the reactions and member forces are finite as well. -/
theorem C22_solve_linear_in_loads (sqrt : α → α) (nodes1 nodes2 nodes3 : List (Node α))
    (members : List (Member α)) (a b : α)
    (h12 : SameButLoads nodes1 nodes2) (h13 : SameButLoads nodes1 nodes3)
    (hload : ∀ i, i < nodes1.length → ∀ j, j < 3 →
      (nodes3.getD i default).loads j =
        a * (nodes1.getD i default).loads j + b * (nodes2.getD i default).loads j)
    (hns : ReducedNonsingular nodes1 (K_global sqrt nodes1 members) (F_global nodes1)) :
    ((fill_reduced nodes2 (K_global sqrt nodes2 members) (F_global nodes2)).1 =
        (fill_reduced nodes1 (K_global sqrt nodes1 members) (F_global nodes1)).1 ∧
      (fill_reduced nodes3 (K_global sqrt nodes3 members) (F_global nodes3)).1 =
        (fill_reduced nodes1 (K_global sqrt nodes1 members) (F_global nodes1)).1) ∧
    (∀ p,
      find_pivot (forLoop 0 p (pivot_step (n_free nodes2))
          (fill_reduced nodes2 (K_global sqrt nodes2 members) (F_global nodes2))).1
          (n_free nodes2) p =
        find_pivot (forLoop 0 p (pivot_step (n_free nodes1))
          (fill_reduced nodes1 (K_global sqrt nodes1 members) (F_global nodes1))).1
          (n_free nodes1) p ∧
      find_pivot (forLoop 0 p (pivot_step (n_free nodes3))
          (fill_reduced nodes3 (K_global sqrt nodes3 members) (F_global nodes3))).1
          (n_free nodes3) p =
        find_pivot (forLoop 0 p (pivot_step (n_free nodes1))
          (fill_reduced nodes1 (K_global sqrt nodes1 members) (F_global nodes1))).1
          (n_free nodes1) p) ∧
    (∀ i, (solve sqrt nodes3 members).1.get i =
      Dbl.fin a * (solve sqrt nodes1 members).1.get i +
        Dbl.fin b * (solve sqrt nodes2 members).1.get i) ∧
    (∀ i, ∃ v, (solve sqrt nodes3 members).1.get i = Dbl.fin v) ∧
    (∀ i, (solve sqrt nodes3 members).2.1.get i =
      Dbl.fin a * (solve sqrt nodes1 members).2.1.get i +
        Dbl.fin b * (solve sqrt nodes2 members).2.1.get i) ∧
    (solve sqrt nodes3 members).2.2.map (fun r => r.force) =
      List.zipWith (fun f1 f2 => Dbl.fin a * f1 + Dbl.fin b * f2)
        ((solve sqrt nodes1 members).2.2.map (fun r => r.force))
        ((solve sqrt nodes2 members).2.2.map (fun r => r.force)) ∧
    ((∀ m ∈ members, member_length sqrt nodes1 m ≠ 0) →
      (∀ i, ∃ v, (solve sqrt nodes3 members).2.1.get i = Dbl.fin v) ∧
      ∀ f ∈ (solve sqrt nodes3 members).2.2.map (fun r => r.force), ∃ v, f = Dbl.fin v) := by
  have hT : total_dofs nodes1 = 3 * nodes1.length := rfl
  have hF1 := same_F_global_is (sameButLoads_refl nodes1)
  have hF2 := same_F_global_is h12
  have hF3 := same_F_global_is h13
  have hb : ∀ i, i < total_dofs nodes1 →
      (nodes3.getD (i / 3) default).loads (i % 3) =
        a * (nodes1.getD (i / 3) default).loads (i % 3) +
          b * (nodes2.getD (i / 3) default).loads (i % 3) := by
    intro i hi
    exact hload (i / 3) (by omega) (i % 3) (Nat.mod_lt _ (by decide))
  obtain ⟨d1, d2, hD1, hD2, hD3⟩ := displacements_linear nodes1
    (K_global sqrt nodes1 members) (F_global nodes1) (F_global nodes2) (F_global nodes3)
    _ _ _ a b hns hF1 hF2 hF3 hb
  have hK2 : (fill_reduced nodes2 (K_global sqrt nodes2 members) (F_global nodes2)).1 =
      (fill_reduced nodes1 (K_global sqrt nodes1 members) (F_global nodes1)).1 := by
    rw [same_K_global sqrt h12, same_fill_reduced h12]
    exact fill_reduced_fst nodes1 _ _ _
  have hK3 : (fill_reduced nodes3 (K_global sqrt nodes3 members) (F_global nodes3)).1 =
      (fill_reduced nodes1 (K_global sqrt nodes1 members) (F_global nodes1)).1 := by
    rw [same_K_global sqrt h13, same_fill_reduced h13]
    exact fill_reduced_fst nodes1 _ _ _
  rw [solve_same sqrt h12 members, solve_same sqrt h13 members,
    solve_same sqrt (sameButLoads_refl nodes1) members]
  refine ⟨⟨hK2, hK3⟩, ?_, ?_, ?_, ?_, ?_, ?_⟩
  · intro p
    constructor
    · rw [same_n_free h12, pivot_rows_fst (n_free nodes1) p _ _ hK2]
    · rw [same_n_free h13, pivot_rows_fst (n_free nodes1) p _ _ hK3]
  · intro i
    show (apply_boundary_conditions nodes1 _ (F_global nodes3)).get i =
      Dbl.fin a * (apply_boundary_conditions nodes1 _ (F_global nodes1)).get i +
        Dbl.fin b * (apply_boundary_conditions nodes1 _ (F_global nodes2)).get i
    rw [hD1 i, hD2 i, hD3 i, Dbl.fin_mul, Dbl.fin_mul, Dbl.fin_add]
  · intro i
    exact ⟨_, hD3 i⟩
  · intro i
    exact reactions_linear nodes1 _ _ _ _ _ _ _ _ _ _ d1 d2 a b hF1 hF2 hF3 hb hD1 hD2 hD3 i
  · show (members.map _).map _ = List.zipWith _ ((members.map _).map _) ((members.map _).map _)
    rw [List.map_map, List.map_map, List.map_map, zipWith_map_same]
    apply List.map_congr_left
    intro m _
    exact member_force_linear sqrt nodes1 m _ _ _ d1 d2 a b hD1 hD2 hD3
  · intro hL
    constructor
    · intro i
      have hfin := reactions_fin sqrt nodes1 members hL
        (apply_boundary_conditions nodes1 (K_global sqrt nodes1 members) (F_global nodes3))
        _ (fun k _ => hD3 k)
      show ∃ v, (compute_reactions nodes1 (K_global sqrt nodes1 members) (F_global nodes3)
        (apply_boundary_conditions nodes1 (K_global sqrt nodes1 members)
          (F_global nodes3))).get i = Dbl.fin v
      rw [(compute_reactions_spec nodes1 _ _ _).2 i]
      by_cases hi : i < total_dofs nodes1
      · rw [if_pos hi]
        have hrow : ∑ j in Finset.range (total_dofs nodes1),
            (K_global sqrt nodes1 members).get2 i j *
              (apply_boundary_conditions nodes1 (K_global sqrt nodes1 members)
                (F_global nodes3)).get j =
            Dbl.fin (∑ j in Finset.range (total_dofs nodes1),
              K_exact sqrt nodes1 members i j * (a * d1 j + b * d2 j)) := by
          rw [← sum_fin]
          apply Finset.sum_congr rfl
          intro j _
          rw [K_global_fin sqrt nodes1 members hL, hD3 j, Dbl.fin_mul]
        rw [hrow, hF3 i hi, Dbl.fin_sub]
        exact ⟨_, rfl⟩
      · rw [if_neg hi]
        exact ⟨0, rfl⟩
    · intro f hf
      obtain ⟨r, hr, hrf⟩ := List.mem_map.mp hf
      obtain ⟨m, hm, hmr⟩ := List.mem_map.mp hr
      rw [← hrf, ← hmr, member_force_fin sqrt nodes1 m (hL m hm) _ _ hD3]
      exact ⟨_, rfl⟩

/-- Witness for C22: the example truss with loads `(100,0,0)` and with no load on node
2, combined with `a = 2` and `b = 3` into the model with loads `(200,0,0)`. -/
theorem C22_witness :
    (∀ i, (solve Rat.sqrt [node_fixed, node_roller_scaled] [bar]).1.get i =
      Dbl.fin 2 * (solve Rat.sqrt [node_fixed, node_roller] [bar]).1.get i +
        Dbl.fin 3 * (solve Rat.sqrt [node_fixed, node_idle] [bar]).1.get i) ∧
    (solve Rat.sqrt [node_fixed, node_roller_scaled] [bar]).2.2.map (fun r => r.force) =
      List.zipWith (fun f1 f2 => Dbl.fin 2 * f1 + Dbl.fin 3 * f2)
        ((solve Rat.sqrt [node_fixed, node_roller] [bar]).2.2.map (fun r => r.force))
        ((solve Rat.sqrt [node_fixed, node_idle] [bar]).2.2.map (fun r => r.force)) :=
  (fun h => ⟨h.2.2.1, h.2.2.2.2.2.1⟩)
    (C22_solve_linear_in_loads Rat.sqrt [node_fixed, node_roller] [node_fixed, node_idle]
      [node_fixed, node_roller_scaled] [bar] 2 3
      ⟨rfl, fun i hi => by
        have hi2 : i < 2 := hi
        interval_cases i
        · exact ⟨rfl, rfl, rfl, rfl, fun _ _ => rfl⟩
        · exact ⟨rfl, rfl, rfl, rfl, fun _ _ => rfl⟩⟩
      ⟨rfl, fun i hi => by
        have hi2 : i < 2 := hi
        interval_cases i
        · exact ⟨rfl, rfl, rfl, rfl, fun _ _ => rfl⟩
        · exact ⟨rfl, rfl, rfl, rfl, fun _ _ => rfl⟩⟩
      (fun i hi j hj => by
        have hi2 : i < 2 := hi
        interval_cases i <;> interval_cases j <;> decide!)
      (example_reduced node_roller (by decide!) (by decide!)))

/-! ## The heap run of `apply_boundary_conditions` -/

theorem forLoop_sim {σ τ : Type} {lo hi : Nat} (R : σ → τ → Prop) (f : Nat → σ → σ)
    (g : Nat → τ → τ) (s : σ) (t : τ) (h0 : R s t)
    (h : ∀ i u v, lo ≤ i → i < hi → R u v → R (f i u) (g i v)) :
    R (forLoop lo hi f s) (forLoop lo hi g t) := by
  by_cases hle : lo ≤ hi
  · refine forLoop_inv (fun i (u : σ) => R u (forLoop lo i g t)) hle f s ?_ ?_
    · show R s (forLoop lo lo g t)
      rw [forLoop_of_le (le_refl lo)]
      exact h0
    · intro i u h1 h2 hu
      show R (f i u) (forLoop lo (i + 1) g t)
      rw [forLoop_succ h1]
      exact h i u _ h1 h2 hu
  · rw [forLoop_of_le (by omega), forLoop_of_le (by omega)]
    exact h0

theorem forDown_sim {σ τ : Type} (R : σ → τ → Prop) (n : Nat) (f : Nat → σ → σ)
    (g : Nat → τ → τ) (s : σ) (t : τ) (h0 : R s t)
    (h : ∀ i u v, i < n → R u v → R (f i u) (g i v)) :
    R (forDown n f s) (forDown n g t) := by
  induction n generalizing s t with
  | zero => exact h0
  | succ k ih =>
    show R (forDown k f (f k s)) (forDown k g (g k t))
    exact ih _ _ (h k s t (Nat.lt_succ_self k) h0)
      (fun i u v hi huv => h i u v (Nat.lt_succ_of_lt hi) huv)

theorem rep_read2 {h0 h : Heap α} {n : Nat} {K : Mat α} {F : Vec α} {G : Nat → Vec α}
    (hr : Rep h0 n h K F G)
    {i : Nat} (hi : i < n) (j : Nat) : h.read2 h0.next i j = K.get2 i j := by
  obtain ⟨_, _, _, _, hK, _, _⟩ := hr
  rw [← hK]
  show (h.dbl (h.read_ptr h0.next i)).get j =
    (if i < n then h.dbl (h.read_ptr h0.next i) else Arr.calloc n 0).get j
  rw [if_pos hi]

theorem rep_read {h0 h : Heap α} {n : Nat} {K : Mat α} {F : Vec α} {G : Nat → Vec α}
    (hr : Rep h0 n h K F G)
    (i : Nat) : h.read (h0.next + n + 1) i = F.get i := by
  obtain ⟨_, _, _, _, _, hF, _⟩ := hr
  rw [← hF]
  rfl

/-- A write through a row pointer of `K_reduced` is a write into the represented
matrix and touches nothing else. -/
theorem rep_write2 {h0 h : Heap α} {n : Nat} {K : Mat α} {F : Vec α} {G : Nat → Vec α}
    (hr : Rep h0 n h K F G)
    {i : Nat} (hi : i < n) (j : Nat) (v : Dbl α) :
    Rep h0 n (h.write2 h0.next i j v) (K.set2 i j v) F G := by
  obtain ⟨hn, hfr, hrow, hinj, hK, hF, hG⟩ := hr
  have hp := hrow i hi
  refine ⟨hn, ?_, hrow, hinj, ?_, ?_, ?_⟩
  · intro a ha
    refine ⟨?_, (hfr a ha).2⟩
    show (if a = h.read_ptr h0.next i then (h.dbl a).set j v else h.dbl a) = h0.dbl a
    rw [if_neg (by omega)]
    exact (hfr a ha).1
  · rw [← hK]
    show (⟨n, fun k => if k < n then
        (if h.read_ptr h0.next k = h.read_ptr h0.next i then
          (h.dbl (h.read_ptr h0.next k)).set j v else h.dbl (h.read_ptr h0.next k))
        else Arr.calloc n 0⟩ : Mat α) =
      ⟨n, fun k => if k = i then
        ((if i < n then h.dbl (h.read_ptr h0.next i) else Arr.calloc n 0).set j v)
        else (if k < n then h.dbl (h.read_ptr h0.next k) else Arr.calloc n 0)⟩
    congr 1
    funext k
    by_cases hk : k = i
    · subst hk
      rw [if_pos hi, if_pos rfl, if_pos rfl, if_pos hi]
    · rw [if_neg hk]
      by_cases hkn : k < n
      · rw [if_pos hkn, if_pos hkn, if_neg (fun e => hk (hinj k i hkn hi e))]
      · rw [if_neg hkn, if_neg hkn]
  · show (if h0.next + n + 1 = h.read_ptr h0.next i then _ else h.dbl (h0.next + n + 1)) = F
    rw [if_neg (by omega)]
    exact hF
  · intro q hq
    show (if q = h.read_ptr h0.next i then _ else h.dbl q) = G q
    rw [if_neg (by omega)]
    exact hG q hq

/-- A write into `F_reduced` is a write into the represented right-hand side. -/
theorem rep_write_F {h0 h : Heap α} {n : Nat} {K : Mat α} {F : Vec α} {G : Nat → Vec α}
    (hr : Rep h0 n h K F G) (i : Nat) (v : Dbl α) :
    Rep h0 n (h.write (h0.next + n + 1) i v) K (F.set i v) G := by
  obtain ⟨hn, hfr, hrow, hinj, hK, hF, hG⟩ := hr
  refine ⟨hn, ?_, hrow, hinj, ?_, ?_, ?_⟩
  · intro a ha
    refine ⟨?_, (hfr a ha).2⟩
    show (if a = h0.next + n + 1 then (h.dbl a).set i v else h.dbl a) = h0.dbl a
    rw [if_neg (by omega)]
    exact (hfr a ha).1
  · rw [← hK]
    show (⟨n, fun k => if k < n then
        (if h.read_ptr h0.next k = h0.next + n + 1 then
          (h.dbl (h.read_ptr h0.next k)).set i v else h.dbl (h.read_ptr h0.next k))
        else Arr.calloc n 0⟩ : Mat α) =
      ⟨n, fun k => if k < n then h.dbl (h.read_ptr h0.next k) else Arr.calloc n 0⟩
    congr 1
    funext k
    by_cases hkn : k < n
    · have := hrow k hkn
      rw [if_pos hkn, if_neg (by omega), if_pos hkn]
    · rw [if_neg hkn, if_neg hkn]
  · show (if h0.next + n + 1 = h0.next + n + 1 then (h.dbl (h0.next + n + 1)).set i v
      else h.dbl (h0.next + n + 1)) = _
    rw [if_pos rfl, hF]
  · intro q hq
    show (if q = h0.next + n + 1 then _ else h.dbl q) = G q
    rw [if_neg (by omega)]
    exact hG q hq

/-- A write into a later block leaves the represented system as it is. -/
theorem rep_write_other {h0 h : Heap α} {n : Nat} {K : Mat α} {F : Vec α}
    {G : Nat → Vec α} (hr : Rep h0 n h K F G) {p : Nat} (hp : h0.next + n + 2 ≤ p)
    (i : Nat) (v : Dbl α) :
    Rep h0 n (h.write p i v) K F (with_block G p ((G p).set i v)) := by
  obtain ⟨hn, hfr, hrow, hinj, hK, hF, hG⟩ := hr
  refine ⟨hn, ?_, hrow, hinj, ?_, ?_, ?_⟩
  · intro a ha
    refine ⟨?_, (hfr a ha).2⟩
    show (if a = p then (h.dbl a).set i v else h.dbl a) = h0.dbl a
    rw [if_neg (by omega)]
    exact (hfr a ha).1
  · rw [← hK]
    show (⟨n, fun k => if k < n then
        (if h.read_ptr h0.next k = p then
          (h.dbl (h.read_ptr h0.next k)).set i v else h.dbl (h.read_ptr h0.next k))
        else Arr.calloc n 0⟩ : Mat α) =
      ⟨n, fun k => if k < n then h.dbl (h.read_ptr h0.next k) else Arr.calloc n 0⟩
    congr 1
    funext k
    by_cases hkn : k < n
    · have := hrow k hkn
      rw [if_pos hkn, if_neg (by omega), if_pos hkn]
    · rw [if_neg hkn, if_neg hkn]
  · show (if h0.next + n + 1 = p then _ else h.dbl (h0.next + n + 1)) = F
    rw [if_neg (by omega)]
    exact hF
  · intro q hq
    show (if q = p then (h.dbl q).set i v else h.dbl q) = if q = p then (G p).set i v else G q
    by_cases hqp : q = p
    · rw [if_pos hqp, if_pos hqp, hqp, hG p hp]
    · rw [if_neg hqp, if_neg hqp]
      exact hG q hq

/-- A later `calloc` leaves the represented system as it is. -/
theorem rep_calloc {h0 h : Heap α} {n : Nat} {K : Mat α} {F : Vec α} {G : Nat → Vec α}
    (hr : Rep h0 n h K F G)
    (m : Nat) :
    Rep h0 n (h.calloc_dbl m).1 K F (with_block G h.next (Arr.calloc m 0)) := by
  obtain ⟨hn, hfr, hrow, hinj, hK, hF, hG⟩ := hr
  refine ⟨?_, ?_, hrow, hinj, ?_, ?_, ?_⟩
  · show h0.next + n + 2 ≤ h.next + 1
    omega
  · intro a ha
    refine ⟨?_, (hfr a ha).2.1, ?_⟩
    · show (if a = h.next then Arr.calloc m 0 else h.dbl a) = h0.dbl a
      rw [if_neg (by omega)]
      exact (hfr a ha).1
    · show (if a = h.next then true else h.live a) = h0.live a
      rw [if_neg (by omega)]
      exact (hfr a ha).2.2
  · rw [← hK]
    show (⟨n, fun k => if k < n then
        (if h.read_ptr h0.next k = h.next then Arr.calloc m 0
          else h.dbl (h.read_ptr h0.next k))
        else Arr.calloc n 0⟩ : Mat α) =
      ⟨n, fun k => if k < n then h.dbl (h.read_ptr h0.next k) else Arr.calloc n 0⟩
    congr 1
    funext k
    by_cases hkn : k < n
    · have := hrow k hkn
      rw [if_pos hkn, if_neg (by omega), if_pos hkn]
    · rw [if_neg hkn, if_neg hkn]
  · show (if h0.next + n + 1 = h.next then Arr.calloc m 0 else h.dbl (h0.next + n + 1)) = F
    rw [if_neg (by omega)]
    exact hF
  · intro q hq
    show (if q = h.next then Arr.calloc m 0 else h.dbl q) =
      if q = h.next then Arr.calloc m 0 else G q
    by_cases hqp : q = h.next
    · rw [if_pos hqp, if_pos hqp]
    · rw [if_neg hqp, if_neg hqp]
      exact hG q hq

theorem alloc_rows_spec (n : Nat) (h0 : Heap α) :
    (alloc_rows n h0.next (h0.malloc_ptr n).1).next = h0.next + 1 + n ∧
    (∀ a, a < h0.next →
      (alloc_rows n h0.next (h0.malloc_ptr n).1).dbl a = h0.dbl a ∧
      (alloc_rows n h0.next (h0.malloc_ptr n).1).ptr a = h0.ptr a ∧
      (alloc_rows n h0.next (h0.malloc_ptr n).1).live a = h0.live a) ∧
    (∀ k, k < n →
      (alloc_rows n h0.next (h0.malloc_ptr n).1).read_ptr h0.next k = h0.next + 1 + k) ∧
    (∀ k, k < n →
      (alloc_rows n h0.next (h0.malloc_ptr n).1).dbl (h0.next + 1 + k) = Arr.calloc n 0) := by
  unfold alloc_rows
  refine forLoop_inv (fun (i : Nat) (h2 : Heap α) =>
      h2.next = h0.next + 1 + i ∧
      (∀ a, a < h0.next → h2.dbl a = h0.dbl a ∧ h2.ptr a = h0.ptr a ∧ h2.live a = h0.live a) ∧
      (∀ k, k < i → h2.read_ptr h0.next k = h0.next + 1 + k) ∧
      (∀ k, k < i → h2.dbl (h0.next + 1 + k) = Arr.calloc n 0)) (Nat.zero_le n) _ _ ?_ ?_
  · refine ⟨rfl, ?_, fun k hk => absurd hk (Nat.not_lt_zero k),
      fun k hk => absurd hk (Nat.not_lt_zero k)⟩
    intro a ha
    refine ⟨rfl, ?_, ?_⟩
    · show (if a = h0.next then _ else h0.ptr a) = h0.ptr a
      rw [if_neg (by omega)]
    · show (if a = h0.next then true else h0.live a) = h0.live a
      rw [if_neg (by omega)]
  · intro i h2 _ _ ⟨hnx, hfr, hpt, hdb⟩
    refine ⟨?_, ?_, ?_, ?_⟩
    · show h2.next + 1 = h0.next + 1 + (i + 1)
      omega
    · intro a ha
      refine ⟨?_, ?_, ?_⟩
      · show (if a = h2.next then Arr.calloc n 0 else h2.dbl a) = h0.dbl a
        rw [if_neg (by omega)]
        exact (hfr a ha).1
      · show (if a = h0.next then _ else h2.ptr a) = h0.ptr a
        rw [if_neg (by omega)]
        exact (hfr a ha).2.1
      · show (if a = h2.next then true else h2.live a) = h0.live a
        rw [if_neg (by omega)]
        exact (hfr a ha).2.2
    · intro k hk
      show (if h0.next = h0.next then (h2.ptr h0.next).set i h2.next else _).get k = _
      rw [if_pos rfl, Arr.get_set]
      by_cases hki : k = i
      · rw [if_pos hki, hnx, hki]
      · rw [if_neg hki]
        exact hpt k (by omega)
    · intro k hk
      show (if h0.next + 1 + k = h2.next then Arr.calloc n 0 else h2.dbl (h0.next + 1 + k)) = _
      by_cases hki : k = i
      · rw [if_pos (by omega)]
      · rw [if_neg (by omega)]
        exact hdb k (by omega)

/-- The allocation of the reduced system gives fresh, zeroed blocks. -/
theorem alloc_reduced_rep (n : Nat) (h0 : Heap α) :
    Rep h0 n (alloc_reduced n h0).1 (Arr.calloc n (Arr.calloc n 0)) (Arr.calloc n 0)
      (alloc_reduced n h0).1.dbl ∧
    (alloc_reduced n h0).2.1 = h0.next ∧
    (alloc_reduced n h0).2.2 = h0.next + n + 1 := by
  obtain ⟨hnx, hfr, hpt, hdb⟩ := alloc_rows_spec n h0
  refine ⟨⟨?_, ?_, ?_, ?_, ?_, ?_, fun _ _ => rfl⟩, rfl, ?_⟩
  · show h0.next + n + 2 ≤ (alloc_rows n h0.next (h0.malloc_ptr n).1).next + 1
    rw [hnx]
    omega
  · intro a ha
    refine ⟨?_, (hfr a ha).2.1, ?_⟩
    · show (if a = (alloc_rows n h0.next (h0.malloc_ptr n).1).next then Arr.calloc n 0
        else (alloc_rows n h0.next (h0.malloc_ptr n).1).dbl a) = _
      rw [if_neg (by rw [hnx]; omega)]
      exact (hfr a ha).1
    · show (if a = (alloc_rows n h0.next (h0.malloc_ptr n).1).next then true
        else (alloc_rows n h0.next (h0.malloc_ptr n).1).live a) = _
      rw [if_neg (by rw [hnx]; omega)]
      exact (hfr a ha).2.2
  · intro i hi
    show h0.next < (alloc_rows n h0.next (h0.malloc_ptr n).1).read_ptr h0.next i ∧
      (alloc_rows n h0.next (h0.malloc_ptr n).1).read_ptr h0.next i ≤ h0.next + n
    rw [hpt i hi]
    omega
  · intro i k hi hk
    show (alloc_rows n h0.next (h0.malloc_ptr n).1).read_ptr h0.next i =
      (alloc_rows n h0.next (h0.malloc_ptr n).1).read_ptr h0.next k → i = k
    rw [hpt i hi, hpt k hk]
    omega
  · show (⟨n, fun k => if k < n then
        (if (alloc_rows n h0.next (h0.malloc_ptr n).1).read_ptr h0.next k =
            (alloc_rows n h0.next (h0.malloc_ptr n).1).next then Arr.calloc n 0
          else (alloc_rows n h0.next (h0.malloc_ptr n).1).dbl
            ((alloc_rows n h0.next (h0.malloc_ptr n).1).read_ptr h0.next k))
        else Arr.calloc n 0⟩ : Mat α) = ⟨n, fun _ => Arr.calloc n 0⟩
    congr 1
    funext k
    by_cases hkn : k < n
    · rw [if_pos hkn, hpt k hkn, if_neg (by rw [hnx]; omega)]
      exact hdb k hkn
    · rw [if_neg hkn]
  · show (if h0.next + n + 1 = (alloc_rows n h0.next (h0.malloc_ptr n).1).next then
        Arr.calloc n 0
      else (alloc_rows n h0.next (h0.malloc_ptr n).1).dbl (h0.next + n + 1)) = _
    rw [if_pos (by rw [hnx]; omega)]
  · show (alloc_rows n h0.next (h0.malloc_ptr n).1).next = h0.next + n + 1
    rw [hnx]
    omega

/-- The row exchange on the heap is the row exchange of the represented system. -/
theorem swap_rows_rep {h0 h : Heap α} {n : Nat} {K : Mat α} {F : Vec α} {G : Nat → Vec α}
    (hr : Rep h0 n h K F G) {piv r : Nat} (hp : piv < n) (hq : r < n) :
    Rep h0 n (swap_rows_h h0.next (h0.next + n + 1) piv r h)
      (swap_rows (K, F) piv r).1 (swap_rows (K, F) piv r).2 G := by
  unfold swap_rows_h swap_rows
  by_cases hne : r ≠ piv
  · rw [if_pos hne, if_pos hne]
    obtain ⟨hn, hfr, hrow, hinj, hK, hF, hG⟩ := hr
    have hget : ∀ k, ((h.write_ptr h0.next piv (h.read_ptr h0.next r)).write_ptr h0.next r
        (h.read_ptr h0.next piv)).read_ptr h0.next k =
        h.read_ptr h0.next (swapIdx piv r k) := by
      intro k
      show (if h0.next = h0.next then
        ((if h0.next = h0.next then (h.ptr h0.next).set piv (h.read_ptr h0.next r)
          else h.ptr h0.next).set r (h.read_ptr h0.next piv))
        else _).get k = _
      rw [if_pos rfl, if_pos rfl, Arr.get_set, Arr.get_set]
      unfold swapIdx
      by_cases h1 : k = r
      · rw [if_pos h1, if_pos h1]
      · rw [if_neg h1, if_neg h1]
        by_cases h2 : k = piv
        · rw [if_pos h2, if_pos h2]
        · rw [if_neg h2, if_neg h2]
          rfl
    have hrep : Rep h0 n ((h.write_ptr h0.next piv (h.read_ptr h0.next r)).write_ptr h0.next r
        (h.read_ptr h0.next piv)) ((K.set piv (K.get r)).set r (K.get piv)) F G := by
      refine ⟨hn, ?_, ?_, ?_, ?_, hF, hG⟩
      · intro a ha
        refine ⟨(hfr a ha).1, ?_, (hfr a ha).2.2⟩
        show (if a = h0.next then _ else (if a = h0.next then _ else h.ptr a)) = h0.ptr a
        rw [if_neg (by omega), if_neg (by omega)]
        exact (hfr a ha).2.1
      · intro i hi
        rw [hget i]
        exact hrow _ (swapIdx_lt hp hq hi)
      · intro i k hi hk
        rw [hget i, hget k]
        intro e
        have := hinj _ _ (swapIdx_lt hp hq hi) (swapIdx_lt hp hq hk) e
        calc i = swapIdx piv r (swapIdx piv r i) := (swapIdx_swapIdx piv r i).symm
          _ = swapIdx piv r (swapIdx piv r k) := by rw [this]
          _ = k := swapIdx_swapIdx piv r k
      · rw [← hK]
        show (⟨n, fun k => if k < n then h.dbl
            (((h.write_ptr h0.next piv (h.read_ptr h0.next r)).write_ptr h0.next r
              (h.read_ptr h0.next piv)).read_ptr h0.next k) else Arr.calloc n 0⟩ : Mat α) =
          ⟨n, fun k => if k = r then
              (if piv < n then h.dbl (h.read_ptr h0.next piv) else Arr.calloc n 0)
            else if k = piv then
              (if r < n then h.dbl (h.read_ptr h0.next r) else Arr.calloc n 0)
            else (if k < n then h.dbl (h.read_ptr h0.next k) else Arr.calloc n 0)⟩
        congr 1
        funext k
        rw [hget k]
        unfold swapIdx
        by_cases h1 : k = r
        · rw [if_pos h1, if_pos h1, if_pos hp, if_pos (by omega)]
        · rw [if_neg h1, if_neg h1]
          by_cases h2 : k = piv
          · rw [if_pos h2, if_pos h2, if_pos hq, if_pos (by omega)]
          · rw [if_neg h2, if_neg h2]
    dsimp only
    rw [rep_read hrep piv, rep_read hrep r]
    exact rep_write_F (rep_write_F hrep piv (F.get r)) r (F.get piv)
  · rw [if_neg hne, if_neg hne]
    exact hr

/-- Reads of `K_global` and `F_global` see the blocks of the earlier heap. -/
theorem rep_read_global {h0 h : Heap α} {n : Nat} {K : Mat α} {F : Vec α} {G : Nat → Vec α}
    (hr : Rep h0 n h K F G) {Kg Fg T : Nat} (hK : Kg < h0.next) (hF : Fg < h0.next)
    (hrows : ∀ i, i < T → h0.read_ptr Kg i < h0.next) :
    (∀ i j, i < T → h.read2 Kg i j = (h0.matrix Kg T).get2 i j) ∧
    (∀ i, h.read Fg i = (h0.dbl Fg).get i) := by
  obtain ⟨_, hfr, _, _, _, _, _⟩ := hr
  constructor
  · intro i j hi
    show (h.dbl ((h.ptr Kg).get i)).get j =
      (if i < T then h0.dbl (h0.read_ptr Kg i) else Arr.calloc T 0).get j
    rw [if_pos hi, (hfr Kg hK).2.1]
    show (h.dbl (h0.read_ptr Kg i)).get j = _
    rw [(hfr _ (hrows i hi)).1]
  · intro i
    show (h.dbl Fg).get i = _
    rw [(hfr Fg hF).1]

theorem reduced_index_lt (nodes : List (Node α)) {i : Nat} (hi : i < total_dofs nodes)
    (hf : (is_fixed nodes).get i = 0) : ((dof_map nodes).get i).toNat < n_free nodes := by
  rw [dof_map_toNat nodes hi hf, n_free_eq]
  exact freeBelow_lt nodes hi hf

/-- The fill loops on the heap compute the reduced system of `fill_reduced`. -/
theorem fill_reduced_rep (nodes : List (Node α)) {h0 h : Heap α} {Kg Fg : Nat}
    (hK : Kg < h0.next) (hF : Fg < h0.next)
    (hrows : ∀ i, i < total_dofs nodes → h0.read_ptr Kg i < h0.next)
    {G : Nat → Vec α}
    (hr : Rep h0 (n_free nodes) h (Arr.calloc (n_free nodes) (Arr.calloc (n_free nodes) 0))
      (Arr.calloc (n_free nodes) 0) G) :
    Rep h0 (n_free nodes)
      (fill_reduced_h nodes Kg Fg h0.next (h0.next + n_free nodes + 1) h)
      (fill_reduced nodes (h0.matrix Kg (total_dofs nodes)) (h0.dbl Fg)).1
      (fill_reduced nodes (h0.matrix Kg (total_dofs nodes)) (h0.dbl Fg)).2 G := by
  unfold fill_reduced_h fill_reduced
  refine forLoop_sim (fun (u : Heap α) (v : Mat α × Vec α) =>
    Rep h0 (n_free nodes) u v.1 v.2 G) _ _ _ _ hr ?_
  intro i u v _ hi hR
  beta_reduce
  by_cases hf : (is_fixed nodes).get i = 0
  · rw [if_pos hf, if_pos hf]
    dsimp only
    have hg := rep_read_global hR hK hF hrows
    rw [hg.2 i]
    refine forLoop_sim (fun (u1 : Heap α) (K1 : Mat α) =>
      Rep h0 (n_free nodes) u1 K1
        (v.2.set ((dof_map nodes).get i).toNat ((h0.dbl Fg).get i)) G) _ _ _ _
      (rep_write_F hR _ _) ?_
    intro j u1 K1 _ hj hR1
    beta_reduce
    by_cases hfj : (is_fixed nodes).get j = 0
    · rw [if_pos hfj, if_pos hfj, (rep_read_global hR1 hK hF hrows).1 i j hi]
      exact rep_write2 hR1 (reduced_index_lt nodes hi hf) _ _
    · rw [if_neg hfj, if_neg hfj]
      exact hR1
  · rw [if_neg hf, if_neg hf]
    exact hR

/-- The pivot search on the heap returns the row that `find_pivot` returns. -/
theorem find_pivot_rep {h0 h : Heap α} {n : Nat} {K : Mat α} {F : Vec α} {G : Nat → Vec α}
    (hr : Rep h0 n h K F G) {piv : Nat} (hp : piv < n) :
    find_pivot_h h h0.next n piv = find_pivot K n piv ∧ find_pivot K n piv < n := by
  unfold find_pivot_h find_pivot
  refine forLoop_sim (fun (m1 m2 : Nat) => m1 = m2 ∧ m2 < n) _ _ _ _ ⟨rfl, hp⟩ ?_
  intro i m1 m2 _ hi ⟨e, hm⟩
  subst e
  rw [rep_read2 hr hi, rep_read2 hr hm]
  split_ifs
  · exact ⟨rfl, hi⟩
  · exact ⟨rfl, hm⟩

/-- The elimination loop on the heap is `eliminate` on the represented system. -/
theorem eliminate_rep {h0 h : Heap α} {n : Nat} {K : Mat α} {F : Vec α} {G : Nat → Vec α}
    (hr : Rep h0 n h K F G) {piv : Nat} (hp : piv < n) :
    Rep h0 n (eliminate_h h0.next (h0.next + n + 1) n piv h)
      (eliminate n piv (K, F)).1 (eliminate n piv (K, F)).2 G := by
  unfold eliminate_h eliminate
  refine forLoop_sim (fun (u : Heap α) (v : Mat α × Vec α) => Rep h0 n u v.1 v.2 G)
    _ _ _ _ hr ?_
  intro i u v _ hi hR
  beta_reduce
  dsimp only
  rw [rep_read2 hR hi, rep_read2 hR hp]
  have hinner : Rep h0 n
      (forLoop piv n (fun j h3 =>
        h3.write2 h0.next i j
          (h3.read2 h0.next i j - v.1.get2 i piv / v.1.get2 piv piv * h3.read2 h0.next piv j))
        u)
      (forLoop piv n (fun j K1 =>
        K1.set2 i j (K1.get2 i j - v.1.get2 i piv / v.1.get2 piv piv * K1.get2 piv j)) v.1)
      v.2 G := by
    refine forLoop_sim (fun (u1 : Heap α) (K1 : Mat α) => Rep h0 n u1 K1 v.2 G)
      _ _ _ _ hR ?_
    intro j u1 K1 _ _ hR1
    beta_reduce
    rw [rep_read2 hR1 hi, rep_read2 hR1 hp]
    exact rep_write2 hR1 hi _ _
  rw [rep_read hinner i, rep_read hinner piv]
  exact rep_write_F hinner _ _

theorem pivot_step_rep {h0 h : Heap α} {n : Nat} {K : Mat α} {F : Vec α} {G : Nat → Vec α}
    (hr : Rep h0 n h K F G) {piv : Nat} (hp : piv < n) :
    Rep h0 n (pivot_step_h h0.next (h0.next + n + 1) n piv h)
      (pivot_step n piv (K, F)).1 (pivot_step n piv (K, F)).2 G := by
  unfold pivot_step_h pivot_step
  obtain ⟨e, hlt⟩ := find_pivot_rep hr hp
  rw [e]
  exact eliminate_rep (swap_rows_rep hr hp hlt) hp

/-- Forward elimination on the heap is `forward_elimination` on the represented
system. -/
theorem forward_elimination_rep {h0 h : Heap α} {n : Nat} {K : Mat α} {F : Vec α} {G : Nat → Vec α}
    (hr : Rep h0 n h K F G) :
    Rep h0 n (forward_elimination_h h0.next (h0.next + n + 1) n h)
      (forward_elimination n (K, F)).1 (forward_elimination n (K, F)).2 G := by
  unfold forward_elimination_h forward_elimination
  refine forLoop_sim (fun (u : Heap α) (v : Mat α × Vec α) => Rep h0 n u v.1 v.2 G)
    _ _ _ _ hr ?_
  intro i u v _ hi hR
  exact pivot_step_rep hR hi

/-- Back substitution on the heap leaves the represented system as it is and fills the
block `D_reduced` as `back_substitution` does. -/
theorem back_substitution_rep {h0 h : Heap α} {n : Nat} {K : Mat α} {F : Vec α}
    {G : Nat → Vec α} (hr : Rep h0 n h K F G) {Dr : Nat} (hDr : h0.next + n + 2 ≤ Dr)
    (hD : G Dr = Arr.calloc n 0) :
    Rep h0 n (back_substitution_h h0.next (h0.next + n + 1) Dr n h) K F
      (with_block G Dr (back_substitution n K F)) := by
  have hw : ∀ (u : Heap α) (D : Vec α) (i : Nat) (v : Dbl α),
      Rep h0 n u K F (with_block G Dr D) →
      Rep h0 n (u.write Dr i v) K F (with_block G Dr (D.set i v)) := by
    intro u D i v h1
    have h2 := rep_write_other h1 hDr i v
    have e : with_block (with_block G Dr D) Dr ((with_block G Dr D Dr).set i v) =
        with_block G Dr (D.set i v) := by
      funext q
      unfold with_block
      by_cases hq : q = Dr
      · rw [if_pos hq, if_pos hq, if_pos rfl]
      · rw [if_neg hq, if_neg hq, if_neg hq]
    rw [e] at h2
    exact h2
  have hrd : ∀ (u : Heap α) (D : Vec α) (i : Nat),
      Rep h0 n u K F (with_block G Dr D) → u.read Dr i = D.get i := by
    intro u D i h1
    show (u.dbl Dr).get i = _
    rw [h1.2.2.2.2.2.2 Dr hDr]
    unfold with_block
    rw [if_pos rfl]
  have hstart : Rep h0 n h K F (with_block G Dr (Arr.calloc n 0)) := by
    have e : with_block G Dr (Arr.calloc n 0) = G := by
      funext q
      unfold with_block
      by_cases hq : q = Dr
      · rw [if_pos hq, hq, hD]
      · rw [if_neg hq]
    rw [e]
    exact hr
  unfold back_substitution_h back_substitution
  refine forDown_sim (fun (u : Heap α) (D : Vec α) => Rep h0 n u K F (with_block G Dr D))
    n _ _ _ _ hstart ?_
  intro i u D hi hR
  beta_reduce
  dsimp only
  rw [rep_read hR i]
  have hinner : Rep h0 n
      (forLoop (i + 1) n (fun j h4 =>
        h4.write Dr i (h4.read Dr i - h4.read2 h0.next i j * h4.read Dr j))
        (u.write Dr i (F.get i))) K F
      (with_block G Dr
        (forLoop (i + 1) n (fun j D3 => D3.set i (D3.get i - K.get2 i j * D3.get j))
          (D.set i (F.get i)))) := by
    refine forLoop_sim (fun (u1 : Heap α) (D1 : Vec α) =>
      Rep h0 n u1 K F (with_block G Dr D1)) _ _ _ _ (hw u D i _ hR) ?_
    intro j u1 D1 _ _ hR1
    beta_reduce
    rw [hrd u1 D1 i hR1, hrd u1 D1 j hR1, rep_read2 hR1 hi]
    exact hw u1 D1 i _ hR1
  rw [hrd _ _ i hinner, rep_read2 hinner hi]
  exact hw _ _ i _ hinner

/-- The expansion loop on the heap fills the block `displacements` as `expand` does and
writes nowhere else. -/
theorem expand_rep (nodes : List (Node α)) {h0 h : Heap α} {n : Nat} {K : Mat α}
    {F : Vec α} {G : Nat → Vec α} (hr : Rep h0 n h K F G) {Dr disp : Nat}
    (hDr : h0.next + n + 2 ≤ Dr) (hdisp : h0.next + n + 2 ≤ disp) (hne : Dr ≠ disp)
    (hE : G disp = Arr.calloc (total_dofs nodes) 0) :
    Rep h0 n (expand_h nodes Dr disp h) K F (with_block G disp (expand nodes (G Dr))) := by
  have hstart : Rep h0 n h K F (with_block G disp (Arr.calloc (total_dofs nodes) 0)) := by
    have e : with_block G disp (Arr.calloc (total_dofs nodes) 0) = G := by
      funext q
      unfold with_block
      by_cases hq : q = disp
      · rw [if_pos hq, hq, hE]
      · rw [if_neg hq]
    rw [e]
    exact hr
  unfold expand_h expand
  refine forLoop_sim (fun (u : Heap α) (E : Vec α) => Rep h0 n u K F (with_block G disp E))
    _ _ _ _ hstart ?_
  intro i u E _ _ hR
  beta_reduce
  by_cases hf : (is_fixed nodes).get i = 0
  · rw [if_pos hf, if_pos hf]
    have hrd : u.read Dr ((dof_map nodes).get i).toNat =
        (G Dr).get ((dof_map nodes).get i).toNat := by
      show (u.dbl Dr).get _ = _
      rw [hR.2.2.2.2.2.2 Dr hDr]
      unfold with_block
      rw [if_neg hne]
    rw [hrd]
    have h2 := rep_write_other hR hdisp i ((G Dr).get ((dof_map nodes).get i).toNat)
    have e : with_block (with_block G disp E) disp
        ((with_block G disp E disp).set i ((G Dr).get ((dof_map nodes).get i).toNat)) =
        with_block G disp (E.set i ((G Dr).get ((dof_map nodes).get i).toNat)) := by
      funext q
      unfold with_block
      by_cases hq : q = disp
      · rw [if_pos hq, if_pos hq, if_pos rfl]
      · rw [if_neg hq, if_neg hq, if_neg hq]
    rw [e] at h2
    exact h2
  · rw [if_neg hf, if_neg hf]
    exact hR

theorem sameAlloc_forLoop {lo hi : Nat} (f : Nat → Heap α → Heap α) (h : Heap α)
    (hf : ∀ i u, SameAlloc u (f i u)) : SameAlloc h (forLoop lo hi f h) := by
  by_cases hle : lo ≤ hi
  · refine forLoop_inv (fun (_ : Nat) (u : Heap α) => SameAlloc h u) hle f h ⟨rfl, rfl⟩ ?_
    intro i u _ _ hu
    exact ⟨(hf i u).1.trans hu.1, (hf i u).2.trans hu.2⟩
  · rw [forLoop_of_le (by omega)]
    exact ⟨rfl, rfl⟩

theorem sameAlloc_forDown (n : Nat) (f : Nat → Heap α → Heap α) (h : Heap α)
    (hf : ∀ i u, SameAlloc u (f i u)) : SameAlloc h (forDown n f h) := by
  induction n generalizing h with
  | zero => exact ⟨rfl, rfl⟩
  | succ k ih =>
    show SameAlloc h (forDown k f (f k h))
    have h1 := ih (f k h)
    exact ⟨h1.1.trans (hf k h).1, h1.2.trans (hf k h).2⟩

/-- Forward elimination allocates and frees nothing. -/
theorem forward_elimination_alloc (Kr Fr n : Nat) (h : Heap α) :
    SameAlloc h (forward_elimination_h Kr Fr n h) := by
  unfold forward_elimination_h
  apply sameAlloc_forLoop
  intro piv u
  unfold pivot_step_h
  have hs : SameAlloc u (swap_rows_h Kr Fr piv (find_pivot_h u Kr n piv) u) := by
    unfold swap_rows_h
    split_ifs
    · exact ⟨rfl, rfl⟩
    · exact ⟨rfl, rfl⟩
  have he : SameAlloc (swap_rows_h Kr Fr piv (find_pivot_h u Kr n piv) u)
      (eliminate_h Kr Fr n piv (swap_rows_h Kr Fr piv (find_pivot_h u Kr n piv) u)) := by
    unfold eliminate_h
    apply sameAlloc_forLoop
    intro i u1
    have hi : SameAlloc u1 (forLoop piv n (fun j h3 =>
        h3.write2 Kr i j (h3.read2 Kr i j -
          u1.read2 Kr i piv / u1.read2 Kr piv piv * h3.read2 Kr piv j)) u1) :=
      sameAlloc_forLoop _ _ (fun _ _ => ⟨rfl, rfl⟩)
    exact hi
  exact ⟨he.1.trans hs.1, he.2.trans hs.2⟩

/-- Back substitution allocates and frees nothing. -/
theorem back_substitution_alloc (Kr Fr Dr n : Nat) (h : Heap α) :
    SameAlloc h (back_substitution_h Kr Fr Dr n h) := by
  unfold back_substitution_h
  apply sameAlloc_forDown
  intro i u
  have hi : SameAlloc (u.write Dr i (u.read Fr i)) (forLoop (i + 1) n (fun j h4 =>
      h4.write Dr i (h4.read Dr i - h4.read2 Kr i j * h4.read Dr j))
      (u.write Dr i (u.read Fr i))) :=
    sameAlloc_forLoop _ _ (fun _ _ => ⟨rfl, rfl⟩)
  exact hi

/-- The expansion loop allocates and frees nothing. -/
theorem expand_alloc (nodes : List (Node α)) (Dr disp : Nat) (h : Heap α) :
    SameAlloc h (expand_h nodes Dr disp h) := by
  unfold expand_h
  apply sameAlloc_forLoop
  intro i u
  beta_reduce
  split_ifs
  · exact ⟨rfl, rfl⟩
  · exact ⟨rfl, rfl⟩

/-- The cleanup frees only blocks of the reduced system and changes no content. -/
theorem free_reduced_spec {h0 h : Heap α} {n : Nat} {K : Mat α} {F : Vec α}
    {G : Nat → Vec α} (hr : Rep h0 n h K F G) {Dr : Nat} (hDr : h0.next + n + 2 ≤ Dr) :
    (free_reduced h0.next (h0.next + n + 1) Dr n h).dbl = h.dbl ∧
    (free_reduced h0.next (h0.next + n + 1) Dr n h).ptr = h.ptr ∧
    ∀ a, a < h0.next ∨ (h0.next + n + 2 ≤ a ∧ a ≠ Dr) →
      (free_reduced h0.next (h0.next + n + 1) Dr n h).live a = h.live a := by
  obtain ⟨_, _, hrow, _, _, _, _⟩ := hr
  have hloop : (forLoop 0 n (fun i h2 => h2.free (h2.read_ptr h0.next i)) h).dbl = h.dbl ∧
      (forLoop 0 n (fun i h2 => h2.free (h2.read_ptr h0.next i)) h).ptr = h.ptr ∧
      ∀ a, a < h0.next ∨ h0.next + n < a →
        (forLoop 0 n (fun i h2 => h2.free (h2.read_ptr h0.next i)) h).live a = h.live a := by
    refine forLoop_inv (fun (_ : Nat) (u : Heap α) =>
      u.dbl = h.dbl ∧ u.ptr = h.ptr ∧ ∀ a, a < h0.next ∨ h0.next + n < a →
        u.live a = h.live a) (Nat.zero_le n) _ _ ⟨rfl, rfl, fun _ _ => rfl⟩ ?_
    intro i u _ hi ⟨h1, h2, h3⟩
    refine ⟨h1, h2, ?_⟩
    intro a ha
    show (if a = u.read_ptr h0.next i then false else u.live a) = h.live a
    have hp : u.read_ptr h0.next i = h.read_ptr h0.next i := by
      show (u.ptr h0.next).get i = (h.ptr h0.next).get i
      rw [h2]
    have := hrow i hi
    rw [if_neg (by rw [hp]; omega)]
    exact h3 a ha
  obtain ⟨h1, h2, h3⟩ := hloop
  refine ⟨h1, h2, ?_⟩
  intro a ha
  show (if a = Dr then false else if a = h0.next + n + 1 then false
    else if a = h0.next then false
    else (forLoop 0 n (fun i h2 => h2.free (h2.read_ptr h0.next i)) h).live a) = h.live a
  rw [if_neg (by omega), if_neg (by omega), if_neg (by omega)]
  exact h3 a (by omega)

/-- The heap run of `apply_boundary_conditions`: the blocks allocated before the call
keep their content and stay live, and the new block `displacements` holds what the
function `apply_boundary_conditions` above computes from the matrix and the vector that
`K_global` and `F_global` point to. -/
theorem apply_boundary_conditions_h_spec (nodes : List (Node α)) (h : Heap α) (Kg Fg : Nat)
    (hK : Kg < h.next) (hF : Fg < h.next)
    (hrows : ∀ i, i < total_dofs nodes → h.read_ptr Kg i < h.next) :
    (∀ a, a < h.next →
      (apply_boundary_conditions_h nodes Kg Fg h).1.dbl a = h.dbl a ∧
      (apply_boundary_conditions_h nodes Kg Fg h).1.ptr a = h.ptr a ∧
      (apply_boundary_conditions_h nodes Kg Fg h).1.live a = h.live a) ∧
    h.next ≤ (apply_boundary_conditions_h nodes Kg Fg h).2 ∧
    (apply_boundary_conditions_h nodes Kg Fg h).1.live
      (apply_boundary_conditions_h nodes Kg Fg h).2 = true ∧
    (apply_boundary_conditions_h nodes Kg Fg h).1.dbl
        (apply_boundary_conditions_h nodes Kg Fg h).2 =
      apply_boundary_conditions nodes (h.matrix Kg (total_dofs nodes)) (h.dbl Fg) := by
  obtain ⟨R1, hA1, hA2⟩ := alloc_reduced_rep (n_free nodes) h
  have R2 := fill_reduced_rep nodes hK hF hrows R1
  have R3 := rep_calloc R2 (n_free nodes)
  have R4 := forward_elimination_rep R3
  have hDr : h.next + n_free nodes + 2 ≤
      (fill_reduced_h nodes Kg Fg h.next (h.next + n_free nodes + 1)
        (alloc_reduced (n_free nodes) h).1).next := R2.1
  have R5 := back_substitution_rep R4 hDr (by unfold with_block; rw [if_pos rfl])
  have R6 := rep_calloc R5 (total_dofs nodes)
  have hS4 := forward_elimination_alloc h.next (h.next + n_free nodes + 1) (n_free nodes)
    ((fill_reduced_h nodes Kg Fg h.next (h.next + n_free nodes + 1)
      (alloc_reduced (n_free nodes) h).1).calloc_dbl (n_free nodes)).1
  have hS5 := back_substitution_alloc h.next (h.next + n_free nodes + 1)
    (fill_reduced_h nodes Kg Fg h.next (h.next + n_free nodes + 1)
      (alloc_reduced (n_free nodes) h).1).next (n_free nodes)
    (forward_elimination_h h.next (h.next + n_free nodes + 1) (n_free nodes)
      ((fill_reduced_h nodes Kg Fg h.next (h.next + n_free nodes + 1)
        (alloc_reduced (n_free nodes) h).1).calloc_dbl (n_free nodes)).1)
  have hnext : (back_substitution_h h.next (h.next + n_free nodes + 1)
      (fill_reduced_h nodes Kg Fg h.next (h.next + n_free nodes + 1)
        (alloc_reduced (n_free nodes) h).1).next (n_free nodes)
      (forward_elimination_h h.next (h.next + n_free nodes + 1) (n_free nodes)
        ((fill_reduced_h nodes Kg Fg h.next (h.next + n_free nodes + 1)
          (alloc_reduced (n_free nodes) h).1).calloc_dbl (n_free nodes)).1)).next =
      (fill_reduced_h nodes Kg Fg h.next (h.next + n_free nodes + 1)
        (alloc_reduced (n_free nodes) h).1).next + 1 := hS5.1.trans hS4.1
  have hdisp := R5.1
  have R7 := expand_rep nodes R6 hDr (show h.next + n_free nodes + 2 ≤ _ from hdisp)
    (by rw [hnext]; omega) (by unfold with_block; rw [if_pos rfl])
  have hS7 := expand_alloc nodes
    (fill_reduced_h nodes Kg Fg h.next (h.next + n_free nodes + 1)
      (alloc_reduced (n_free nodes) h).1).next
    (back_substitution_h h.next (h.next + n_free nodes + 1)
      (fill_reduced_h nodes Kg Fg h.next (h.next + n_free nodes + 1)
        (alloc_reduced (n_free nodes) h).1).next (n_free nodes)
      (forward_elimination_h h.next (h.next + n_free nodes + 1) (n_free nodes)
        ((fill_reduced_h nodes Kg Fg h.next (h.next + n_free nodes + 1)
          (alloc_reduced (n_free nodes) h).1).calloc_dbl (n_free nodes)).1)).next
    ((back_substitution_h h.next (h.next + n_free nodes + 1)
      (fill_reduced_h nodes Kg Fg h.next (h.next + n_free nodes + 1)
        (alloc_reduced (n_free nodes) h).1).next (n_free nodes)
      (forward_elimination_h h.next (h.next + n_free nodes + 1) (n_free nodes)
        ((fill_reduced_h nodes Kg Fg h.next (h.next + n_free nodes + 1)
          (alloc_reduced (n_free nodes) h).1).calloc_dbl (n_free nodes)).1)).calloc_dbl
      (total_dofs nodes)).1
  have hfree := free_reduced_spec R7 hDr
  have hne : (back_substitution_h h.next (h.next + n_free nodes + 1)
      (fill_reduced_h nodes Kg Fg h.next (h.next + n_free nodes + 1)
        (alloc_reduced (n_free nodes) h).1).next (n_free nodes)
      (forward_elimination_h h.next (h.next + n_free nodes + 1) (n_free nodes)
        ((fill_reduced_h nodes Kg Fg h.next (h.next + n_free nodes + 1)
          (alloc_reduced (n_free nodes) h).1).calloc_dbl (n_free nodes)).1)).next ≠
      (fill_reduced_h nodes Kg Fg h.next (h.next + n_free nodes + 1)
        (alloc_reduced (n_free nodes) h).1).next := by
    rw [hnext]
    omega
  have hval := R7.2.2.2.2.2.2 _ hdisp
  unfold with_block at hval
  rw [if_pos rfl, if_neg (fun e => hne e.symm), if_pos rfl] at hval
  unfold apply_boundary_conditions_h
  dsimp only
  rw [hA2]
  refine ⟨?_, ?_, ?_, ?_⟩
  · intro a ha
    exact ⟨(congrFun hfree.1 a).trans (R7.2.1 a ha).1,
      (congrFun hfree.2.1 a).trans (R7.2.1 a ha).2.1,
      (hfree.2.2 a (Or.inl ha)).trans (R7.2.1 a ha).2.2⟩
  · exact le_trans (by omega) hdisp
  · exact (hfree.2.2 _ (Or.inr ⟨hdisp, hne⟩)).trans
      ((congrFun hS7.2 _).trans (if_pos rfl))
  · exact (congrFun hfree.1 _).trans hval

/-- C20: on the heap, for every call of `apply_boundary_conditions` with `K_global` and
`F_global` pointing to blocks allocated before the call (the matrix through allocated
row blocks), every block allocated before the call keeps its content and stays live: in
particular the matrix reached through `K_global` and the vector `F_global` are
entry for entry what they were.  Fill, row exchanges, elimination and back substitution
write only into the blocks that the call allocates for `K_reduced`, `F_reduced` and
`D_reduced`; the new block `displacements` is live and holds the displacements computed
from that matrix and vector, and `compute_reactions` then reads the same `K` and `F`. -/
theorem C20_heap_frame (nodes : List (Node α)) (h : Heap α) (Kg Fg : Nat)
    (hK : Kg < h.next) (hF : Fg < h.next)
    (hrows : ∀ i, i < total_dofs nodes → h.read_ptr Kg i < h.next) :
    (∀ a, a < h.next →
      (apply_boundary_conditions_h nodes Kg Fg h).1.dbl a = h.dbl a ∧
      (apply_boundary_conditions_h nodes Kg Fg h).1.ptr a = h.ptr a ∧
      (apply_boundary_conditions_h nodes Kg Fg h).1.live a = h.live a) ∧
    (apply_boundary_conditions_h nodes Kg Fg h).1.matrix Kg (total_dofs nodes) =
      h.matrix Kg (total_dofs nodes) ∧
    (apply_boundary_conditions_h nodes Kg Fg h).1.dbl Fg = h.dbl Fg ∧
    h.next ≤ (apply_boundary_conditions_h nodes Kg Fg h).2 ∧
    (apply_boundary_conditions_h nodes Kg Fg h).1.live
      (apply_boundary_conditions_h nodes Kg Fg h).2 = true ∧
    (apply_boundary_conditions_h nodes Kg Fg h).1.dbl
        (apply_boundary_conditions_h nodes Kg Fg h).2 =
      apply_boundary_conditions nodes (h.matrix Kg (total_dofs nodes)) (h.dbl Fg) ∧
    compute_reactions_h nodes Kg Fg (apply_boundary_conditions_h nodes Kg Fg h).2
        (apply_boundary_conditions_h nodes Kg Fg h).1 =
      compute_reactions nodes (h.matrix Kg (total_dofs nodes)) (h.dbl Fg)
        (apply_boundary_conditions nodes (h.matrix Kg (total_dofs nodes)) (h.dbl Fg)) := by
  obtain ⟨hfr, hle, hlive, hval⟩ := apply_boundary_conditions_h_spec nodes h Kg Fg hK hF hrows
  have hM : (apply_boundary_conditions_h nodes Kg Fg h).1.matrix Kg (total_dofs nodes) =
      h.matrix Kg (total_dofs nodes) := by
    show (⟨total_dofs nodes, fun i => if i < total_dofs nodes then
        (apply_boundary_conditions_h nodes Kg Fg h).1.dbl
          (((apply_boundary_conditions_h nodes Kg Fg h).1.ptr Kg).get i)
        else Arr.calloc (total_dofs nodes) 0⟩ : Mat α) =
      ⟨total_dofs nodes, fun i => if i < total_dofs nodes then h.dbl ((h.ptr Kg).get i)
        else Arr.calloc (total_dofs nodes) 0⟩
    congr 1
    funext i
    by_cases hi : i < total_dofs nodes
    · rw [if_pos hi, if_pos hi, (hfr Kg hK).2.1]
      exact (hfr _ (hrows i hi)).1
    · rw [if_neg hi, if_neg hi]
  refine ⟨hfr, hM, (hfr Fg hF).1, hle, hlive, hval, ?_⟩
  unfold compute_reactions_h
  rw [hM, (hfr Fg hF).1, hval]

/-- Witness for C20 on `example_heap`, which holds the stiffness matrix and the load
vector of the example truss: after the call the matrix and the vector are unchanged and
the new block, number 12, holds the displacement `1/29` at DOF 3. -/
theorem C20_witness :
    ((apply_boundary_conditions_h [node_fixed, node_roller] 0 7 example_heap).1.matrix 0
        (total_dofs [node_fixed, node_roller]) =
      example_heap.matrix 0 (total_dofs [node_fixed, node_roller]) ∧
    (apply_boundary_conditions_h [node_fixed, node_roller] 0 7 example_heap).1.dbl 7 =
      example_heap.dbl 7 ∧
    (apply_boundary_conditions_h [node_fixed, node_roller] 0 7 example_heap).1.dbl
        (apply_boundary_conditions_h [node_fixed, node_roller] 0 7 example_heap).2 =
      apply_boundary_conditions [node_fixed, node_roller]
        (example_heap.matrix 0 (total_dofs [node_fixed, node_roller]))
        (example_heap.dbl 7)) ∧
    (apply_boundary_conditions_h [node_fixed, node_roller] 0 7 example_heap).2 = 12 ∧
    ((apply_boundary_conditions_h [node_fixed, node_roller] 0 7 example_heap).1.dbl 12).get 3 =
      Dbl.fin (1 / 29) ∧
    (example_heap.matrix 0 6).get2 3 3 = Dbl.fin 2900 :=
  ⟨(fun h => ⟨h.2.1, h.2.2.1, h.2.2.2.2.2.1⟩)
      (C20_heap_frame [node_fixed, node_roller] example_heap 0 7 (by decide) (by decide)
        (fun i hi => by
          have hi6 : i < 6 := hi
          show i + 1 < 8
          omega)),
    by decide!, by decide!, by decide!⟩

end Truss
